import Mathlib

/-!
# CKKS leveled homomorphic encryption: a shallow embedding

The Go package `ckks` (files `ckks.go`, `homomorphic.go`, `encoding.go`,
`instance.go`, `message.go`, `params.go`, `errors.go`) is embedded as pure Lean
functions.

* `*big.Int` is `Int`; `big.Int.Div` and `big.Int.Mod` are Euclidean, as are
  `/` and `%` on `Int`.  A division or reduction by zero, a run-time panic in
  Go, is not modelled: the theorems that divide assume a non-zero divisor.
* Go `int` is a 64-bit machine integer: arithmetic on it is wrapped by
  `wrapInt`.
* `float64`, `complex128` and `*big.Float` are read as exact numbers of an
  ordered field `R` and as pairs over it (`Complex128 R`): the operations on
  them are not rounded, except in `BMul`, whose rounding is a parameter.
* Functions that mutate an argument in place return the new value instead.
* A run-time panic of the encoder (an index out of range, a slice of negative
  length) is the value `none`.  Slice indices are computed without overflow,
  which holds for every ring dimension below `2^31`.
* The goroutines of `Encrypt`, `Add`, `Mul` and of the Vandermonde actions
  write to disjoint variables and are joined before the result is read, so
  they are embedded as the sequential computation of the same values.
* The package `ckks/negacyclic` is not part of the sources at hand; its
  operations are modelled from the specification, each one marked so.
-/

namespace Ckks

/-! ## Package `negacyclic` (modelled from the specification) -/

namespace negacyclic

/-- Modelled from the spec: the representative that `Mod` leaves in a
coefficient.  The specification leaves the choice to the implementation
("the symmetric or canonical representative modulo m"); every statement below
holds for both. -/
inductive Representative where
  | canonical
  | symmetric
  deriving DecidableEq, Repr

/-- Modelled from the spec: `negacyclic.Polynomial`, an ordered sequence of
arbitrary-precision integer coefficients, indexed from 0 (field `Coeffs`, as
used by `message.go` and `encoding.go`). -/
structure Polynomial where
  Coeffs : List Int
  deriving DecidableEq, Repr

/-- Modelled from the spec: `negacyclic.NewPolynomial(n)`, the polynomial with
`n` zero coefficients (its use in `Encode`). -/
def NewPolynomial (n : Nat) : Polynomial :=
  ⟨List.replicate n 0⟩

/-- Modelled from the spec: `negacyclic.PolynomialFromSlice`, a polynomial
with a copy of the given coefficients. -/
def PolynomialFromSlice (coeffs : List Int) : Polynomial :=
  ⟨coeffs⟩

/-- Modelled from the spec: `Add(x, y) → z`: `z[i] = x[i] + y[i]`. -/
def Add (x y : Polynomial) : Polynomial :=
  ⟨List.zipWith (fun a b => a + b) x.Coeffs y.Coeffs⟩

/-- Modelled from the spec: the reduction of one coefficient modulo `m`, to
the canonical representative in `[0, m)` or to the symmetric one in
`(-m/2, m/2]`. -/
def reduceCoeff (rep : Representative) (m c : Int) : Int :=
  match rep with
  | Representative.canonical => c % m
  | Representative.symmetric => if m < 2 * (c % m) then c % m - m else c % m

/-- Modelled from the spec: `Mod(m)`, coefficient reduction modulo `m`
(in place in Go, returning the receiver). -/
def Polynomial.Mod (rep : Representative) (x : Polynomial) (m : Int) : Polynomial :=
  ⟨x.Coeffs.map (reduceCoeff rep m)⟩

/-- Modelled from the spec: coefficient `k` of the schoolbook negacyclic
product of two coefficient lists of length `n`:
`z[k] = Σ_{i+j=k} x[i]y[j] − Σ_{i+j=k+N} x[i]y[j]`. -/
def mulCoeff (n : Nat) (x y : List Int) (k : Nat) : Int :=
  ((List.range n).map fun i => if i ≤ k then x.getD i 0 * y.getD (k - i) 0 else 0).sum
    - ((List.range n).map fun i => if k < i then x.getD i 0 * y.getD (k + n - i) 0 else 0).sum

/-- Modelled from the spec: `MulSimple(x, y)`, schoolbook negacyclic
multiplication in `ℤ[X]/(X^N+1)`, `N` the number of coefficients of `x`. -/
def MulSimple (x y : Polynomial) : Polynomial :=
  ⟨(List.range x.Coeffs.length).map (mulCoeff x.Coeffs.length x.Coeffs y.Coeffs)⟩

/-- Modelled from the spec: `⌊c/d⌉`, "nearest integer, ties away from zero"
(`d > 0`): the sign of `c` times `⌊|c|/d + 1/2⌋`, which is the specification's
`(c + sign(c)·d/2)/d` with the quotient truncated towards zero. -/
def roundNearest (d c : Int) : Int :=
  Int.sign c * ((2 * |c| + d) / (2 * d))

/-- Modelled from the spec: `ScaleNearest(d)`, coefficient-wise `⌊c/d⌉`. -/
def Polynomial.ScaleNearest (x : Polynomial) (d : Int) : Polynomial :=
  ⟨x.Coeffs.map (roundNearest d)⟩

/-- Modelled from the spec: `negacyclic.ZMultiplier`, the integer multiplier
of ring dimension `N`. -/
structure ZMultiplier where
  N : Int
  deriving DecidableEq, Repr

/-- Modelled from the spec: `ZMultiplier.Mul`, negacyclic multiplication over
the integers, producing exact integer results (the arithmetic headroom the
specification mentions is taken to be sufficient). -/
def ZMultiplier.Mul (_zm : ZMultiplier) (x y : Polynomial) : Polynomial :=
  MulSimple x y

/-- Modelled from the spec: `negacyclic.CRTMultiplier`, the multiplier modulo
a known composite modulus fixed when it is built (`q₀·p^L` in the description
of the ring layer, `p·q₀·p^L` in the data model: the modulus is a field, and
the statements assume what they need of it). -/
structure CRTMultiplier where
  N : Int
  modulus : Int
  deriving DecidableEq, Repr

/-- Modelled from the spec: `CRTMultiplier.Mul`, negacyclic multiplication
reduced modulo the multiplier's modulus. -/
def CRTMultiplier.Mul (rep : Representative) (cm : CRTMultiplier) (x y : Polynomial) :
    Polynomial :=
  (MulSimple x y).Mod rep cm.modulus

end negacyclic

open negacyclic

/-! ## Machine integers and `math/big` -/

/-- A Go `int` is 64 bits wide: the value an exact result wraps to. -/
def wrapInt (x : Int) : Int :=
  (x + 2 ^ 63) % 2 ^ 64 - 2 ^ 63

/-- The call `new(big.Int).Exp(x, y, nil)`: `x ^ y`, and 1 when `y ≤ 0`. -/
def bigExp (x y : Int) : Int :=
  if y ≤ 0 then 1 else x ^ y.toNat

/-! ## `errors.go` -/

/-- The errors of `errors.go`. -/
inductive Error where
  | ErrBadEncoding
  | ErrInconsistentKey
  | ErrLevelOverflow
  | ErrWarningInsecure
  | ErrIncompatibleCiphertexts
  | ErrBadParameters (errMsg : String)
  deriving DecidableEq, Repr

/-! ## `complex128` -/

/-- A `complex128`, over exact numbers `R`. -/
structure Complex128 (R : Type) where
  re : R
  im : R
  deriving DecidableEq, Repr

namespace Complex128

variable {R : Type}

instance [Zero R] : Zero (Complex128 R) := ⟨⟨0, 0⟩⟩

instance [Add R] : Add (Complex128 R) :=
  ⟨fun x y => ⟨x.re + y.re, x.im + y.im⟩⟩

instance [Add R] [Sub R] [Mul R] : Mul (Complex128 R) :=
  ⟨fun x y => ⟨x.re * y.re - x.im * y.im, x.re * y.im + x.im * y.re⟩⟩

instance [Add R] [Sub R] [Mul R] [Div R] : Div (Complex128 R) :=
  ⟨fun x y => ⟨(x.re * y.re + x.im * y.im) / (y.re * y.re + y.im * y.im),
    (x.im * y.re - x.re * y.im) / (y.re * y.re + y.im * y.im)⟩⟩

/-- The complex number that a `complex128` over the reals stands for. -/
def toComplex (x : Complex128 ℝ) : ℂ :=
  ⟨x.re, x.im⟩

end Complex128

/-! ## `params.go`, `instance.go`, `message.go` -/

/-- Parameters of the CKKS scheme (`params.go`). -/
structure Parameters (R : Type) where
  N : Int
  Depth : Int
  BitLenP : Int
  BitLenQ : Int
  Hamming : Int
  Sigma : R

/-- A precomputed context of the scheme (`instance.go`). -/
structure Instance (R : Type) extends Parameters R where
  p : Int
  q0 : Int
  pEv : Int
  crtRoots : List (Complex128 R)
  bClean : Int
  bScale : Int
  multiplier : CRTMultiplier
  zMultiplier : ZMultiplier

/-- A native plaintext of the scheme (`message.go`). -/
structure Plaintext where
  m : Polynomial
  deriving DecidableEq, Repr

/-- A ciphertext with its level and modulus (`message.go`). -/
structure Ciphertext where
  a : Polynomial
  b : Polynomial
  level : Int
  ql : Int
  deriving DecidableEq, Repr

/-- Modelled from the spec: `SecretKey`, a polynomial `s` (the file declaring
the key types is not part of the sources; `Decrypt` reads `sk.s`). -/
structure SecretKey where
  s : Polynomial
  deriving DecidableEq, Repr

/-- Modelled from the spec: `PublicKey`, a pair `(b, a)` (`Encrypt` reads
`pk.b` and `pk.a`). -/
structure PublicKey where
  b : Polynomial
  a : Polynomial
  deriving DecidableEq, Repr

/-- Modelled from the spec: `EvaluationKey`, a pair `(b, a)` (`Mul` reads
`evk.b` and `evk.a`). -/
structure EvaluationKey where
  b : Polynomial
  a : Polynomial
  deriving DecidableEq, Repr

section Operations

variable {R : Type}

/-- The method `Instance.FirstModulus`: `q_0 * p^L`, the modulus of fresh
ciphertexts. -/
def Instance.FirstModulus (ins : Instance R) : Int :=
  bigExp ins.p ins.Depth * ins.q0

/-- The method `Instance.LastModulus`: `q_0`. -/
def Instance.LastModulus (ins : Instance R) : Int :=
  ins.q0

/-- The method `Ciphertext.Clone`. -/
def Ciphertext.Clone (ciph : Ciphertext) : Ciphertext :=
  { a := PolynomialFromSlice ciph.a.Coeffs,
    b := PolynomialFromSlice ciph.b.Coeffs,
    level := ciph.level,
    ql := ciph.ql }

/-- The method `Ciphertext.Level`. -/
def Ciphertext.Level (ciph : Ciphertext) : Int :=
  ciph.level

/-- The method `Ciphertext.Modulus`. -/
def Ciphertext.Modulus (ciph : Ciphertext) : Int :=
  ciph.ql

/-- The method `Instance.Encrypt` (`ckks.go`).  The three polynomials it
samples, `v` from `ZO(N, 0.5)` and `e0`, `e1` from `DG(N, Sigma)`, are
arguments. -/
def Instance.Encrypt (rep : Representative) (ins : Instance R) (pk : PublicKey)
    (pt : Plaintext) (v e0 e1 : Polynomial) : Ciphertext :=
  let modulus := ins.FirstModulus
  let c0 := (Add (Add (ins.zMultiplier.Mul pk.b v) e0) pt.m).Mod rep modulus
  let c1 := (Add (ins.zMultiplier.Mul pk.a v) e1).Mod rep modulus
  { b := c0, a := c1, level := ins.Depth, ql := modulus }

/-- The method `Instance.Decrypt` (`ckks.go`). -/
def Instance.Decrypt (rep : Representative) (_ins : Instance R) (sk : SecretKey)
    (c : Ciphertext) : Plaintext :=
  { m := (Add (MulSimple c.a sk.s) c.b).Mod rep c.ql }

/-- The method `Instance.RS` (`homomorphic.go`); the ciphertext it mutates is
returned.  The offset `level - ciph.level` and its negation are machine
integers. -/
def Instance.RS (rep : Representative) (ins : Instance R) (ciph : Ciphertext)
    (level : Int) : Ciphertext :=
  if ciph.level ≤ level then ciph
  else
    let offset := wrapInt (level - ciph.level)
    let denom := bigExp ins.p (wrapInt (-offset))
    let modulus := ciph.ql / denom
    { a := (ciph.a.ScaleNearest denom).Mod rep modulus,
      b := (ciph.b.ScaleNearest denom).Mod rep modulus,
      level := level,
      ql := modulus }

/-- The method `Instance.Equalize` (`homomorphic.go`); the two ciphertexts,
either of which it may mutate, are returned. -/
def Instance.Equalize (rep : Representative) (ins : Instance R) (c1 c2 : Ciphertext) :
    Ciphertext × Ciphertext :=
  if c1.level = c2.level then (c1, c2)
  else if c1.level < c2.level then (ins.RS rep c1 c2.level, c2)
  else (c1, ins.RS rep c2 c1.level)

/-- The method `Instance.Add` (`homomorphic.go`): the ciphertext it returns. -/
def Instance.Add (rep : Representative) (ins : Instance R) (c1 c2 : Ciphertext) :
    Ciphertext :=
  let cs := ins.Equalize rep c1 c2
  let aAdd := (negacyclic.Add cs.1.a cs.2.a).Mod rep cs.1.ql
  let bAdd := (negacyclic.Add cs.1.b cs.2.b).Mod rep cs.1.ql
  { a := aAdd, b := bAdd, level := cs.1.level, ql := cs.1.ql }

/-- The method `Instance.Mul` (`homomorphic.go`): the ciphertext and the error
it returns. -/
def Instance.Mul (rep : Representative) (ins : Instance R) (evk : EvaluationKey)
    (c1 c2 : Ciphertext) : Except Error Ciphertext :=
  let cs := ins.Equalize rep c1 c2
  let level := cs.1.level
  let modulus := cs.1.ql
  let d0 := (ins.multiplier.Mul rep cs.1.b cs.2.b).Mod rep modulus
  let d1 := (negacyclic.Add (ins.multiplier.Mul rep cs.1.a cs.2.b)
    (ins.multiplier.Mul rep cs.2.a cs.1.b)).Mod rep modulus
  let d2 := (ins.multiplier.Mul rep cs.1.a cs.2.a).Mod rep modulus
  let nearestA := (ins.zMultiplier.Mul d2 evk.a).ScaleNearest ins.pEv
  let nearestB := (ins.zMultiplier.Mul d2 evk.b).ScaleNearest ins.pEv
  let aMul := (negacyclic.Add d1 nearestA).Mod rep modulus
  let bMul := (negacyclic.Add d0 nearestB).Mod rep modulus
  Except.ok { a := aMul, b := bMul, level := level, ql := modulus }

end Operations

/-! ## `encoding.go` -/

section Encoding

variable {R : Type}

/-- The function `nearestIntegerSmall` of `encoding.go`, in exact arithmetic:
the sum `abs + .5` is not rounded.  In float64 the sum is rounded to 53 bits
before `math.Floor`, so the code and this definition differ where the sum is
not a float64 (at `0.49999999999999994` the code returns 1, the definition 0);
they agree wherever the sum is exact, as at every multiple of `1/2` below
`2^52`. -/
def nearestIntegerSmall [LinearOrderedField R] [FloorRing R] (x : R) : R :=
  let abs := |x|
  let res : R := (⌊abs + 1 / 2⌋ : Int)
  if x < 0 then -res else res

/-- The method `big.Float.Int`, and the conversion `int64(x)` of a float: the
integer part of `x`, truncated towards zero. -/
def truncToInt [LinearOrderedField R] [FloorRing R] (x : R) : Int :=
  if 0 ≤ x then ⌊x⌋ else ⌈x⌉

/-- The function `nearestInteger` of `encoding.go`, in exact arithmetic: the
sum of `pos.Add` is not rounded.  On a `big.Float` of 53 bits the sum is
rounded to 53 bits before `Int` truncates it, so the code and this definition
differ where the sum is not representable (at `0.49999999999999994` the code
returns 1, the definition 0); they agree wherever the sum is exact. -/
def nearestInteger [LinearOrderedField R] [FloorRing R] (x : R) : Int :=
  let pos := |x| + 1 / 2
  let res := truncToInt pos
  if x < 0 then -res else res

/-- The function `VandermondeActionInverse` of `encoding.go`.  An index out of
range, a run-time panic in Go, gives `none`. -/
def VandermondeActionInverse [Field R] (roots z : List (Complex128 R)) :
    Option (List (Complex128 R)) :=
  let N := z.length
  let M := 2 * z.length
  (List.range N).mapM fun i => do
    let aux ← (List.range N).foldlM
      (fun (aux : Complex128 R) j => do
        let zj ← z[N - 1 - j]?
        let root ← roots[(2 * j + 1) * i % M]?
        pure (aux + zj * root))
      (0 : Complex128 R)
    pure (aux / ⟨(N : R), 0⟩)

/-- The function `VandermondeAction` of `encoding.go`.  An index out of range
gives `none`. -/
def VandermondeAction [Field R] (roots z : List (Complex128 R)) :
    Option (List (Complex128 R)) :=
  let N := z.length
  let M := 2 * z.length
  (List.range N).mapM fun i =>
    (List.range N).foldlM
      (fun (aux : Complex128 R) j => do
        let zj ← z[j]?
        let root ← roots[(2 * i + 1) * j % M]?
        let coeff := zj * root
        pure (aux + coeff))
      (0 : Complex128 R)

/-- The method `Instance.Encode` of `encoding.go`: `none` is a run-time panic
(an index out of range, or `negacyclic.NewPolynomial` of a negative
dimension), `some` carries the pair (plaintext, error) that Go returns.  The
slice `zExpanded` is `z` followed by the conjugates of its entries in reverse
order; the coefficients of `encoded` that the loop does not write stay 0. -/
def Instance.Encode [LinearOrderedField R] [FloorRing R] (ins : Instance R)
    (z : List (Complex128 R)) (delta : Int) : Option (Except Error Plaintext) :=
  if (z.length : Int) ≠ Int.tdiv ins.N 2 then some (Except.error Error.ErrBadEncoding)
  else
    let zExpanded := z ++ (z.map fun c => (⟨c.re, -c.im⟩ : Complex128 R)).reverse
    match VandermondeActionInverse ins.crtRoots zExpanded with
    | none => none
    | some pol =>
      if ins.N < 0 then none
      else
        let encoded := NewPolynomial ins.N.toNat
        let bigDelta : R := (delta : R)
        some (Except.ok
          { m := ⟨(pol.map fun c => nearestInteger (c.re * bigDelta))
              ++ encoded.Coeffs.drop pol.length⟩ })

/-- The method `Instance.Decode` of `encoding.go`: `none` is a run-time panic
(an index out of range, a negative dimension), or a division of a coefficient
by `delta = 0`, where `big.Float.Quo` panics (`0/0`) or gives an infinity, so
that the result is not a vector of numbers. -/
def Instance.Decode [LinearOrderedField R] [FloorRing R] (ins : Instance R)
    (plt : Plaintext) (delta : Int) : Option (List (Complex128 R)) :=
  if ins.N < 0 then none
  else do
    let N := ins.N.toNat
    let bigDelta : R := (delta : R)
    let zExpanded ← (List.range N).mapM fun i => do
      let c : Int ← plt.m.Coeffs[i]?
      if delta = 0 then none
      else pure (⟨(c : R) / bigDelta, 0⟩ : Complex128 R)
    let pol ← VandermondeAction ins.crtRoots zExpanded
    (List.range (N / 2)).mapM fun i => do
      let w ← pol[i]?
      pure (⟨nearestIntegerSmall w.re, nearestIntegerSmall w.im⟩ : Complex128 R)

end Encoding

/-! ## `instance.go`: validation and construction -/

/-- The bitwise `&` of two Go `int`: the operands are read as unsigned 64-bit
words, and the word of the result is read back as a signed one. -/
def andInt (x y : Int) : Int :=
  wrapInt (((x % 2 ^ 64).toNat &&& (y % 2 ^ 64).toNat : ℕ) : Int)

/-- The functions and the constants of package `math` that `instance.go`
uses, over exact numbers `R`. -/
structure FloatMath (R : Type) where
  Pi : R
  Sqrt2 : R
  Cos : R → R
  Sin : R → R
  Sqrt : R → R

section Construction

variable {R : Type}

/-- The method `Instance.Sanitize` of `instance.go`; `none` is the `nil`
error. -/
def Instance.Sanitize (ins : Instance R) : Option Error :=
  if ins.N = 0 ∨ andInt ins.N (wrapInt (ins.N - 1)) ≠ 0 then
    some (Error.ErrBadParameters "ring dimension should be a power of 2")
  else if ins.N < ins.Hamming then
    some (Error.ErrBadParameters "hamming weight is incompatible with ring")
  else if ins.N < 256 ∨ ins.Hamming < 64 then
    some Error.ErrWarningInsecure
  else none

/-- The function `PrimitiveRootOfUnity` of `instance.go`. -/
def PrimitiveRootOfUnity [Field R] (fm : FloatMath R) (index n : Int) : Complex128 R :=
  let exp := fm.Pi * 2 * (index : R) / (n : R)
  ⟨fm.Cos exp, fm.Sin exp⟩

/-- The function `computeBclean` of `instance.go`; the conversion `int64(x)`
of a float truncates towards zero. -/
def computeBclean [LinearOrderedField R] [FloorRing R] (fm : FloatMath R) (sigma : R)
    (dim hamming : Int) : Int :=
  let N : R := (dim : R)
  let h : R := (hamming : R)
  let bClean := 8 * fm.Sqrt2 * sigma * N
  let bClean := bClean + 6 * sigma * fm.Sqrt N
  let bClean := bClean + 16 * sigma * fm.Sqrt (h * N)
  truncToInt bClean

/-- The function `computeBscale` of `instance.go`. -/
def computeBscale [LinearOrderedField R] [FloorRing R] (fm : FloatMath R)
    (dim hamming : Int) : Int :=
  let N : R := (dim : R)
  let h : R := (hamming : R)
  let bScale := fm.Sqrt (N / 3) * (3 + h * fm.Sqrt 8)
  truncToInt bScale

/-- The function `NewInstance` of `instance.go`.  The values that the three
calls of `negacyclic.RLWEPrime` and the constructors `NewCRTMultiplier` and
`NewZMultiplier` return (code that is not part of the sources) are the
arguments `p`, `q0`, `pEval`, `multiplier` and `zMultiplier`.  The outer
`none` is a run-time panic (`make` with a negative length); the pair is the
pair (instance, error) that Go returns, `none` standing for `nil`. -/
def NewInstance [LinearOrderedField R] [FloorRing R] (fm : FloatMath R)
    (params : Parameters R) (p q0 pEval : Int) (multiplier : CRTMultiplier)
    (zMultiplier : ZMultiplier) : Option (Option (Instance R) × Option Error) :=
  let M := wrapInt (2 * params.N)
  if M < 0 then none
  else
    let crtRoots := (List.range M.toNat).map fun i => PrimitiveRootOfUnity fm (i : Int) M
    let inst : Instance R :=
      { toParameters := params,
        p := p,
        q0 := q0,
        pEv := pEval,
        crtRoots := crtRoots,
        bClean := computeBclean fm params.Sigma params.N params.Hamming,
        bScale := computeBscale fm params.N params.Hamming,
        multiplier := multiplier,
        zMultiplier := zMultiplier }
    match inst.Sanitize with
    | some err =>
      if err ≠ Error.ErrWarningInsecure then some (none, some err)
      else some (some inst, some err)
    | none => some (some inst, none)

/-- The conversion `int64(x)` of a float64: the integer part of `x`, truncated
towards zero, when it is an `int64`.  Outside that range Go leaves the result
to the implementation; the value here is the one of amd64, `-2^63`. -/
def float64ToInt64 [LinearOrderedField R] [FloorRing R] (x : R) : Int :=
  let t := truncToInt x
  if -(2 ^ 63) ≤ t ∧ t < 2 ^ 63 then t else -(2 ^ 63)

/-- The value of the local variable `bKs` of `Instance.BMul`:
`float64(8) * ins.Sigma * float64(ins.N) / math.Sqrt(3)`, evaluated from left
to right.  The function `round` is the rounding of an exact result to a
float64, which the conversion of `ins.N` and each of the three operations
apply; with the identity for `round` this is the exact `8·Sigma·N/√3`. -/
def Instance.bKs [Field R] (fm : FloatMath R) (round : R → R) (ins : Instance R) : R :=
  round (round (round (8 * ins.Sigma) * round (ins.N : R)) / fm.Sqrt 3)

/-- The method `Instance.BMul` of `instance.go`, with the rounding `round` of
float64 arithmetic: `big.Int.Mul` is exact and `big.Int.Quo` is the quotient
truncated towards zero. -/
def Instance.BMul [LinearOrderedField R] [FloorRing R] (fm : FloatMath R) (round : R → R)
    (ins : Instance R) (modulus : Int) : Int :=
  let bKs := ins.bKs fm round
  let result := float64ToInt64 bKs
  let result := result * modulus
  let result := Int.tdiv result ins.pEv
  result + ins.bScale

end Construction

/-! ## Vocabulary of the statements -/

/-- Coefficient-wise congruence modulo `m` of two polynomials with the same
number of coefficients. -/
def CongruentMod (m : Int) (x y : Polynomial) : Prop :=
  x.Coeffs.length = y.Coeffs.length ∧
    ∀ i, i < x.Coeffs.length → x.Coeffs.getD i 0 ≡ y.Coeffs.getD i 0 [ZMOD m]

instance (m : Int) (x y : Polynomial) : Decidable (CongruentMod m x y) := by
  unfold CongruentMod
  infer_instance

/-- The polynomial `c * x`, every coefficient multiplied by the integer `c`. -/
def scalePoly (c : Int) (x : Polynomial) : Polynomial :=
  ⟨x.Coeffs.map fun a => c * a⟩

/-- Every coefficient of `x` has absolute value at most `bound / 2`. -/
def HalfBounded (bound : Int) (x : Polynomial) : Prop :=
  ∀ c ∈ x.Coeffs, 2 * |c| ≤ bound

instance (bound : Int) (x : Polynomial) : Decidable (HalfBounded bound x) := by
  unfold HalfBounded
  infer_instance

/-- The value `Σ_i x[i] * t^i` of a coefficient list at an element `t` of a
commutative ring. -/
def evalAt {A : Type} [CommRing A] (t : A) (x : List Int) : A :=
  ∑ i ∈ Finset.range x.length, (x.getD i 0 : A) * t ^ i

/-- Entry `i` of the vector that `VandermondeActionInverse` returns when no
index is out of range: `(Σ_j z[N-1-j] * roots[(2j+1)i mod 2N]) / N`. -/
def vandermondeInverseEntry {R : Type} [Field R] (roots z : List (Complex128 R)) (i : ℕ) :
    Complex128 R :=
  ((List.range z.length).foldl
    (fun aux j => aux + z.getD (z.length - 1 - j) 0
      * roots.getD ((2 * j + 1) * i % (2 * z.length)) 0) 0)
    / ⟨(z.length : R), 0⟩

/-- Entry `i` of the vector that `VandermondeAction` returns when no index is
out of range: `Σ_j z[j] * roots[(2i+1)j mod 2N]`. -/
def vandermondeEntry {R : Type} [Field R] (roots z : List (Complex128 R)) (i : ℕ) :
    Complex128 R :=
  (List.range z.length).foldl
    (fun aux j => aux + z.getD j 0 * roots.getD ((2 * i + 1) * j % (2 * z.length)) 0) 0

/-- The vector `Encode` hands to `VandermondeActionInverse`: `z` followed by
the conjugates of its entries in reverse order. -/
def mirrored {R : Type} [Neg R] (z : List (Complex128 R)) : List (Complex128 R) :=
  z ++ (z.map fun c => (⟨c.re, -c.im⟩ : Complex128 R)).reverse

/-- The integer `n` is a power of two. -/
def IsPowerOfTwo (n : Int) : Prop :=
  ∃ k : ℕ, n = 2 ^ k

/-- The error is one that `ErrBadParameters` builds. -/
def Error.IsBadParameters (e : Error) : Prop :=
  ∃ msg : String, e = Error.ErrBadParameters msg

/-- The index expression `(2*a+1)*b % M` of the two Vandermonde actions, as Go
computes it on 64-bit integers: every intermediate result wraps, and `%` is
the remainder of the division truncated towards zero. -/
def rootIndex (M a b : Int) : Int :=
  Int.tmod (wrapInt (wrapInt (wrapInt (2 * a) + 1) * b)) M

/-- Every coefficient of `s` is `-1`, `0` or `1`. -/
def IsTernary (s : Polynomial) : Prop :=
  ∀ c ∈ s.Coeffs, c = -1 ∨ c = 0 ∨ c = 1

instance (s : Polynomial) : Decidable (IsTernary s) := by
  unfold IsTernary
  infer_instance

/-- The number of non-zero coefficients of `s`. -/
def hammingWeight (s : Polynomial) : ℕ :=
  (s.Coeffs.filter fun c => decide (c ≠ 0)).length

/-- The ciphertexts that `Encrypt` and any sequence of `Add`, `Mul`,
`Equalize`, `Clone` and `RS` with non-negative target levels produce. -/
inductive Reachable {R : Type} (rep : Representative) (ins : Instance R) : Ciphertext → Prop where
  | encrypt (pk : PublicKey) (pt : Plaintext) (v e0 e1 : Polynomial) :
      Reachable rep ins (ins.Encrypt rep pk pt v e0 e1)
  | add (c1 c2 : Ciphertext) : Reachable rep ins c1 → Reachable rep ins c2 →
      Reachable rep ins (ins.Add rep c1 c2)
  | mul (evk : EvaluationKey) (c1 c2 c : Ciphertext) : Reachable rep ins c1 →
      Reachable rep ins c2 → ins.Mul rep evk c1 c2 = Except.ok c → Reachable rep ins c
  | equalizeFirst (c1 c2 : Ciphertext) : Reachable rep ins c1 → Reachable rep ins c2 →
      Reachable rep ins (ins.Equalize rep c1 c2).1
  | equalizeSecond (c1 c2 : Ciphertext) : Reachable rep ins c1 → Reachable rep ins c2 →
      Reachable rep ins (ins.Equalize rep c1 c2).2
  | clone (c : Ciphertext) : Reachable rep ins c → Reachable rep ins c.Clone
  | rs (c : Ciphertext) (k : Int) : 0 ≤ k → Reachable rep ins c →
      Reachable rep ins (ins.RS rep c k)

/-- The nearest integer to `x`, ties away from zero. -/
def roundHalfAway {R : Type} [LinearOrderedField R] [FloorRing R] (x : R) : Int :=
  if 0 ≤ x then ⌊x + 1 / 2⌋ else ⌈x - 1 / 2⌉

/-- The instance of the test `testEncodeDecodeArticle` (`N = 4`, `Depth = 3`,
`Hamming = 2`, `Sigma = 3.4`, bit lengths 30 and 100), with primes congruent
to 1 modulo 8 of 30, 100 and 190 bits and the table of the eight eighth roots
of unity written with `s`, which stands for `√2/2`. -/
def articleInstance (R : Type) [Field R] (s : R) : Instance R :=
  { N := 4, Depth := 3, BitLenP := 30, BitLenQ := 100, Hamming := 2, Sigma := 17 / 5,
    p := 1073741833, q0 := 1267650600228229401496703205953,
    pEv := 1569275433846670190958947355801916604025588861116008628353,
    crtRoots := [⟨1, 0⟩, ⟨s, s⟩, ⟨0, 1⟩, ⟨-s, s⟩, ⟨-1, 0⟩, ⟨-s, -s⟩, ⟨0, -1⟩, ⟨s, -s⟩],
    bClean := 348, bScale := 9,
    multiplier := { N := 4, modulus := 1267650600228229401496703205953 * 1073741833 ^ 3 },
    zMultiplier := { N := 4 } }

/-- The parameters of the toy example of the specification: `N = 32`,
`Depth = 1`, `Hamming = 2`, `Sigma = 0.5`, bit lengths 30 and 150. -/
def toyParameters (R : Type) [Field R] : Parameters R :=
  { N := 32, Depth := 1, BitLenP := 30, BitLenQ := 150, Hamming := 2, Sigma := 1 / 2 }

/-- A small instance: `N = 2`, `Depth = 2`, `p = 5`, `q0 = 13`, `P = 337`
(three primes congruent to 1 modulo `2N = 4`), the four exact fourth roots of
unity, and the multiplier modulus `q0 * p^2 = 325`. -/
def toyInstance (R : Type) [Field R] : Instance R :=
  { N := 2, Depth := 2, BitLenP := 3, BitLenQ := 4, Hamming := 1, Sigma := 1 / 2,
    p := 5, q0 := 13, pEv := 337,
    crtRoots := [⟨1, 0⟩, ⟨0, 1⟩, ⟨-1, 0⟩, ⟨0, -1⟩],
    bClean := 26, bScale := 4,
    multiplier := { N := 2, modulus := 325 },
    zMultiplier := { N := 2 } }

/-- The small instance with a table of roots computed in float64: the values
of `cos(π/2)`, `sin(π)` and `-cos(3π/2)` at the float64 angles are not 0 but
`e1`, `e2`, `e3`, of size about `10^-16`; the other entries are exact. -/
def floatTableInstance (R : Type) [Field R] (e1 e2 e3 : R) : Instance R :=
  { N := 2, Depth := 2, BitLenP := 3, BitLenQ := 4, Hamming := 1, Sigma := 1 / 2,
    p := 5, q0 := 13, pEv := 337,
    crtRoots := [⟨1, 0⟩, ⟨e1, 1⟩, ⟨-1, e2⟩, ⟨-e3, -1⟩],
    bClean := 26, bScale := 4,
    multiplier := { N := 2, modulus := 325 },
    zMultiplier := { N := 2 } }

/-- A ciphertext of the small instance at level 2, modulus `13 * 5^2`. -/
def toyCipherTop : Ciphertext :=
  { a := ⟨[101, 7]⟩, b := ⟨[30, 200]⟩, level := 2, ql := 325 }

/-- A ciphertext of the small instance at level 1, modulus `13 * 5`. -/
def toyCipherMid : Ciphertext :=
  { a := ⟨[11, 64]⟩, b := ⟨[3, 40]⟩, level := 1, ql := 65 }

/-- An evaluation key of the small instance for the secret `1 - X`: with
`e' = 1 - X`, `b' + a'*s ≡ e' + P*s*s` modulo `P * q_L = 337 * 325`. -/
def toyEvaluationKey : EvaluationKey :=
  { b := ⟨[109514, 108848]⟩, a := ⟨[5, 7]⟩ }

/-- A ciphertext at level 1 whose coefficients are not reduced modulo its
modulus `13 * 5`. -/
def toyCipherUnreduced : Ciphertext :=
  { a := ⟨[66, 7]⟩, b := ⟨[3, 140]⟩, level := 1, ql := 65 }

/-! ## Rescaling, levels and moduli -/

theorem wrapInt_of_range (x : Int) (h0 : -(2 ^ 63) ≤ x) (h1 : x < 2 ^ 63) : wrapInt x = x := by
  unfold wrapInt
  omega

theorem bigExp_of_nonneg (x y : Int) (hy : 0 ≤ y) : bigExp x y = x ^ y.toNat := by
  unfold bigExp
  split
  · have : y = 0 := by omega
    subst this
    simp
  · rfl

/-- The denominator that `RS` computes when it lowers a level `l` of the
machine range to a target `0 ≤ k < l`. -/
theorem rs_denom (x k l : Int) (h0 : 0 ≤ k) (h1 : k < l) (h2 : l < 2 ^ 63) :
    bigExp x (wrapInt (-(wrapInt (k - l)))) = x ^ (l - k).toNat := by
  have hw : wrapInt (-(wrapInt (k - l))) = l - k := by
    unfold wrapInt
    omega
  rw [hw, bigExp_of_nonneg _ _ (by omega)]

theorem equalize_eq {R : Type} (rep : Representative) (ins : Instance R) (c1 c2 : Ciphertext) :
    ins.Equalize rep c1 c2 = (c1, c2) := by
  unfold Instance.Equalize Instance.RS
  split
  · rfl
  · split
    · rw [if_pos (by omega)]
    · rw [if_pos (by omega)]

/-- C8: `RS` is a no-op on a ciphertext that is already at or below the target
level: for every target `k ≥ c.level` it returns `c` itself, so `a`, `b`,
`level` and `ql` are unchanged. -/
theorem rs_noop {R : Type} (rep : Representative) (ins : Instance R) (c : Ciphertext) (k : Int)
    (h : c.level ≤ k) :
    ins.RS rep c k = c ∧ (ins.RS rep c k).a = c.a ∧ (ins.RS rep c k).b = c.b ∧
      (ins.RS rep c k).level = c.level ∧ (ins.RS rep c k).ql = c.ql := by
  have : ins.RS rep c k = c := by
    unfold Instance.RS
    rw [if_pos h]
  simp [this]

theorem rs_noop_witness :
    (toyInstance ℚ).RS Representative.canonical toyCipherMid 2 = toyCipherMid ∧
      ((toyInstance ℚ).RS Representative.canonical toyCipherMid 2).a = toyCipherMid.a ∧
      ((toyInstance ℚ).RS Representative.canonical toyCipherMid 2).b = toyCipherMid.b ∧
      ((toyInstance ℚ).RS Representative.canonical toyCipherMid 2).level = toyCipherMid.level ∧
      ((toyInstance ℚ).RS Representative.canonical toyCipherMid 2).ql = toyCipherMid.ql :=
  rs_noop Representative.canonical (toyInstance ℚ) toyCipherMid 2 (by decide)

/-- C10: a fresh ciphertext sits at the top level: whatever the public key,
the plaintext and the sampled polynomials, `Encrypt` returns a ciphertext with
`level = Depth` and `ql = q0 * p^Depth = FirstModulus()`. -/
theorem encrypt_level_modulus {R : Type} (rep : Representative) (ins : Instance R)
    (pk : PublicKey) (pt : Plaintext) (v e0 e1 : Polynomial) (hD : 0 ≤ ins.Depth) :
    (ins.Encrypt rep pk pt v e0 e1).level = ins.Depth ∧
      (ins.Encrypt rep pk pt v e0 e1).ql = ins.q0 * ins.p ^ ins.Depth.toNat ∧
      (ins.Encrypt rep pk pt v e0 e1).ql = ins.FirstModulus := by
  refine ⟨rfl, ?_, rfl⟩
  show ins.FirstModulus = _
  unfold Instance.FirstModulus
  rw [bigExp_of_nonneg _ _ hD, mul_comm]

theorem encrypt_level_modulus_witness :
    ((toyInstance ℚ).Encrypt Representative.symmetric ⟨⟨[4, 9]⟩, ⟨[100, 3]⟩⟩ ⟨⟨[64, -64]⟩⟩
        ⟨[1, -1]⟩ ⟨[0, 1]⟩ ⟨[-1, 0]⟩).level = (toyInstance ℚ).Depth ∧
      ((toyInstance ℚ).Encrypt Representative.symmetric ⟨⟨[4, 9]⟩, ⟨[100, 3]⟩⟩ ⟨⟨[64, -64]⟩⟩
        ⟨[1, -1]⟩ ⟨[0, 1]⟩ ⟨[-1, 0]⟩).ql
        = (toyInstance ℚ).q0 * (toyInstance ℚ).p ^ (toyInstance ℚ).Depth.toNat ∧
      ((toyInstance ℚ).Encrypt Representative.symmetric ⟨⟨[4, 9]⟩, ⟨[100, 3]⟩⟩ ⟨⟨[64, -64]⟩⟩
        ⟨[1, -1]⟩ ⟨[0, 1]⟩ ⟨[-1, 0]⟩).ql = (toyInstance ℚ).FirstModulus :=
  encrypt_level_modulus Representative.symmetric (toyInstance ℚ) ⟨⟨[4, 9]⟩, ⟨[100, 3]⟩⟩
    ⟨⟨[64, -64]⟩⟩ ⟨[1, -1]⟩ ⟨[0, 1]⟩ ⟨[-1, 0]⟩ (by decide)

/-- C9, as stated, fails: the ciphertext `toyCipherMid` has level 1 within
`[0, Depth] = [0, 2]`, and `RS` to the negative target `-1` leaves it at level
`-1`, for either representative. -/
theorem rs_negative_target_counterexample :
    (0 ≤ toyCipherMid.level ∧ toyCipherMid.level ≤ (toyInstance ℚ).Depth) ∧
      ((toyInstance ℚ).RS Representative.canonical toyCipherMid (-1)).level = -1 ∧
      ((toyInstance ℚ).RS Representative.symmetric toyCipherMid (-1)).level = -1 ∧
      ¬ (0 ≤ ((toyInstance ℚ).RS Representative.canonical toyCipherMid (-1)).level) := by
  decide

/-- C9, amended: for every ciphertext `c` with `0 ≤ c.level ≤ Depth` and every
target level `k ≥ 0`, after `RS(c, k)` the level of `c` is still within
`[0, Depth]`. -/
theorem rs_level_in_range {R : Type} (rep : Representative) (ins : Instance R) (c : Ciphertext)
    (k : Int) (h0 : 0 ≤ c.level) (h1 : c.level ≤ ins.Depth) (hk : 0 ≤ k) :
    0 ≤ (ins.RS rep c k).level ∧ (ins.RS rep c k).level ≤ ins.Depth := by
  unfold Instance.RS
  split
  · exact ⟨h0, h1⟩
  · constructor
    · exact hk
    · show k ≤ ins.Depth
      omega

theorem rs_level_in_range_witness :
    0 ≤ ((toyInstance ℚ).RS Representative.canonical toyCipherTop 0).level ∧
      ((toyInstance ℚ).RS Representative.canonical toyCipherTop 0).level
        ≤ (toyInstance ℚ).Depth :=
  rs_level_in_range Representative.canonical (toyInstance ℚ) toyCipherTop 0
    (by decide) (by decide) (by decide)

/-- C7, as stated, fails at the target `k = c.level`: `toyCipherUnreduced` has
`ql = q0 * p^1` and level 1, `RS` to level 1 leaves its coefficient 66
untouched, while dividing by `p^0` and reducing modulo `q0 * p = 65` gives 1. -/
theorem rs_same_level_counterexample :
    toyCipherUnreduced.ql = (toyInstance ℚ).q0 * (toyInstance ℚ).p ^ toyCipherUnreduced.level.toNat ∧
      (0 : Int) ≤ 1 ∧ 1 ≤ toyCipherUnreduced.level ∧
      ((toyInstance ℚ).RS Representative.canonical toyCipherUnreduced 1).a = ⟨[66, 7]⟩ ∧
      (toyCipherUnreduced.a.ScaleNearest ((toyInstance ℚ).p ^ 0)).Mod Representative.canonical
        ((toyInstance ℚ).q0 * (toyInstance ℚ).p ^ 1) = ⟨[1, 7]⟩ ∧
      ((toyInstance ℚ).RS Representative.symmetric toyCipherUnreduced 1).a = ⟨[66, 7]⟩ ∧
      (toyCipherUnreduced.a.ScaleNearest ((toyInstance ℚ).p ^ 0)).Mod Representative.symmetric
        ((toyInstance ℚ).q0 * (toyInstance ℚ).p ^ 1) = ⟨[1, 7]⟩ := by
  decide

/-- C7, amended: for every ciphertext `c` with `c.ql = q0 * p^(c.level)` and
every target level `0 ≤ k ≤ c.level`, after `RS(c, k)` the level is `k`, the
modulus is `q0 * p^k`, and the division of the old modulus by `p^(level-k)` is
exact; when `k < c.level`, `a` and `b` are the old `a`, `b` divided
coefficient-wise by `p^(level-k)`, rounded to nearest and reduced modulo the
new modulus; when `k = c.level`, `a` and `b` are unchanged. -/
theorem rs_postcondition {R : Type} (rep : Representative) (ins : Instance R) (c : Ciphertext)
    (k : Int) (hql : c.ql = ins.q0 * ins.p ^ c.level.toNat) (hk0 : 0 ≤ k) (hk1 : k ≤ c.level)
    (hmax : c.level < 2 ^ 63) (hp : ins.p ≠ 0) :
    (ins.RS rep c k).level = k ∧
      (ins.RS rep c k).ql = ins.q0 * ins.p ^ k.toNat ∧
      c.ql = (ins.RS rep c k).ql * ins.p ^ (c.level - k).toNat ∧
      (k < c.level →
        (ins.RS rep c k).a
            = (c.a.ScaleNearest (ins.p ^ (c.level - k).toNat)).Mod rep (ins.q0 * ins.p ^ k.toNat) ∧
          (ins.RS rep c k).b
            = (c.b.ScaleNearest (ins.p ^ (c.level - k).toNat)).Mod rep
                (ins.q0 * ins.p ^ k.toNat)) ∧
      (k = c.level → (ins.RS rep c k).a = c.a ∧ (ins.RS rep c k).b = c.b) := by
  rcases eq_or_lt_of_le hk1 with heq | hlt
  · have hno : ins.RS rep c k = c := by
      unfold Instance.RS
      rw [if_pos (by omega)]
    rw [hno]
    subst heq
    refine ⟨rfl, hql, ?_, fun h => absurd h (lt_irrefl _), fun _ => ⟨rfl, rfl⟩⟩
    simp
  · have hsplit : c.level.toNat = k.toNat + (c.level - k).toNat := by omega
    have hden : (ins.p ^ (c.level - k).toNat) ≠ 0 := pow_ne_zero _ hp
    have hq : c.ql / ins.p ^ (c.level - k).toNat = ins.q0 * ins.p ^ k.toNat := by
      rw [hql, hsplit, pow_add, ← mul_assoc]
      exact Int.mul_ediv_cancel _ hden
    have hrs : ins.RS rep c k =
        { a := (c.a.ScaleNearest (ins.p ^ (c.level - k).toNat)).Mod rep
            (ins.q0 * ins.p ^ k.toNat),
          b := (c.b.ScaleNearest (ins.p ^ (c.level - k).toNat)).Mod rep
            (ins.q0 * ins.p ^ k.toNat),
          level := k,
          ql := ins.q0 * ins.p ^ k.toNat } := by
      unfold Instance.RS
      rw [if_neg (by omega)]
      simp only [rs_denom ins.p k c.level hk0 hlt hmax, hq]
    rw [hrs]
    refine ⟨rfl, rfl, ?_, fun _ => ⟨rfl, rfl⟩, fun h => absurd h (ne_of_lt hlt)⟩
    show c.ql = ins.q0 * ins.p ^ k.toNat * ins.p ^ (c.level - k).toNat
    rw [hql, hsplit, pow_add, ← mul_assoc]

theorem rs_postcondition_witness :
    ((toyInstance ℚ).RS Representative.canonical toyCipherTop 1).level = 1 ∧
      ((toyInstance ℚ).RS Representative.canonical toyCipherTop 1).ql
        = (toyInstance ℚ).q0 * (toyInstance ℚ).p ^ (1 : Int).toNat ∧
      toyCipherTop.ql = ((toyInstance ℚ).RS Representative.canonical toyCipherTop 1).ql
        * (toyInstance ℚ).p ^ (toyCipherTop.level - 1).toNat ∧
      (1 < toyCipherTop.level →
        ((toyInstance ℚ).RS Representative.canonical toyCipherTop 1).a
            = (toyCipherTop.a.ScaleNearest ((toyInstance ℚ).p ^ (toyCipherTop.level - 1).toNat)).Mod
                Representative.canonical ((toyInstance ℚ).q0 * (toyInstance ℚ).p ^ (1 : Int).toNat) ∧
          ((toyInstance ℚ).RS Representative.canonical toyCipherTop 1).b
            = (toyCipherTop.b.ScaleNearest ((toyInstance ℚ).p ^ (toyCipherTop.level - 1).toNat)).Mod
                Representative.canonical
                ((toyInstance ℚ).q0 * (toyInstance ℚ).p ^ (1 : Int).toNat)) ∧
      (1 = toyCipherTop.level →
        ((toyInstance ℚ).RS Representative.canonical toyCipherTop 1).a = toyCipherTop.a ∧
          ((toyInstance ℚ).RS Representative.canonical toyCipherTop 1).b = toyCipherTop.b) :=
  rs_postcondition Representative.canonical (toyInstance ℚ) toyCipherTop 1
    (by decide) (by decide) (by decide) (by decide) (by decide)

/-- C5, on the code: `Equalize` of a level-1 and a level-2 ciphertext, in
either order, returns both unchanged, so their levels stay 1 and 2 instead of
both becoming the minimum 1; the level-2 ciphertext is not the result of `RS`
to level 1. -/
theorem equalize_levels_stay_apart :
    (toyInstance ℚ).Equalize Representative.canonical toyCipherMid toyCipherTop
        = (toyCipherMid, toyCipherTop) ∧
      (toyInstance ℚ).Equalize Representative.canonical toyCipherTop toyCipherMid
        = (toyCipherTop, toyCipherMid) ∧
      ((toyInstance ℚ).Equalize Representative.canonical toyCipherMid toyCipherTop).2.level = 2 ∧
      ((toyInstance ℚ).Equalize Representative.canonical toyCipherMid toyCipherTop).1.level = 1 ∧
      ((toyInstance ℚ).Equalize Representative.canonical toyCipherMid toyCipherTop).2
        ≠ (toyInstance ℚ).RS Representative.canonical toyCipherTop 1 ∧
      ((toyInstance ℚ).RS Representative.canonical toyCipherTop 1).level = 1 := by
  decide

/-- C6, on the code: `Add` of a level-2 and a level-1 ciphertext returns a
ciphertext at level 2 with modulus `q0 * p^2 = 325`, not at the lower level 1
with modulus `q0 * p = 65`; with the arguments swapped the result is at level
1 with modulus 65, so the level depends on the order. -/
theorem add_keeps_first_level :
    ((toyInstance ℚ).Add Representative.canonical toyCipherTop toyCipherMid).level = 2 ∧
      ((toyInstance ℚ).Add Representative.canonical toyCipherTop toyCipherMid).ql = 325 ∧
      ((toyInstance ℚ).Add Representative.canonical toyCipherMid toyCipherTop).level = 1 ∧
      ((toyInstance ℚ).Add Representative.canonical toyCipherMid toyCipherTop).ql = 65 ∧
      (toyInstance ℚ).q0 * (toyInstance ℚ).p ^ 1 = 65 := by
  decide

/-! ## The negacyclic ring -/

theorem list_sum_map_range {M : Type} [AddCommMonoid M] (f : ℕ → M) (n : ℕ) :
    ((List.range n).map f).sum = ∑ i ∈ Finset.range n, f i := by
  induction n with
  | zero => simp
  | succ n ih => rw [List.sum_range_succ, Finset.sum_range_succ, ih]

theorem getD_map_range (f : ℕ → Int) (n i : ℕ) (hi : i < n) :
    ((List.range n).map f).getD i 0 = f i := by
  rw [List.getD_eq_getElem _ _ (by simpa using hi)]
  simp

theorem mulCoeff_cast {A : Type} [CommRing A] (n : ℕ) (x y : List Int) (k : ℕ) :
    ((mulCoeff n x y k : Int) : A) = ∑ i ∈ Finset.range n,
      (if i ≤ k then (x.getD i 0 : A) * (y.getD (k - i) 0 : A)
        else -((x.getD i 0 : A) * (y.getD (k + n - i) 0 : A))) := by
  unfold mulCoeff
  rw [list_sum_map_range, list_sum_map_range, ← Finset.sum_sub_distrib]
  push_cast
  refine Finset.sum_congr rfl fun i _ => ?_
  by_cases h : i ≤ k
  · rw [if_pos h, if_pos h, if_neg (by omega)]
    simp
  · rw [if_neg h, if_neg h, if_pos (by omega)]
    simp

/-- The value of a negacyclic product at an element `t` with `t^N = -1` is the
product of the values. -/
theorem evalAt_mul {A : Type} [CommRing A] (t : A) (N : ℕ) (ht : t ^ N = -1) (x y : List Int)
    (hx : x.length = N) (hy : y.length = N) :
    evalAt t ((List.range N).map (mulCoeff N x y)) = evalAt t x * evalAt t y := by
  unfold evalAt
  rw [List.length_map, List.length_range, hx, hy, Finset.sum_mul]
  have h1 : ∀ k ∈ Finset.range N,
      ((((List.range N).map (mulCoeff N x y)).getD k 0 : Int) : A) * t ^ k
        = ∑ i ∈ Finset.range N,
          (if i ≤ k then (x.getD i 0 : A) * (y.getD (k - i) 0 : A)
            else -((x.getD i 0 : A) * (y.getD (k + N - i) 0 : A))) * t ^ k := by
    intro k hk
    rw [getD_map_range _ _ _ (Finset.mem_range.mp hk), mulCoeff_cast, Finset.sum_mul]
  rw [Finset.sum_congr rfl h1, Finset.sum_comm]
  refine Finset.sum_congr rfl fun i hi => ?_
  rw [Finset.mem_range] at hi
  rw [Finset.mul_sum]
  refine Finset.sum_nbij' (fun k => if i ≤ k then k - i else k + N - i)
    (fun j => if i + j < N then i + j else i + j - N) ?_ ?_ ?_ ?_ ?_
  · intro k hk
    rw [Finset.mem_range] at hk ⊢
    dsimp only
    split <;> omega
  · intro j hj
    rw [Finset.mem_range] at hj ⊢
    dsimp only
    split <;> omega
  · intro k hk
    rw [Finset.mem_range] at hk
    dsimp only
    split <;> split <;> omega
  · intro j hj
    rw [Finset.mem_range] at hj
    dsimp only
    split <;> split <;> omega
  · intro k hk
    rw [Finset.mem_range] at hk
    dsimp only
    by_cases h : i ≤ k
    · rw [if_pos h, if_pos h]
      have : t ^ k = t ^ i * t ^ (k - i) := by rw [← pow_add]; congr 1; omega
      rw [this]
      ring
    · rw [if_neg h, if_neg h]
      have : t ^ i * t ^ (k + N - i) = -t ^ k := by
        rw [← pow_add, show i + (k + N - i) = k + N by omega, pow_add, ht]
        ring
      calc -((x.getD i 0 : A) * (y.getD (k + N - i) 0 : A)) * t ^ k
          = (x.getD i 0 : A) * (y.getD (k + N - i) 0 : A) * (-t ^ k) := by ring
        _ = (x.getD i 0 : A) * t ^ i * ((y.getD (k + N - i) 0 : A) * t ^ (k + N - i)) := by
            rw [← this]
            ring

theorem reduceCoeff_modEq (rep : Representative) (m c : Int) : reduceCoeff rep m c ≡ c [ZMOD m] := by
  cases rep
  · exact Int.mod_modEq c m
  · unfold reduceCoeff
    dsimp only
    split
    · have h : c % m - m ≡ c % m [ZMOD m] := by
        rw [Int.modEq_iff_dvd]
        exact ⟨1, by ring⟩
      exact h.trans (Int.mod_modEq c m)
    · exact Int.mod_modEq c m

theorem reduceCoeff_congr (rep : Representative) (m c d : Int) (h : c ≡ d [ZMOD m]) :
    reduceCoeff rep m c = reduceCoeff rep m d := by
  have h2 : c % m = d % m := h
  cases rep
  · exact h2
  · unfold reduceCoeff
    dsimp only
    rw [h2]

theorem intCast_eq_of_modEq {A : Type} [CommRing A] (m c d : Int) (hm : ((m : Int) : A) = 0)
    (h : c ≡ d [ZMOD m]) : ((c : Int) : A) = ((d : Int) : A) := by
  obtain ⟨k, hk⟩ := (Int.modEq_iff_dvd.mp h)
  have : d = c + m * k := by omega
  rw [this]
  push_cast
  rw [hm]
  ring

theorem length_Add (x y : Polynomial) (N : ℕ) (hx : x.Coeffs.length = N)
    (hy : y.Coeffs.length = N) : (negacyclic.Add x y).Coeffs.length = N := by
  simp [negacyclic.Add, hx, hy]

theorem length_MulSimple (x y : Polynomial) (N : ℕ) (hx : x.Coeffs.length = N) :
    (MulSimple x y).Coeffs.length = N := by
  simp [MulSimple, hx]

theorem length_Mod (rep : Representative) (x : Polynomial) (m : Int) (N : ℕ)
    (hx : x.Coeffs.length = N) : (x.Mod rep m).Coeffs.length = N := by
  simp [Polynomial.Mod, hx]

theorem length_ScaleNearest (x : Polynomial) (d : Int) (N : ℕ) (hx : x.Coeffs.length = N) :
    (x.ScaleNearest d).Coeffs.length = N := by
  simp [Polynomial.ScaleNearest, hx]

theorem evalAt_Add {A : Type} [CommRing A] (t : A) (x y : Polynomial) (N : ℕ)
    (hx : x.Coeffs.length = N) (hy : y.Coeffs.length = N) :
    evalAt t (negacyclic.Add x y).Coeffs = evalAt t x.Coeffs + evalAt t y.Coeffs := by
  unfold evalAt
  rw [length_Add x y N hx hy, hx, hy, ← Finset.sum_add_distrib]
  refine Finset.sum_congr rfl fun i hi => ?_
  rw [Finset.mem_range] at hi
  have h1 : (negacyclic.Add x y).Coeffs.getD i 0 = x.Coeffs.getD i 0 + y.Coeffs.getD i 0 := by
    rw [List.getD_eq_getElem _ _ (by rw [length_Add x y N hx hy]; exact hi),
      List.getD_eq_getElem _ _ (by omega), List.getD_eq_getElem _ _ (by omega)]
    simp [negacyclic.Add]
  rw [h1]
  push_cast
  ring

theorem evalAt_MulSimple {A : Type} [CommRing A] (t : A) (x y : Polynomial) (N : ℕ)
    (ht : t ^ N = -1) (hx : x.Coeffs.length = N) (hy : y.Coeffs.length = N) :
    evalAt t (MulSimple x y).Coeffs = evalAt t x.Coeffs * evalAt t y.Coeffs := by
  unfold MulSimple
  rw [hx]
  exact evalAt_mul t N ht x.Coeffs y.Coeffs hx hy

theorem evalAt_congr {A : Type} [CommRing A] (t : A) (m : Int) (hm : ((m : Int) : A) = 0)
    (x y : Polynomial) (h : CongruentMod m x y) : evalAt t x.Coeffs = evalAt t y.Coeffs := by
  unfold evalAt
  rw [← h.1]
  refine Finset.sum_congr rfl fun i hi => ?_
  rw [Finset.mem_range] at hi
  rw [intCast_eq_of_modEq m _ _ hm (h.2 i hi)]

theorem congruentMod_Mod (rep : Representative) (m : Int) (x : Polynomial) :
    CongruentMod m (x.Mod rep m) x := by
  refine ⟨by simp [Polynomial.Mod], fun i hi => ?_⟩
  have hi2 : i < x.Coeffs.length := by simpa [Polynomial.Mod] using hi
  rw [List.getD_eq_getElem _ _ hi, List.getD_eq_getElem _ _ hi2]
  simp only [Polynomial.Mod, List.getElem_map]
  exact reduceCoeff_modEq rep m _

theorem congruentMod_of_dvd (m d : Int) (hd : d ∣ m) (x y : Polynomial) (h : CongruentMod m x y) :
    CongruentMod d x y :=
  ⟨h.1, fun i hi => (h.2 i hi).of_dvd hd⟩

theorem evalAt_Mod {A : Type} [CommRing A] (t : A) (rep : Representative) (m : Int)
    (hm : ((m : Int) : A) = 0) (x : Polynomial) :
    evalAt t (x.Mod rep m).Coeffs = evalAt t x.Coeffs :=
  evalAt_congr t m hm _ _ (congruentMod_Mod rep m x)

/-- Reduction modulo `m'` does not change the value at `t` in a ring where a
divisor `m` of `m'` vanishes. -/
theorem evalAt_Mod_of_dvd {A : Type} [CommRing A] (t : A) (rep : Representative) (m m' : Int)
    (hm : ((m : Int) : A) = 0) (hdvd : m ∣ m') (x : Polynomial) :
    evalAt t (x.Mod rep m').Coeffs = evalAt t x.Coeffs := by
  apply evalAt_Mod
  obtain ⟨k, rfl⟩ := hdvd
  push_cast
  rw [hm, zero_mul]

theorem Mod_eq_of_congruentMod (rep : Representative) (m : Int) (x y : Polynomial)
    (h : CongruentMod m x y) : x.Mod rep m = y.Mod rep m := by
  unfold Polynomial.Mod
  congr 1
  apply List.ext_getElem
  · simpa using h.1
  · intro i h1 h2
    simp only [List.getElem_map]
    have hx : i < x.Coeffs.length := by simpa using h1
    have hy : i < y.Coeffs.length := by simpa using h2
    have := h.2 i hx
    rw [List.getD_eq_getElem _ _ hx, List.getD_eq_getElem _ _ hy] at this
    exact reduceCoeff_congr rep m _ _ this

end Ckks

section QuotientRing

open Polynomial

theorem Ckks.evalAt_X_coeff (x : List Int) (i : ℕ) :
    (Ckks.evalAt (X : ℤ[X]) x).coeff i = x.getD i 0 := by
  unfold Ckks.evalAt
  rw [finset_sum_coeff]
  have : ∀ j ∈ Finset.range x.length,
      (((x.getD j 0 : ℤ) : ℤ[X]) * X ^ j).coeff i = if i = j then x.getD j 0 else 0 := by
    intro j _
    rw [← Polynomial.C_eq_intCast, coeff_C_mul_X_pow]
    simp
  rw [Finset.sum_congr rfl this, Finset.sum_ite_eq]
  split
  · rfl
  · rename_i h
    rw [Finset.mem_range, not_lt] at h
    rw [List.getD_eq_default _ _ h]

theorem Ckks.evalAt_X_natDegree_lt (x : List Int) (N : ℕ) (hN : 0 < N) (hx : x.length = N) :
    (Ckks.evalAt (X : ℤ[X]) x).natDegree < N := by
  unfold Ckks.evalAt
  have : (∑ i ∈ Finset.range x.length, ((x.getD i 0 : ℤ) : ℤ[X]) * X ^ i).natDegree ≤ N - 1 := by
    apply natDegree_sum_le_of_forall_le
    intro i hi
    rw [Finset.mem_range] at hi
    rw [← Polynomial.C_eq_intCast]
    exact (natDegree_C_mul_X_pow_le _ _).trans (by omega)
  omega

theorem Ckks.evalAt_hom {A B : Type} [CommRing A] [CommRing B] (f : A →+* B) (t : A)
    (x : List Int) : f (Ckks.evalAt t x) = Ckks.evalAt (f t) x := by
  unfold Ckks.evalAt
  simp [map_sum]

/-- An integer polynomial of degree below `N` in the ideal generated by
`X^N + 1` and the constant `m` has all its coefficients divisible by `m`. -/
theorem Ckks.coeff_dvd_of_mem_span (N : ℕ) (hN : 0 < N) (m : ℤ) (P : ℤ[X])
    (hdeg : P.natDegree < N) (hP : P ∈ Ideal.span {(X ^ N + 1 : ℤ[X]), C m}) (i : ℕ) :
    m ∣ P.coeff i := by
  obtain ⟨a, b, hab⟩ := Ideal.mem_span_pair.mp hP
  set φ := Polynomial.map (Int.castRingHom (ZMod m.natAbs)) with hφ
  have hm : ((m : ℤ) : ZMod m.natAbs) = 0 := by
    rw [ZMod.intCast_zmod_eq_zero_iff_dvd]
    exact Int.natAbs_dvd.mpr dvd_rfl
  have hmap : φ P = (X ^ N + 1) * φ a := by
    rw [← hab, hφ]
    have hm2 : ((m : ℤ) : (ZMod m.natAbs)[X]) = 0 := by
      rw [← Polynomial.C_eq_intCast, hm, map_zero]
    simp only [Polynomial.map_add, Polynomial.map_mul, Polynomial.map_pow, Polynomial.map_X,
      Polynomial.map_one, eq_intCast, Polynomial.map_intCast, hm2, mul_zero, add_zero]
    ring
  have hzero : φ a = 0 := by
    by_contra hne
    have hmonic : (X ^ N + 1 : (ZMod m.natAbs)[X]).Monic := by
      have := monic_X_pow_add_C (1 : ZMod m.natAbs) hN.ne'
      simpa using this
    have h1 := hmonic.natDegree_mul' hne
    have h2 : (φ P).natDegree ≤ P.natDegree := natDegree_map_le
    have h3 : (X ^ N + 1 : (ZMod m.natAbs)[X]).natDegree = N := by
      haveI : Nontrivial (ZMod m.natAbs) := by
        by_contra hnt
        rw [not_nontrivial_iff_subsingleton] at hnt
        exact hne (Subsingleton.elim _ _)
      have := natDegree_X_pow_add_C (R := ZMod m.natAbs) (n := N) (r := 1)
      simpa using this
    rw [← hmap, h3] at h1
    omega
  have hP0 : φ P = 0 := by rw [hmap, hzero, mul_zero]
  have hc : (φ P).coeff i = 0 := by rw [hP0, coeff_zero]
  rw [hφ, coeff_map, eq_intCast, ZMod.intCast_zmod_eq_zero_iff_dvd] at hc
  exact Int.natAbs_dvd.mp hc

/-- Two coefficient lists of length `N` that have the same value at every `t`
with `t^N = -1`, in every commutative ring where `m` vanishes, are congruent
modulo `m` coefficient by coefficient. -/
theorem Ckks.modEq_of_forall_evalAt_eq (N : ℕ) (m : ℤ) (x y : List Int) (hx : x.length = N)
    (hy : y.length = N)
    (h : ∀ (A : Type) [CommRing A] (t : A), t ^ N = -1 → ((m : ℤ) : A) = 0 →
      Ckks.evalAt t x = Ckks.evalAt t y)
    (i : ℕ) : x.getD i 0 ≡ y.getD i 0 [ZMOD m] := by
  rcases Nat.eq_zero_or_pos N with h0 | hN
  · subst h0
    rw [List.length_eq_zero] at hx hy
    subst hx hy
    rfl
  have hmem1 : (X ^ N + 1 : ℤ[X]) ∈ Ideal.span {(X ^ N + 1 : ℤ[X]), C m} :=
    Ideal.subset_span (by simp)
  have hmem2 : (C m : ℤ[X]) ∈ Ideal.span {(X ^ N + 1 : ℤ[X]), C m} :=
    Ideal.subset_span (by simp)
  have h := h (ℤ[X] ⧸ Ideal.span {(X ^ N + 1 : ℤ[X]), C m})
    (Ideal.Quotient.mk (Ideal.span {(X ^ N + 1 : ℤ[X]), C m}) X)
    (by
      rw [← map_pow, eq_neg_iff_add_eq_zero, ← map_one (Ideal.Quotient.mk _), ← map_add]
      exact Ideal.Quotient.eq_zero_iff_mem.mpr hmem1)
    (by
      have := Ideal.Quotient.eq_zero_iff_mem.mpr hmem2
      rwa [eq_intCast (C : ℤ →+* ℤ[X]) m, map_intCast] at this)
  rw [← Ckks.evalAt_hom, ← Ckks.evalAt_hom, ← sub_eq_zero, ← map_sub,
    Ideal.Quotient.eq_zero_iff_mem] at h
  have hdeg : (Ckks.evalAt (X : ℤ[X]) x - Ckks.evalAt (X : ℤ[X]) y).natDegree < N :=
    lt_of_le_of_lt (natDegree_sub_le _ _)
      (max_lt (Ckks.evalAt_X_natDegree_lt x N hN hx) (Ckks.evalAt_X_natDegree_lt y N hN hy))
  have := Ckks.coeff_dvd_of_mem_span N hN m _ hdeg h i
  rw [coeff_sub, Ckks.evalAt_X_coeff, Ckks.evalAt_X_coeff] at this
  exact (Int.modEq_iff_dvd.mpr this).symm

end QuotientRing

namespace Ckks

open negacyclic

theorem congruentMod_of_evalAt (N : ℕ) (m : Int) (x y : Polynomial) (hx : x.Coeffs.length = N)
    (hy : y.Coeffs.length = N)
    (h : ∀ (A : Type) [CommRing A] (t : A), t ^ N = -1 → ((m : Int) : A) = 0 →
      evalAt t x.Coeffs = evalAt t y.Coeffs) :
    CongruentMod m x y :=
  ⟨by rw [hx, hy], fun i _ => modEq_of_forall_evalAt_eq N m x.Coeffs y.Coeffs hx hy h i⟩

theorem length_scalePoly (c : Int) (x : Polynomial) (N : ℕ) (hx : x.Coeffs.length = N) :
    (scalePoly c x).Coeffs.length = N := by
  simp [scalePoly, hx]

theorem evalAt_scalePoly {A : Type} [CommRing A] (t : A) (c : Int) (x : Polynomial) :
    evalAt t (scalePoly c x).Coeffs = (c : A) * evalAt t x.Coeffs := by
  unfold evalAt
  rw [Finset.mul_sum]
  have hl : (scalePoly c x).Coeffs.length = x.Coeffs.length := by simp [scalePoly]
  rw [hl]
  refine Finset.sum_congr rfl fun i hi => ?_
  rw [Finset.mem_range] at hi
  rw [List.getD_eq_getElem _ _ (by rw [hl]; exact hi), List.getD_eq_getElem _ _ hi]
  simp only [scalePoly, List.getElem_map]
  push_cast
  ring

/-! ## Encryption, decryption and homomorphic addition -/

/-- C3: homomorphic addition.  For ciphertexts `c1`, `c2` at the same level
with the same modulus `ql` (all polynomials having `N` coefficients) and every
secret key, `Decrypt(sk, Add(c1, c2))` is the coefficient-wise sum of
`Decrypt(sk, c1)` and `Decrypt(sk, c2)` reduced modulo `ql`. -/
theorem decrypt_add {R : Type} (rep : Representative) (ins : Instance R) (sk : SecretKey)
    (c1 c2 : Ciphertext) (N : ℕ) (_hlevel : c1.level = c2.level) (hql : c1.ql = c2.ql)
    (h1a : c1.a.Coeffs.length = N) (h1b : c1.b.Coeffs.length = N)
    (h2a : c2.a.Coeffs.length = N) (h2b : c2.b.Coeffs.length = N)
    (hs : sk.s.Coeffs.length = N) :
    (ins.Decrypt rep sk (ins.Add rep c1 c2)).m
      = (negacyclic.Add (ins.Decrypt rep sk c1).m (ins.Decrypt rep sk c2).m).Mod rep c1.ql := by
  unfold Instance.Decrypt Instance.Add
  rw [equalize_eq]
  dsimp only
  rw [← hql]
  apply Mod_eq_of_congruentMod
  have l1 := length_Mod rep _ c1.ql N (length_Add c1.a c2.a N h1a h2a)
  have l2 := length_Mod rep _ c1.ql N (length_Add c1.b c2.b N h1b h2b)
  have l3 := length_MulSimple c1.a sk.s N h1a
  have l4 := length_MulSimple c2.a sk.s N h2a
  have l5 := length_Add _ _ N l3 h1b
  have l6 := length_Add _ _ N l4 h2b
  have l7 := length_MulSimple ((negacyclic.Add c1.a c2.a).Mod rep c1.ql) sk.s N l1
  apply congruentMod_of_evalAt N _ _ _ (length_Add _ _ N l7 l2)
    (length_Add _ _ N (length_Mod rep _ _ N l5) (length_Mod rep _ _ N l6))
  intro A _ t ht hm
  rw [evalAt_Add t _ _ N l7 l2, evalAt_MulSimple t _ _ N ht l1 hs, evalAt_Mod t rep _ hm,
    evalAt_Mod t rep _ hm, evalAt_Add t _ _ N h1a h2a, evalAt_Add t _ _ N h1b h2b,
    evalAt_Add t _ _ N (length_Mod rep _ _ N l5) (length_Mod rep _ _ N l6),
    evalAt_Mod t rep _ hm, evalAt_Mod t rep _ hm, evalAt_Add t _ _ N l3 h1b,
    evalAt_Add t _ _ N l4 h2b, evalAt_MulSimple t _ _ N ht h1a hs,
    evalAt_MulSimple t _ _ N ht h2a hs]
  ring

theorem decrypt_add_witness :
    ((toyInstance ℚ).Decrypt Representative.symmetric ⟨⟨[1, -1]⟩⟩
        ((toyInstance ℚ).Add Representative.symmetric toyCipherMid toyCipherUnreduced)).m
      = (negacyclic.Add
          ((toyInstance ℚ).Decrypt Representative.symmetric ⟨⟨[1, -1]⟩⟩ toyCipherMid).m
          ((toyInstance ℚ).Decrypt Representative.symmetric ⟨⟨[1, -1]⟩⟩ toyCipherUnreduced).m).Mod
        Representative.symmetric toyCipherMid.ql :=
  decrypt_add Representative.symmetric (toyInstance ℚ) ⟨⟨[1, -1]⟩⟩ toyCipherMid toyCipherUnreduced 2
    (by decide) (by decide) (by decide) (by decide) (by decide) (by decide) (by decide)

/-- C2: encryption followed by decryption.  For every secret `s`, every public
key `(b, a)` with `b ≡ -a*s + e (mod q_L)`, every plaintext `m` and every
choice of the sampled `v`, `e0`, `e1` (all with `N` coefficients),
`Decrypt(sk, Encrypt(pk, m))` is congruent coefficient-wise modulo
`q_L = FirstModulus()` to `m + e*v + e0 + e1*s`, with `*` the negacyclic
product. -/
theorem decrypt_encrypt {R : Type} (rep : Representative) (ins : Instance R) (sk : SecretKey)
    (pk : PublicKey) (pt : Plaintext) (v e0 e1 e : Polynomial) (N : ℕ)
    (hs : sk.s.Coeffs.length = N) (hb : pk.b.Coeffs.length = N) (ha : pk.a.Coeffs.length = N)
    (hm : pt.m.Coeffs.length = N) (hv : v.Coeffs.length = N) (he0 : e0.Coeffs.length = N)
    (he1 : e1.Coeffs.length = N) (he : e.Coeffs.length = N)
    (hpk : CongruentMod ins.FirstModulus pk.b
      (negacyclic.Add (scalePoly (-1) (MulSimple pk.a sk.s)) e)) :
    CongruentMod ins.FirstModulus (ins.Decrypt rep sk (ins.Encrypt rep pk pt v e0 e1)).m
      (negacyclic.Add (negacyclic.Add (negacyclic.Add pt.m (MulSimple e v)) e0)
        (MulSimple e1 sk.s)) := by
  unfold Instance.Decrypt Instance.Encrypt ZMultiplier.Mul
  dsimp only
  have l1 := length_MulSimple pk.b v N hb
  have l2 := length_Add _ _ N l1 he0
  have l3 := length_Add _ _ N l2 hm
  have l4 := length_MulSimple pk.a v N ha
  have l5 := length_Add _ _ N l4 he1
  have l6 := length_Mod rep _ ins.FirstModulus N l5
  have l7 := length_MulSimple _ sk.s N l6
  have l8 := length_Mod rep _ ins.FirstModulus N l3
  have l9 := length_Add _ _ N l7 l8
  have r1 := length_MulSimple e v N he
  have r2 := length_Add _ _ N hm r1
  have r3 := length_Add _ _ N r2 he0
  have r4 := length_MulSimple e1 sk.s N he1
  have k1 := length_MulSimple pk.a sk.s N ha
  have k2 := length_scalePoly (-1) _ N k1
  apply congruentMod_of_evalAt N _ _ _ (length_Mod rep _ _ N l9) (length_Add _ _ N r3 r4)
  intro A _ t ht h0
  have hpk2 := evalAt_congr t _ h0 _ _ hpk
  rw [evalAt_Add t _ _ N k2 he, evalAt_scalePoly, evalAt_MulSimple t _ _ N ht ha hs] at hpk2
  rw [evalAt_Mod t rep _ h0, evalAt_Add t _ _ N l7 l8, evalAt_MulSimple t _ _ N ht l6 hs,
    evalAt_Mod t rep _ h0, evalAt_Mod t rep _ h0, evalAt_Add t _ _ N l4 he1,
    evalAt_Add t _ _ N l2 hm, evalAt_Add t _ _ N l1 he0, evalAt_MulSimple t _ _ N ht ha hv,
    evalAt_MulSimple t _ _ N ht hb hv, evalAt_Add t _ _ N r3 r4, evalAt_Add t _ _ N r2 he0,
    evalAt_Add t _ _ N hm r1, evalAt_MulSimple t _ _ N ht he hv,
    evalAt_MulSimple t _ _ N ht he1 hs, hpk2]
  push_cast
  ring

theorem decrypt_encrypt_witness :
    CongruentMod (toyInstance ℚ).FirstModulus
      ((toyInstance ℚ).Decrypt Representative.canonical ⟨⟨[1, -1]⟩⟩
        ((toyInstance ℚ).Encrypt Representative.canonical ⟨⟨[223, 97]⟩, ⟨[100, 3]⟩⟩ ⟨⟨[64, -64]⟩⟩
          ⟨[1, -1]⟩ ⟨[0, 1]⟩ ⟨[-1, 0]⟩)).m
      (negacyclic.Add (negacyclic.Add (negacyclic.Add (⟨[64, -64]⟩ : Polynomial)
        (MulSimple ⟨[1, 0]⟩ ⟨[1, -1]⟩)) ⟨[0, 1]⟩) (MulSimple ⟨[-1, 0]⟩ ⟨[1, -1]⟩)) :=
  decrypt_encrypt Representative.canonical (toyInstance ℚ) ⟨⟨[1, -1]⟩⟩ ⟨⟨[223, 97]⟩, ⟨[100, 3]⟩⟩
    ⟨⟨[64, -64]⟩⟩ ⟨[1, -1]⟩ ⟨[0, 1]⟩ ⟨[-1, 0]⟩ ⟨[1, 0]⟩ 2 (by decide) (by decide) (by decide)
    (by decide) (by decide) (by decide) (by decide) (by decide) (by decide)

/-! ## Homomorphic multiplication -/

/-- Rounding to nearest leaves a remainder of at most half the divisor. -/
theorem roundNearest_residue (d c : Int) (hd : 0 < d) : 2 * |d * roundNearest d c - c| ≤ d := by
  unfold roundNearest
  have h1 := Int.emod_add_ediv (2 * |c| + d) (2 * d)
  have h2 := Int.emod_nonneg (2 * |c| + d) (show (2 * d) ≠ 0 by omega)
  have h3 := Int.emod_lt_of_pos (2 * |c| + d) (show 0 < 2 * d by omega)
  generalize (2 * |c| + d) / (2 * d) = q at h1
  generalize (2 * |c| + d) % (2 * d) = r at h1 h2 h3
  have h4 : 2 * d * q = 2 * (d * q) := by ring
  rw [h4] at h1
  rcases lt_trichotomy c 0 with hc | hc | hc
  · rw [Int.sign_eq_neg_one_of_neg hc]
    rw [abs_of_neg hc] at h1
    have : d * (-1 * q) = -(d * q) := by ring
    rw [this]
    generalize d * q = u at h1
    rcases le_total 0 (-u - c) with h | h
    · rw [abs_of_nonneg h]
      omega
    · rw [abs_of_nonpos h]
      omega
  · subst hc
    simp only [Int.sign_zero, zero_mul, mul_zero, sub_zero, abs_zero]
    omega
  · rw [Int.sign_eq_one_of_pos hc]
    rw [abs_of_pos hc] at h1
    rw [one_mul]
    generalize d * q = u at h1
    rcases le_total 0 (u - c) with h | h
    · rw [abs_of_nonneg h]
      omega
    · rw [abs_of_nonpos h]
      omega

theorem halfBounded_residue_list (P : Int) (hP : 0 < P) (l : List Int) :
    ∀ c ∈ List.zipWith (fun a b => a + b)
      (List.map (fun a => P * a) (List.map (roundNearest P) l))
      (List.map (fun a => -1 * a) l), 2 * |c| ≤ P := by
  induction l with
  | nil => simp
  | cons a l ih =>
    intro c hc
    simp only [List.map_cons, List.zipWith_cons_cons, List.mem_cons] at hc
    rcases hc with rfl | hc
    · have := roundNearest_residue P a hP
      rwa [show P * roundNearest P a + -1 * a = P * roundNearest P a - a by ring]
    · exact ih c hc

/-- The remainder `P * ⌊x/P⌉ - x` of a coefficient-wise rounding has
coefficients of absolute value at most `P/2`. -/
theorem halfBounded_residue (P : Int) (hP : 0 < P) (x : Polynomial) :
    HalfBounded P (negacyclic.Add (scalePoly P (x.ScaleNearest P)) (scalePoly (-1) x)) :=
  halfBounded_residue_list P hP x.Coeffs

theorem evalAt_NewPolynomial {A : Type} [CommRing A] (t : A) (N : ℕ) :
    evalAt t (NewPolynomial N).Coeffs = 0 := by
  unfold evalAt NewPolynomial
  apply Finset.sum_eq_zero
  intro i hi
  rw [Finset.mem_range, List.length_replicate] at hi
  rw [List.getD_eq_getElem _ _ (by simpa using hi)]
  simp

theorem exists_scalePoly_eq (P : Int) (T : Polynomial) (N : ℕ) (hT : T.Coeffs.length = N)
    (h : CongruentMod P T (NewPolynomial N)) :
    ∃ E : Polynomial, E.Coeffs.length = N ∧ scalePoly P E = T := by
  refine ⟨⟨T.Coeffs.map fun c => c / P⟩, by simp [hT], ?_⟩
  unfold scalePoly
  cases T with
  | mk l =>
    congr 1
    apply List.ext_getElem
    · simp
    · intro i h1 h2
      simp only [List.getElem_map]
      have hi : i < l.length := h2
      have h3 := h.2 i hi
      rw [List.getD_eq_getElem _ _ hi] at h3
      have h4 : (NewPolynomial N).Coeffs.getD i 0 = 0 := by
        unfold NewPolynomial
        rw [List.getD_eq_getElem _ _ (by simpa using (hT ▸ hi))]
        simp
      rw [h4] at h3
      exact Int.mul_ediv_cancel' (Int.modEq_zero_iff_dvd.mp h3)

theorem congruentMod_cancel (P m : Int) (hP : P ≠ 0) (x y : Polynomial)
    (h : CongruentMod (P * m) (scalePoly P x) (scalePoly P y)) : CongruentMod m x y := by
  have hl : x.Coeffs.length = y.Coeffs.length := by simpa [scalePoly] using h.1
  refine ⟨hl, fun i hi => ?_⟩
  have h1 := h.2 i (by simpa [scalePoly] using hi)
  rw [List.getD_eq_getElem _ _ (by simpa [scalePoly] using hi),
    List.getD_eq_getElem _ _ (by simpa [scalePoly] using (hl ▸ hi))] at h1
  simp only [scalePoly, List.getElem_map] at h1
  rw [List.getD_eq_getElem _ _ hi, List.getD_eq_getElem _ _ (hl ▸ hi)]
  rw [Int.modEq_iff_dvd] at h1 ⊢
  rw [← mul_sub] at h1
  exact (mul_dvd_mul_iff_left hP).mp h1

theorem length_residue (P : Int) (x y : Polynomial) (N : ℕ) (hx : x.Coeffs.length = N)
    (hy : y.Coeffs.length = N) :
    (negacyclic.Add (scalePoly P x) (scalePoly (-1) y)).Coeffs.length = N :=
  length_Add _ _ N (length_scalePoly P x N hx) (length_scalePoly (-1) y N hy)

theorem evalAt_residue {A : Type} [CommRing A] (t : A) (P : Int) (x y : Polynomial) (N : ℕ)
    (hx : x.Coeffs.length = N) (hy : y.Coeffs.length = N) :
    evalAt t (negacyclic.Add (scalePoly P x) (scalePoly (-1) y)).Coeffs
      = (P : A) * evalAt t x.Coeffs - evalAt t y.Coeffs := by
  rw [evalAt_Add t _ _ N (length_scalePoly P x N hx) (length_scalePoly (-1) y N hy),
    evalAt_scalePoly, evalAt_scalePoly]
  push_cast
  ring

/-- The algebra of key switching: with `rA = P*nA - d2*a'` and
`rB = P*nB - d2*b'`, and an evaluation key with
`b' + a'*s ≡ e' + P*s*s (mod P*qL)`, the polynomial `d2*e' + rB + rA*s` is `P`
times an integer polynomial `E`, and `nA*s + nB ≡ d2*s*s + E` modulo every
divisor `q` of `qL`. -/
theorem keyswitch_core (N : ℕ) (q qL P : Int) (d2 s a' b' e' nA nB : Polynomial)
    (ld2 : d2.Coeffs.length = N) (ls : s.Coeffs.length = N) (la : a'.Coeffs.length = N)
    (lb : b'.Coeffs.length = N) (le : e'.Coeffs.length = N) (lnA : nA.Coeffs.length = N)
    (lnB : nB.Coeffs.length = N) (hdiv : q ∣ qL) (hP : P ≠ 0)
    (hevk : CongruentMod (P * qL) (negacyclic.Add b' (MulSimple a' s))
      (negacyclic.Add e' (scalePoly P (MulSimple s s)))) :
    ∃ E : Polynomial, E.Coeffs.length = N ∧
      scalePoly P E = negacyclic.Add
        (negacyclic.Add (MulSimple d2 e')
          (negacyclic.Add (scalePoly P nB) (scalePoly (-1) (MulSimple d2 b'))))
        (MulSimple (negacyclic.Add (scalePoly P nA) (scalePoly (-1) (MulSimple d2 a'))) s) ∧
      CongruentMod q (negacyclic.Add (MulSimple nA s) nB)
        (negacyclic.Add (MulSimple d2 (MulSimple s s)) E) := by
  have lda := length_MulSimple d2 a' N ld2
  have ldb := length_MulSimple d2 b' N ld2
  have lde := length_MulSimple d2 e' N ld2
  have lrA := length_residue P nA (MulSimple d2 a') N lnA lda
  have lrB := length_residue P nB (MulSimple d2 b') N lnB ldb
  have lss := length_MulSimple s s N ls
  have las := length_MulSimple a' s N la
  have l1 := length_Add _ _ N lde lrB
  have l2 := length_MulSimple
    (negacyclic.Add (scalePoly P nA) (scalePoly (-1) (MulSimple d2 a'))) s N lrA
  have lT := length_Add _ _ N l1 l2
  -- the value of the evaluation-key relation in a ring where `P * qL` vanishes
  have hkey : ∀ (A : Type) [CommRing A] (t : A), t ^ N = -1 → ((P * qL : Int) : A) = 0 →
      evalAt t b'.Coeffs + evalAt t a'.Coeffs * evalAt t s.Coeffs
        = evalAt t e'.Coeffs + (P : A) * (evalAt t s.Coeffs * evalAt t s.Coeffs) := by
    intro A _ t ht h0
    have hk := evalAt_congr t _ h0 _ _ hevk
    rwa [evalAt_Add t _ _ N lb las, evalAt_MulSimple t _ _ N ht la ls,
      evalAt_Add t _ _ N le (length_scalePoly P _ N lss), evalAt_scalePoly,
      evalAt_MulSimple t _ _ N ht ls ls] at hk
  -- the value of `d2*e' + rB + rA*s`
  have hT : ∀ (A : Type) [CommRing A] (t : A), t ^ N = -1 →
      evalAt t (negacyclic.Add
        (negacyclic.Add (MulSimple d2 e')
          (negacyclic.Add (scalePoly P nB) (scalePoly (-1) (MulSimple d2 b'))))
        (MulSimple (negacyclic.Add (scalePoly P nA) (scalePoly (-1) (MulSimple d2 a')))
          s)).Coeffs
      = evalAt t d2.Coeffs * evalAt t e'.Coeffs
        + ((P : A) * evalAt t nB.Coeffs - evalAt t d2.Coeffs * evalAt t b'.Coeffs)
        + ((P : A) * evalAt t nA.Coeffs - evalAt t d2.Coeffs * evalAt t a'.Coeffs)
          * evalAt t s.Coeffs := by
    intro A _ t ht
    rw [evalAt_Add t _ _ N l1 l2, evalAt_Add t _ _ N lde lrB,
      evalAt_MulSimple t _ _ N ht lrA ls, evalAt_residue t P _ _ N lnA lda,
      evalAt_residue t P _ _ N lnB ldb, evalAt_MulSimple t _ _ N ht ld2 le,
      evalAt_MulSimple t _ _ N ht ld2 la, evalAt_MulSimple t _ _ N ht ld2 lb]
  have hdvd : CongruentMod P
      (negacyclic.Add
        (negacyclic.Add (MulSimple d2 e')
          (negacyclic.Add (scalePoly P nB) (scalePoly (-1) (MulSimple d2 b'))))
        (MulSimple (negacyclic.Add (scalePoly P nA) (scalePoly (-1) (MulSimple d2 a'))) s))
      (NewPolynomial N) := by
    apply congruentMod_of_evalAt N _ _ _ lT (by simp [NewPolynomial])
    intro A _ t ht h0
    have h1 : ((P * qL : Int) : A) = 0 := by
      push_cast
      rw [h0, zero_mul]
    have hk := hkey A t ht h1
    rw [hT A t ht, evalAt_NewPolynomial]
    linear_combination (evalAt t nB.Coeffs + evalAt t nA.Coeffs * evalAt t s.Coeffs
      - evalAt t d2.Coeffs * (evalAt t s.Coeffs * evalAt t s.Coeffs)) * h0
      - evalAt t d2.Coeffs * hk
  obtain ⟨E, lE, hE⟩ := exists_scalePoly_eq P _ N lT hdvd
  refine ⟨E, lE, hE, ?_⟩
  apply congruentMod_of_dvd qL q hdiv
  apply congruentMod_cancel P qL hP
  have lns := length_MulSimple nA s N lnA
  have ldss := length_MulSimple d2 (MulSimple s s) N ld2
  apply congruentMod_of_evalAt N _ _ _
    (length_scalePoly P _ N (length_Add _ _ N lns lnB))
    (length_scalePoly P _ N (length_Add _ _ N ldss lE))
  intro A _ t ht h0
  have hk := hkey A t ht h0
  have hEv : (P : A) * evalAt t E.Coeffs
      = evalAt t d2.Coeffs * evalAt t e'.Coeffs
        + ((P : A) * evalAt t nB.Coeffs - evalAt t d2.Coeffs * evalAt t b'.Coeffs)
        + ((P : A) * evalAt t nA.Coeffs - evalAt t d2.Coeffs * evalAt t a'.Coeffs)
          * evalAt t s.Coeffs := by
    rw [← evalAt_scalePoly, hE, hT A t ht]
  rw [evalAt_scalePoly, evalAt_scalePoly, evalAt_Add t _ _ N lns lnB,
    evalAt_Add t _ _ N ldss lE, evalAt_MulSimple t _ _ N ht lnA ls,
    evalAt_MulSimple t _ _ N ht ld2 lss, evalAt_MulSimple t _ _ N ht ls ls]
  linear_combination (-1 : A) * hEv + evalAt t d2.Coeffs * hk

theorem length_CRTMul (rep : Representative) (cm : CRTMultiplier) (x y : Polynomial) (N : ℕ)
    (hx : x.Coeffs.length = N) : (cm.Mul rep x y).Coeffs.length = N :=
  length_Mod rep _ _ N (length_MulSimple x y N hx)

theorem evalAt_CRTMul {A : Type} [CommRing A] (t : A) (rep : Representative) (cm : CRTMultiplier)
    (q : Int) (x y : Polynomial) (N : ℕ) (ht : t ^ N = -1) (h0 : ((q : Int) : A) = 0)
    (hq : q ∣ cm.modulus) (hx : x.Coeffs.length = N) (hy : y.Coeffs.length = N) :
    evalAt t (cm.Mul rep x y).Coeffs = evalAt t x.Coeffs * evalAt t y.Coeffs := by
  unfold CRTMultiplier.Mul
  rw [evalAt_Mod_of_dvd t rep q _ h0 hq, evalAt_MulSimple t _ _ N ht hx hy]

/-- C4: `Mul` decrypts to the negacyclic product up to key-switching noise.
For ciphertexts `c1`, `c2` at the same level whose common modulus `ql` divides
`q_L` (itself a divisor of the modulus of the CRT multiplier), every secret `s`
and every evaluation key `(b', a')` with
`b' + a'*s ≡ e' + P*s*s (mod P*q_L)`, `P = pEv > 0`, `Mul` returns a ciphertext
`c` without error, and there are integer polynomials `E`, `rA`, `rB`, the
coefficients of `rA` and `rB` of absolute value at most `P/2`, with
`P*E = d2*e' + rB + rA*s`, `d2 = (c1.a * c2.a) mod ql`, and
`Decrypt(sk, c) ≡ Decrypt(sk, c1) * Decrypt(sk, c2) + E (mod ql)`. -/
theorem decrypt_mul {R : Type} (rep : Representative) (ins : Instance R) (sk : SecretKey)
    (evk : EvaluationKey) (c1 c2 : Ciphertext) (e' : Polynomial) (N : ℕ)
    (_hlevel : c1.level = c2.level) (hql : c1.ql = c2.ql)
    (hdiv : c1.ql ∣ ins.FirstModulus) (hM : ins.FirstModulus ∣ ins.multiplier.modulus)
    (hP : 0 < ins.pEv)
    (h1a : c1.a.Coeffs.length = N) (h1b : c1.b.Coeffs.length = N)
    (h2a : c2.a.Coeffs.length = N) (h2b : c2.b.Coeffs.length = N)
    (hs : sk.s.Coeffs.length = N) (hea : evk.a.Coeffs.length = N)
    (heb : evk.b.Coeffs.length = N) (he : e'.Coeffs.length = N)
    (hevk : CongruentMod (ins.pEv * ins.FirstModulus)
      (negacyclic.Add evk.b (MulSimple evk.a sk.s))
      (negacyclic.Add e' (scalePoly ins.pEv (MulSimple sk.s sk.s)))) :
    ∃ (c : Ciphertext) (E rA rB : Polynomial),
      ins.Mul rep evk c1 c2 = Except.ok c ∧
      E.Coeffs.length = N ∧ rA.Coeffs.length = N ∧ rB.Coeffs.length = N ∧
      HalfBounded ins.pEv rA ∧ HalfBounded ins.pEv rB ∧
      scalePoly ins.pEv E = negacyclic.Add
        (negacyclic.Add (MulSimple ((MulSimple c1.a c2.a).Mod rep c1.ql) e') rB)
        (MulSimple rA sk.s) ∧
      CongruentMod c1.ql (ins.Decrypt rep sk c).m
        (negacyclic.Add (MulSimple (ins.Decrypt rep sk c1).m (ins.Decrypt rep sk c2).m) E) := by
  have hqM : c1.ql ∣ ins.multiplier.modulus := dvd_trans hdiv hM
  have hd2 : (ins.multiplier.Mul rep c1.a c2.a).Mod rep c1.ql
      = (MulSimple c1.a c2.a).Mod rep c1.ql :=
    Mod_eq_of_congruentMod rep _ _ _
      (congruentMod_of_dvd _ _ hqM _ _ (congruentMod_Mod rep _ _))
  have ld2 := length_Mod rep _ c1.ql N (length_MulSimple c1.a c2.a N h1a)
  have lnA := length_ScaleNearest _ ins.pEv N (length_MulSimple _ evk.a N ld2)
  have lnB := length_ScaleNearest _ ins.pEv N (length_MulSimple _ evk.b N ld2)
  obtain ⟨E, lE, hE, hcong⟩ := keyswitch_core N c1.ql ins.FirstModulus ins.pEv
    ((MulSimple c1.a c2.a).Mod rep c1.ql) sk.s evk.a evk.b e' _ _ ld2 hs hea heb he lnA lnB
    hdiv hP.ne' hevk
  have ld0 := length_Mod rep _ c1.ql N (length_CRTMul rep ins.multiplier c1.b c2.b N h1b)
  have lab := length_CRTMul rep ins.multiplier c1.a c2.b N h1a
  have lba := length_CRTMul rep ins.multiplier c2.a c1.b N h2a
  have ld1 := length_Mod rep _ c1.ql N (length_Add _ _ N lab lba)
  have laM := length_Mod rep _ c1.ql N (length_Add _ _ N ld1 lnA)
  have lbM := length_Mod rep _ c1.ql N (length_Add _ _ N ld0 lnB)
  have lms := length_MulSimple _ sk.s N laM
  have l1s := length_MulSimple c1.a sk.s N h1a
  have l2s := length_MulSimple c2.a sk.s N h2a
  have lD1 := length_Mod rep _ c1.ql N (length_Add _ _ N l1s h1b)
  have lD2 := length_Mod rep _ c1.ql N (length_Add _ _ N l2s h2b)
  have lDD := length_MulSimple _ ((negacyclic.Add (MulSimple c2.a sk.s) c2.b).Mod rep c1.ql) N lD1
  refine ⟨{ a := (negacyclic.Add
              ((negacyclic.Add (ins.multiplier.Mul rep c1.a c2.b)
                (ins.multiplier.Mul rep c2.a c1.b)).Mod rep c1.ql)
              ((MulSimple ((MulSimple c1.a c2.a).Mod rep c1.ql) evk.a).ScaleNearest
                ins.pEv)).Mod rep c1.ql,
            b := (negacyclic.Add ((ins.multiplier.Mul rep c1.b c2.b).Mod rep c1.ql)
              ((MulSimple ((MulSimple c1.a c2.a).Mod rep c1.ql) evk.b).ScaleNearest
                ins.pEv)).Mod rep c1.ql,
            level := c1.level, ql := c1.ql },
    E, _, _, ?_, lE,
    length_residue ins.pEv _ _ N lnA (length_MulSimple _ evk.a N ld2),
    length_residue ins.pEv _ _ N lnB (length_MulSimple _ evk.b N ld2),
    halfBounded_residue ins.pEv hP _, halfBounded_residue ins.pEv hP _, hE, ?_⟩
  · unfold Instance.Mul ZMultiplier.Mul
    rw [equalize_eq]
    dsimp only
    rw [hd2]
  · unfold Instance.Decrypt
    dsimp only
    rw [← hql]
    apply congruentMod_of_evalAt N _ _ _ (length_Mod rep _ _ N (length_Add _ _ N lms lbM))
      (length_Add _ _ N lDD lE)
    intro A _ t ht h0
    have hc := evalAt_congr t _ h0 _ _ hcong
    rw [evalAt_Add t _ _ N (length_MulSimple _ sk.s N lnA) lnB,
      evalAt_MulSimple t _ _ N ht lnA hs,
      evalAt_Add t _ _ N (length_MulSimple _ (MulSimple sk.s sk.s) N ld2) lE,
      evalAt_MulSimple t _ _ N ht ld2 (length_MulSimple sk.s sk.s N hs),
      evalAt_MulSimple t _ _ N ht hs hs, evalAt_Mod t rep _ h0,
      evalAt_MulSimple t _ _ N ht h1a h2a] at hc
    rw [evalAt_Mod t rep _ h0, evalAt_Add t _ _ N lms lbM, evalAt_MulSimple t _ _ N ht laM hs,
      evalAt_Mod t rep _ h0, evalAt_Mod t rep _ h0, evalAt_Add t _ _ N ld1 lnA,
      evalAt_Add t _ _ N ld0 lnB, evalAt_Mod t rep _ h0, evalAt_Mod t rep _ h0,
      evalAt_Add t _ _ N lab lba,
      evalAt_CRTMul t rep _ c1.ql _ _ N ht h0 hqM h1a h2b,
      evalAt_CRTMul t rep _ c1.ql _ _ N ht h0 hqM h2a h1b,
      evalAt_CRTMul t rep _ c1.ql _ _ N ht h0 hqM h1b h2b,
      evalAt_Add t _ _ N lDD lE, evalAt_MulSimple t _ _ N ht lD1 lD2,
      evalAt_Mod t rep _ h0, evalAt_Mod t rep _ h0, evalAt_Add t _ _ N l1s h1b,
      evalAt_Add t _ _ N l2s h2b, evalAt_MulSimple t _ _ N ht h1a hs,
      evalAt_MulSimple t _ _ N ht h2a hs]
    linear_combination hc

theorem decrypt_mul_witness :
    ∃ (c : Ciphertext) (E rA rB : Polynomial),
      (toyInstance ℚ).Mul Representative.symmetric toyEvaluationKey toyCipherMid
        toyCipherUnreduced = Except.ok c ∧
      E.Coeffs.length = 2 ∧ rA.Coeffs.length = 2 ∧ rB.Coeffs.length = 2 ∧
      HalfBounded (toyInstance ℚ).pEv rA ∧ HalfBounded (toyInstance ℚ).pEv rB ∧
      scalePoly (toyInstance ℚ).pEv E = negacyclic.Add
        (negacyclic.Add (MulSimple ((MulSimple toyCipherMid.a toyCipherUnreduced.a).Mod
          Representative.symmetric toyCipherMid.ql) ⟨[1, -1]⟩) rB)
        (MulSimple rA (⟨[1, -1]⟩ : Polynomial)) ∧
      CongruentMod toyCipherMid.ql
        ((toyInstance ℚ).Decrypt Representative.symmetric ⟨⟨[1, -1]⟩⟩ c).m
        (negacyclic.Add (MulSimple
          ((toyInstance ℚ).Decrypt Representative.symmetric ⟨⟨[1, -1]⟩⟩ toyCipherMid).m
          ((toyInstance ℚ).Decrypt Representative.symmetric ⟨⟨[1, -1]⟩⟩ toyCipherUnreduced).m)
          E) :=
  decrypt_mul Representative.symmetric (toyInstance ℚ) ⟨⟨[1, -1]⟩⟩ toyEvaluationKey toyCipherMid
    toyCipherUnreduced ⟨[1, -1]⟩ 2 (by decide) (by decide) (by decide) (by decide) (by decide)
    (by decide) (by decide) (by decide) (by decide) (by decide) (by decide) (by decide)
    (by decide) (by decide)

/-! ## Encoding and decoding -/

theorem truncToInt_of_nonneg {R : Type} [LinearOrderedField R] [FloorRing R] (x : R)
    (hx : 0 ≤ x) : truncToInt x = ⌊x⌋ := by
  unfold truncToInt
  rw [if_pos hx]

/-- The integer that `nearestInteger` returns is within one half of its
argument. -/
theorem nearestInteger_error {R : Type} [LinearOrderedField R] [FloorRing R] (x : R) :
    |((nearestInteger x : Int) : R) - x| ≤ 1 / 2 := by
  unfold nearestInteger
  dsimp only
  have hpos : (0 : R) ≤ |x| + 1 / 2 := by positivity
  rw [truncToInt_of_nonneg _ hpos]
  have h1 := Int.floor_le (|x| + 1 / 2)
  have h2 := Int.lt_floor_add_one (|x| + 1 / 2)
  generalize ⌊|x| + 1 / 2⌋ = f at h1 h2
  rw [abs_le]
  rcases lt_or_le x 0 with hx | hx
  · rw [if_pos hx]
    rw [abs_of_neg hx] at h1 h2
    push_cast
    constructor <;> linarith
  · rw [if_neg (not_lt.mpr hx)]
    rw [abs_of_nonneg hx] at h1 h2
    constructor <;> linarith

/-- The function `nearestIntegerSmall` returns the integer `a` on every
argument closer than one half to `a`. -/
theorem nearestIntegerSmall_eq {R : Type} [LinearOrderedField R] [FloorRing R] (a : Int) (x : R)
    (h : |x - a| < 1 / 2) : nearestIntegerSmall x = (a : R) := by
  unfold nearestIntegerSmall
  dsimp only
  rw [abs_lt] at h
  split
  · rename_i hx
    rw [abs_of_neg hx]
    have : ⌊-x + 1 / 2⌋ = -a := by
      rw [Int.floor_eq_iff]
      push_cast
      constructor <;> linarith
    rw [this]
    push_cast
    ring
  · rename_i hx
    rw [abs_of_nonneg (not_lt.mp hx)]
    have : ⌊x + 1 / 2⌋ = a := by
      rw [Int.floor_eq_iff]
      constructor <;> linarith
    rw [this]

theorem foldlM_eq_some {β : Type} (l : List ℕ) (body : β → ℕ → Option β) (step : β → ℕ → β)
    (h : ∀ aux, ∀ j ∈ l, body aux j = some (step aux j)) (init : β) :
    l.foldlM body init = some (l.foldl step init) := by
  induction l generalizing init with
  | nil => rfl
  | cons a l ih =>
    rw [List.foldlM_cons, h init a (List.mem_cons_self a l)]
    exact ih (fun aux j hj => h aux j (List.mem_cons_of_mem a hj)) _

theorem mapM_eq_some {β : Type} (l : List ℕ) (f : ℕ → Option β) (g : ℕ → β)
    (h : ∀ i ∈ l, f i = some (g i)) : l.mapM f = some (l.map g) := by
  induction l with
  | nil => rfl
  | cons a l ih =>
    rw [List.mapM_cons, h a (List.mem_cons_self a l),
      ih (fun i hi => h i (List.mem_cons_of_mem a hi))]
    rfl

theorem getElem?_eq_some_getD {α : Type} (l : List α) (d : α) (i : ℕ) (hi : i < l.length) :
    l[i]? = some (l.getD i d) := by
  rw [List.getD_eq_getElem _ _ hi, List.getElem?_eq_getElem hi]

theorem vandermondeActionInverse_eq {R : Type} [Field R] (roots z : List (Complex128 R))
    (hroots : roots.length = 2 * z.length) :
    VandermondeActionInverse roots z
      = some ((List.range z.length).map (vandermondeInverseEntry roots z)) := by
  unfold VandermondeActionInverse
  dsimp only
  apply mapM_eq_some
  intro i _
  rw [foldlM_eq_some (List.range z.length) _
    (fun aux j => aux + z.getD (z.length - 1 - j) 0
      * roots.getD ((2 * j + 1) * i % (2 * z.length)) 0)]
  · rfl
  · intro aux j hj
    rw [List.mem_range] at hj
    have hpos : 0 < 2 * z.length := by omega
    rw [getElem?_eq_some_getD z 0 _ (by omega),
      getElem?_eq_some_getD roots 0 _ (by rw [hroots]; exact Nat.mod_lt _ hpos)]
    rfl

theorem vandermondeAction_eq {R : Type} [Field R] (roots z : List (Complex128 R))
    (hroots : roots.length = 2 * z.length) :
    VandermondeAction roots z = some ((List.range z.length).map (vandermondeEntry roots z)) := by
  unfold VandermondeAction
  dsimp only
  apply mapM_eq_some
  intro i _
  apply foldlM_eq_some
  intro aux j hj
  rw [List.mem_range] at hj
  have hpos : 0 < 2 * z.length := by omega
  rw [getElem?_eq_some_getD z 0 _ hj,
    getElem?_eq_some_getD roots 0 _ (by rw [hroots]; exact Nat.mod_lt _ hpos)]
  rfl

theorem toComplex_zero : Complex128.toComplex 0 = 0 := rfl

theorem toComplex_add (x y : Complex128 ℝ) :
    Complex128.toComplex (x + y) = Complex128.toComplex x + Complex128.toComplex y := rfl

theorem toComplex_mul (x y : Complex128 ℝ) :
    Complex128.toComplex (x * y) = Complex128.toComplex x * Complex128.toComplex y := by
  apply Complex.ext
  · simp [Complex128.toComplex, HMul.hMul, Mul.mul]
  · simp [Complex128.toComplex, HMul.hMul, Mul.mul]

theorem toComplex_div_real (x : Complex128 ℝ) (r : ℝ) :
    Complex128.toComplex (x / ⟨r, 0⟩) = Complex128.toComplex x / (r : ℂ) := by
  have h : (x / (⟨r, 0⟩ : Complex128 ℝ))
      = ⟨(x.re * r + x.im * 0) / (r * r + 0 * 0), (x.im * r - x.re * 0) / (r * r + 0 * 0)⟩ := rfl
  rw [h]
  rcases eq_or_ne r 0 with hr | hr
  · subst hr
    apply Complex.ext <;> simp [Complex128.toComplex]
  · apply Complex.ext
    · simp only [Complex128.toComplex, Complex.div_ofReal_re]
      field_simp
      ring
    · simp only [Complex128.toComplex, Complex.div_ofReal_im]
      field_simp
      ring

theorem toComplex_foldl (F : ℕ → Complex128 ℝ) (n : ℕ) :
    Complex128.toComplex ((List.range n).foldl (fun aux j => aux + F j) 0)
      = ∑ j ∈ Finset.range n, Complex128.toComplex (F j) := by
  induction n with
  | zero => rfl
  | succ n ih =>
    rw [List.range_succ, List.foldl_append, Finset.sum_range_succ, ← ih]
    rfl

end Ckks

section RootsOfUnity

open scoped ComplexConjugate

theorem Ckks.pow_mod_of_pow_eq_one (w : ℂ) (M : ℕ) (hw : w ^ M = 1) (a : ℕ) :
    w ^ (a % M) = w ^ a := by
  conv_rhs => rw [← Nat.div_add_mod a M, pow_add, pow_mul, hw, one_pow, one_mul]

/-- Orthogonality of the powers of a primitive `N`-th root of unity `w^2`. -/
theorem Ckks.sum_pow_two_mul (w : ℂ) (N : ℕ) (hp : IsPrimitiveRoot (w ^ 2) N) (m : ℕ) :
    ∑ j ∈ Finset.range N, w ^ (2 * m * j) = if N ∣ m then (N : ℂ) else 0 := by
  have h1 : ∀ j, w ^ (2 * m * j) = ((w ^ 2) ^ m) ^ j := by
    intro j
    rw [← pow_mul, ← pow_mul, mul_assoc]
  simp_rw [h1]
  split
  · rename_i hd
    have : (w ^ 2) ^ m = 1 := (hp.pow_eq_one_iff_dvd m).mpr hd
    simp [this]
  · rename_i hd
    have hne : (w ^ 2) ^ m ≠ 1 := fun h => hd ((hp.pow_eq_one_iff_dvd m).mp h)
    rw [geom_sum_eq hne, ← pow_mul, mul_comm m N, pow_mul, hp.pow_eq_one, one_pow, sub_self,
      zero_div]

/-- The forward Vandermonde action undoes the inverse one: with `w` a
primitive `2N`-th root of unity, `Σ_j p[j] * w^((2k+1)j) = Z[k]` for
`p[j] = (1/N) Σ_l Z[N-1-l] * w^((2l+1)j)`. -/
theorem Ckks.vandermonde_inversion (w : ℂ) (N : ℕ) (hN : 0 < N) (hp : IsPrimitiveRoot (w ^ 2) N)
    (Z : ℕ → ℂ) (k : ℕ) (hk : k < N) :
    ∑ j ∈ Finset.range N,
      ((∑ l ∈ Finset.range N, Z (N - 1 - l) * w ^ ((2 * l + 1) * j)) / N)
        * w ^ ((2 * k + 1) * j) = Z k := by
  have hN' : (N : ℂ) ≠ 0 := Nat.cast_ne_zero.mpr hN.ne'
  have h1 : ∀ j ∈ Finset.range N,
      ((∑ l ∈ Finset.range N, Z (N - 1 - l) * w ^ ((2 * l + 1) * j)) / N)
        * w ^ ((2 * k + 1) * j)
      = ∑ l ∈ Finset.range N, Z (N - 1 - l) / N * w ^ (2 * (l + k + 1) * j) := by
    intro j _
    rw [Finset.sum_div, Finset.sum_mul]
    refine Finset.sum_congr rfl fun l _ => ?_
    have : w ^ (2 * (l + k + 1) * j) = w ^ ((2 * l + 1) * j) * w ^ ((2 * k + 1) * j) := by
      rw [← pow_add]
      congr 1
      ring
    rw [this]
    ring
  rw [Finset.sum_congr rfl h1, Finset.sum_comm]
  simp_rw [← Finset.mul_sum, Ckks.sum_pow_two_mul w N hp]
  rw [Finset.sum_eq_single (N - 1 - k)]
  · have hd : N ∣ N - 1 - k + k + 1 := by
      have : N - 1 - k + k + 1 = N := by omega
      rw [this]
    rw [if_pos hd]
    have : N - 1 - (N - 1 - k) = k := by omega
    rw [this]
    field_simp
  · intro l hl hne
    rw [Finset.mem_range] at hl
    have hd : ¬ N ∣ l + k + 1 := by
      intro ⟨c, hc⟩
      have hc1 : c = 1 := by
        rcases c with _ | _ | c
        · omega
        · rfl
        · exfalso
          have : N * (c + 1 + 1) ≥ 2 * N := by nlinarith
          omega
      subst hc1
      apply hne
      omega
    rw [if_neg hd, mul_zero]
  · intro h
    exfalso
    apply h
    rw [Finset.mem_range]
    omega

/-- The inverse Vandermonde action of a conjugate-mirrored vector is real. -/
theorem Ckks.vandermonde_real (w : ℂ) (N : ℕ) (hw : w ^ (2 * N) = 1) (hc : conj w * w = 1)
    (Z : ℕ → ℂ) (hZ : ∀ l, l < N → Z (N - 1 - l) = conj (Z l)) (j : ℕ) :
    conj (∑ l ∈ Finset.range N, Z (N - 1 - l) * w ^ ((2 * l + 1) * j))
      = ∑ l ∈ Finset.range N, Z (N - 1 - l) * w ^ ((2 * l + 1) * j) := by
  rw [map_sum]
  rw [← Finset.sum_range_reflect]
  refine Finset.sum_congr rfl fun l hl => ?_
  rw [Finset.mem_range] at hl
  rw [map_mul, map_pow]
  have h1 : N - 1 - (N - 1 - l) = l := by omega
  rw [h1]
  have h2 : conj (Z l) = Z (N - 1 - l) := (hZ l hl).symm
  rw [h2]
  congr 1
  have h3 : conj w ^ ((2 * (N - 1 - l) + 1) * j) * w ^ ((2 * (N - 1 - l) + 1) * j) = 1 := by
    rw [← mul_pow, hc, one_pow]
  have h4 : w ^ ((2 * l + 1) * j) * w ^ ((2 * (N - 1 - l) + 1) * j) = 1 := by
    rw [← pow_add]
    have : (2 * l + 1) * j + (2 * (N - 1 - l) + 1) * j = 2 * N * j := by
      have : 2 * l + 1 + (2 * (N - 1 - l) + 1) = 2 * N := by omega
      rw [← add_mul, this]
    rw [this, pow_mul, hw, one_pow]
  have h5 : w ^ ((2 * (N - 1 - l) + 1) * j) ≠ 0 := by
    intro h0
    rw [h0, mul_zero] at h4
    exact zero_ne_one h4
  exact mul_right_cancel₀ h5 (h3.trans h4.symm)

/-- A sum of `N` unit complex numbers with real weights of size at most `b`
has real and imaginary parts of size at most `N * b`. -/
theorem Ckks.weighted_sum_bound (N : ℕ) (e : ℕ → ℝ) (u : ℕ → ℂ) (b : ℝ)
    (he : ∀ j, j < N → |e j| ≤ b) (hu : ∀ j, j < N → Complex.abs (u j) = 1) :
    |(∑ j ∈ Finset.range N, (e j : ℂ) * u j).re| ≤ N * b ∧
      |(∑ j ∈ Finset.range N, (e j : ℂ) * u j).im| ≤ N * b := by
  have h : Complex.abs (∑ j ∈ Finset.range N, (e j : ℂ) * u j) ≤ N * b := by
    calc Complex.abs (∑ j ∈ Finset.range N, (e j : ℂ) * u j)
        ≤ ∑ j ∈ Finset.range N, Complex.abs ((e j : ℂ) * u j) :=
          Complex.abs.sum_le _ _
      _ ≤ ∑ _j ∈ Finset.range N, b := by
          refine Finset.sum_le_sum fun j hj => ?_
          rw [Finset.mem_range] at hj
          rw [map_mul, hu j hj, mul_one, Complex.abs_ofReal]
          exact he j hj
      _ = N * b := by simp
  exact ⟨(Complex.abs_re_le_abs _).trans h, (Complex.abs_im_le_abs _).trans h⟩

/-- The entry `(cos(πj/N), sin(πj/N))` of the table of roots is the `j`-th
power of `exp(iπ/N)`. -/
theorem Ckks.toComplex_root (N : ℕ) (j : ℕ) :
    Ckks.Complex128.toComplex ⟨Real.cos (Real.pi * j / N), Real.sin (Real.pi * j / N)⟩
      = Complex.exp (Real.pi / N * Complex.I) ^ j := by
  rw [← Complex.exp_nat_mul]
  have : (j : ℂ) * (Real.pi / N * Complex.I) = ((Real.pi * j / N : ℝ) : ℂ) * Complex.I := by
    push_cast
    ring
  rw [this]
  apply Complex.ext
  · rw [Complex.exp_ofReal_mul_I_re]
    rfl
  · rw [Complex.exp_ofReal_mul_I_im]
    rfl

theorem Ckks.exp_pow_two_mul (N : ℕ) (hN : 0 < N) :
    Complex.exp (Real.pi / N * Complex.I) ^ (2 * N) = 1 := by
  rw [← Complex.exp_nat_mul]
  have : ((2 * N : ℕ) : ℂ) * (Real.pi / N * Complex.I) = 2 * Real.pi * Complex.I := by
    have hN' : (N : ℂ) ≠ 0 := Nat.cast_ne_zero.mpr hN.ne'
    push_cast
    field_simp
    ring
  rw [this, Complex.exp_two_pi_mul_I]

theorem Ckks.exp_sq_primitive (N : ℕ) (hN : 0 < N) :
    IsPrimitiveRoot (Complex.exp (Real.pi / N * Complex.I) ^ 2) N := by
  have h := Complex.isPrimitiveRoot_exp N hN.ne'
  have : Complex.exp (Real.pi / N * Complex.I) ^ 2
      = Complex.exp (2 * Real.pi * Complex.I / N) := by
    rw [← Complex.exp_nat_mul]
    congr 1
    push_cast
    ring
  rwa [this]

theorem Ckks.exp_abs (N : ℕ) (a : ℕ) :
    Complex.abs (Complex.exp (Real.pi / N * Complex.I) ^ a) = 1 := by
  rw [map_pow]
  have : (Real.pi / N * Complex.I : ℂ) = ((Real.pi / N : ℝ) : ℂ) * Complex.I := by
    push_cast
    ring
  rw [this, Complex.abs_exp_ofReal_mul_I, one_pow]

theorem Ckks.exp_conj_mul (N : ℕ) :
    conj (Complex.exp (Real.pi / N * Complex.I)) * Complex.exp (Real.pi / N * Complex.I) = 1 := by
  rw [← Complex.exp_conj, ← Complex.exp_add]
  simp

end RootsOfUnity

namespace Ckks

open negacyclic

open scoped ComplexConjugate

theorem getD_append_map_reverse {α : Type} (z : List α) (f : α → α) (d : α) (l : ℕ)
    (hl : l < 2 * z.length) :
    (z ++ (z.map f).reverse).getD l d
      = if l < z.length then z.getD l d else f (z.getD (2 * z.length - 1 - l) d) := by
  split
  · rename_i h
    rw [List.getD_append _ _ _ _ h]
  · rename_i h
    rw [List.getD_append_right _ _ _ _ (not_lt.mp h)]
    have h1 : l - z.length < (z.map f).reverse.length := by
      rw [List.length_reverse, List.length_map]
      omega
    have h2 : 2 * z.length - 1 - l < z.length := by omega
    rw [List.getD_eq_getElem _ _ h1, List.getD_eq_getElem _ _ h2, List.getElem_reverse,
      List.getElem_map]
    congr 2
    rw [List.length_map]
    omega

theorem length_mirrored (z : List (Complex128 ℝ)) : (mirrored z).length = 2 * z.length := by
  unfold mirrored
  rw [List.length_append, List.length_reverse, List.length_map]
  omega

/-- The vector that `Encode` expands `z` to is conjugate-mirrored. -/
theorem mirrored_conj (z : List (Complex128 ℝ)) (l : ℕ) (hl : l < 2 * z.length) :
    Complex128.toComplex ((mirrored z).getD (2 * z.length - 1 - l) 0)
      = conj (Complex128.toComplex ((mirrored z).getD l 0)) := by
  unfold mirrored
  rw [getD_append_map_reverse z _ 0 l hl,
    getD_append_map_reverse z _ 0 (2 * z.length - 1 - l) (by omega)]
  by_cases h : l < z.length
  · rw [if_pos h, if_neg (by omega)]
    have : 2 * z.length - 1 - (2 * z.length - 1 - l) = l := by omega
    rw [this]
    apply Complex.ext <;> simp [Complex128.toComplex]
  · rw [if_neg h, if_pos (by omega)]
    apply Complex.ext <;> simp [Complex128.toComplex]

theorem mirrored_getD_lt (z : List (Complex128 ℝ)) (l : ℕ) (hl : l < z.length) :
    (mirrored z).getD l 0 = z.getD l 0 := by
  unfold mirrored
  rw [List.getD_append _ _ _ _ hl]

/-- What `Encode` returns on a vector of `n` entries when `N = 2n` and the
table of roots has `2N` entries. -/
theorem encode_eq {R : Type} [LinearOrderedField R] [FloorRing R] (ins : Instance R)
    (z : List (Complex128 R)) (delta : Int) (n : ℕ) (hN : ins.N = 2 * (n : Int))
    (hz : z.length = n) (hroots : ins.crtRoots.length = 2 * (2 * n)) :
    ins.Encode z delta = some (Except.ok
      { m := ⟨(List.range (2 * n)).map fun i =>
          nearestInteger ((vandermondeInverseEntry ins.crtRoots (mirrored z) i).re
            * (delta : R))⟩ }) := by
  have hlen : (mirrored z).length = 2 * n := by
    unfold mirrored
    rw [List.length_append, List.length_reverse, List.length_map]
    omega
  unfold Instance.Encode
  have h1 : Int.tdiv ins.N 2 = n := by
    rw [hN]
    exact Int.mul_tdiv_cancel_left _ (by norm_num)
  rw [if_neg (by rw [h1, hz]; simp)]
  have h2 := vandermondeActionInverse_eq ins.crtRoots (mirrored z) (by rw [hlen, hroots])
  unfold mirrored at h2 hlen ⊢
  dsimp only
  rw [h2]
  dsimp only
  rw [if_neg (by omega)]
  congr 4
  rw [hlen, List.map_map]
  have h3 : ∀ l : List (Complex128 R), l.length = 2 * n →
      List.drop l.length (NewPolynomial ins.N.toNat).Coeffs = [] := by
    intro l hl
    apply List.drop_eq_nil_of_le
    unfold NewPolynomial
    rw [List.length_replicate, hl]
    omega
  rw [h3 _ (by simp), List.append_nil]
  rfl

/-- What `Decode` returns on a plaintext of `N = 2n` coefficients when the
table of roots has `2N` entries. -/
theorem decode_eq {R : Type} [LinearOrderedField R] [FloorRing R] (ins : Instance R)
    (plt : Plaintext) (delta : Int) (n : ℕ) (hN : ins.N = 2 * (n : Int))
    (hm : plt.m.Coeffs.length = 2 * n) (hroots : ins.crtRoots.length = 2 * (2 * n))
    (hdelta : delta ≠ 0) :
    ins.Decode plt delta = some ((List.range n).map fun i =>
      (⟨nearestIntegerSmall (vandermondeEntry ins.crtRoots
          ((List.range (2 * n)).map fun j =>
            (⟨(plt.m.Coeffs.getD j 0 : R) / (delta : R), 0⟩ : Complex128 R)) i).re,
        nearestIntegerSmall (vandermondeEntry ins.crtRoots
          ((List.range (2 * n)).map fun j =>
            (⟨(plt.m.Coeffs.getD j 0 : R) / (delta : R), 0⟩ : Complex128 R)) i).im⟩ :
        Complex128 R)) := by
  unfold Instance.Decode
  rw [if_neg (by omega)]
  have hNat : ins.N.toNat = 2 * n := by omega
  dsimp only
  rw [hNat]
  have h1 : (List.range (2 * n)).mapM (fun i => do
        let c : Int ← plt.m.Coeffs[i]?
        if delta = 0 then none
        else pure (⟨(c : R) / (delta : R), 0⟩ : Complex128 R))
      = some ((List.range (2 * n)).map fun j =>
          (⟨(plt.m.Coeffs.getD j 0 : R) / (delta : R), 0⟩ : Complex128 R)) := by
    apply mapM_eq_some
    intro i hi
    rw [List.mem_range] at hi
    rw [getElem?_eq_some_getD plt.m.Coeffs 0 i (by omega)]
    simp only [Option.bind_eq_bind, Option.some_bind, if_neg hdelta]
    rfl
  rw [h1]
  have hl : ((List.range (2 * n)).map fun j =>
      (⟨(plt.m.Coeffs.getD j 0 : R) / (delta : R), 0⟩ : Complex128 R)).length = 2 * n := by
    simp
  have h2 := vandermondeAction_eq ins.crtRoots
    ((List.range (2 * n)).map fun j =>
      (⟨(plt.m.Coeffs.getD j 0 : R) / (delta : R), 0⟩ : Complex128 R)) (by rw [hl, hroots])
  rw [hl] at h2
  simp only [Option.bind_eq_bind, Option.some_bind, h2]
  have h3 : 2 * n / 2 = n := by omega
  rw [h3]
  apply mapM_eq_some
  intro i hi
  rw [List.mem_range] at hi
  rw [List.getElem?_map, List.getElem?_range (by omega)]
  rfl

theorem getD_map_range_complex128 (f : ℕ → Complex128 ℝ) (n i : ℕ) (hi : i < n) :
    ((List.range n).map f).getD i 0 = f i := by
  rw [List.getD_eq_getElem _ _ (by simpa using hi)]
  simp

/-- The inverse Vandermonde action on the table of the exact roots, as a sum
of complex numbers. -/
theorem toComplex_vandermondeInverseEntry (roots z : List (Complex128 ℝ)) (N : ℕ) (hN : 0 < N)
    (hz : z.length = N)
    (hroots : roots = (List.range (2 * N)).map fun (j : ℕ) =>
      (⟨Real.cos (Real.pi * (j : ℝ) / (N : ℝ)), Real.sin (Real.pi * (j : ℝ) / (N : ℝ))⟩ :
        Complex128 ℝ))
    (i : ℕ) :
    Complex128.toComplex (vandermondeInverseEntry roots z i)
      = (∑ l ∈ Finset.range N, Complex128.toComplex (z.getD (N - 1 - l) 0)
          * Complex.exp (Real.pi / N * Complex.I) ^ ((2 * l + 1) * i)) / N := by
  unfold vandermondeInverseEntry
  rw [toComplex_div_real,
    toComplex_foldl (fun j => z.getD (z.length - 1 - j) 0
      * roots.getD ((2 * j + 1) * i % (2 * z.length)) 0), hz]
  congr 1
  · refine Finset.sum_congr rfl fun l _ => ?_
    rw [toComplex_mul, hroots,
      getD_map_range_complex128 _ _ _ (Nat.mod_lt _ (by omega)), toComplex_root,
      pow_mod_of_pow_eq_one _ _ (exp_pow_two_mul N hN)]

/-- The forward Vandermonde action on the table of the exact roots, as a sum
of complex numbers. -/
theorem toComplex_vandermondeEntry (roots z : List (Complex128 ℝ)) (N : ℕ) (hN : 0 < N)
    (hz : z.length = N)
    (hroots : roots = (List.range (2 * N)).map fun (j : ℕ) =>
      (⟨Real.cos (Real.pi * (j : ℝ) / (N : ℝ)), Real.sin (Real.pi * (j : ℝ) / (N : ℝ))⟩ :
        Complex128 ℝ))
    (i : ℕ) :
    Complex128.toComplex (vandermondeEntry roots z i)
      = ∑ j ∈ Finset.range N, Complex128.toComplex (z.getD j 0)
          * Complex.exp (Real.pi / N * Complex.I) ^ ((2 * i + 1) * j) := by
  unfold vandermondeEntry
  rw [toComplex_foldl (fun j => z.getD j 0 * roots.getD ((2 * i + 1) * j % (2 * z.length)) 0),
    hz]
  refine Finset.sum_congr rfl fun l _ => ?_
  rw [toComplex_mul, hroots,
    getD_map_range_complex128 _ _ _ (Nat.mod_lt _ (by omega)), toComplex_root,
    pow_mod_of_pow_eq_one _ _ (exp_pow_two_mul N hN)]

/-- The analytic core of the round trip: rounding the scaled real parts of the
inverse Vandermonde action of a conjugate-mirrored vector `Z` to integers
`m[j]`, and applying the forward action to `m[j] / δ`, gives `Z[k]` up to an
error below one half in the real and in the imaginary part, when `δ > N`. -/
theorem roundtrip_core (N : ℕ) (hN : 0 < N) (w : ℂ) (hw : w ^ (2 * N) = 1)
    (hprim : IsPrimitiveRoot (w ^ 2) N) (hconj : conj w * w = 1)
    (habs : ∀ a : ℕ, Complex.abs (w ^ a) = 1) (Z : ℕ → ℂ)
    (hZ : ∀ l, l < N → Z (N - 1 - l) = conj (Z l)) (P : ℕ → ℂ)
    (hP : ∀ j, P j = (∑ l ∈ Finset.range N, Z (N - 1 - l) * w ^ ((2 * l + 1) * j)) / N)
    (m : ℕ → Int) (δ : ℝ) (hδ : (N : ℝ) < δ)
    (hm : ∀ j, |((m j : Int) : ℝ) - (P j).re * δ| ≤ 1 / 2) (k : ℕ) (hk : k < N) :
    |(∑ j ∈ Finset.range N, (((m j : ℝ) / δ : ℝ) : ℂ) * w ^ ((2 * k + 1) * j)).re - (Z k).re|
        < 1 / 2 ∧
      |(∑ j ∈ Finset.range N, (((m j : ℝ) / δ : ℝ) : ℂ) * w ^ ((2 * k + 1) * j)).im - (Z k).im|
        < 1 / 2 := by
  have hδ0 : (0 : ℝ) < δ := lt_of_le_of_lt (Nat.cast_nonneg N) hδ
  have hPim : ∀ j, (P j).im = 0 := by
    intro j
    rw [← Complex.conj_eq_iff_im, hP j, map_div₀, Complex.conj_natCast,
      vandermonde_real w N hw hconj Z hZ]
  have hsplit : ∀ j ∈ Finset.range N,
      (((m j : ℝ) / δ : ℝ) : ℂ) * w ^ ((2 * k + 1) * j)
        = P j * w ^ ((2 * k + 1) * j)
          + (((m j : ℝ) / δ - (P j).re : ℝ) : ℂ) * w ^ ((2 * k + 1) * j) := by
    intro j _
    rw [← add_mul]
    congr 1
    apply Complex.ext
    · simp
    · simp [hPim j]
  have hinv : ∑ j ∈ Finset.range N, P j * w ^ ((2 * k + 1) * j) = Z k := by
    simp_rw [hP]
    exact vandermonde_inversion w N hN hprim Z k hk
  have hb := weighted_sum_bound N (fun j => (m j : ℝ) / δ - (P j).re)
    (fun j => w ^ ((2 * k + 1) * j)) (1 / 2 / δ)
    (fun j _ => by
      have : (m j : ℝ) / δ - (P j).re = ((m j : ℝ) - (P j).re * δ) / δ := by
        field_simp
        ring
      dsimp only
      rw [this, abs_div, abs_of_pos hδ0]
      exact div_le_div_of_nonneg_right (hm j) hδ0.le)
    (fun j _ => habs _)
  have hsmall : (N : ℝ) * (1 / 2 / δ) < 1 / 2 := by
    rw [← mul_div_assoc, div_lt_iff₀ hδ0]
    nlinarith
  rw [Finset.sum_congr rfl hsplit, Finset.sum_add_distrib, hinv, Complex.add_re, Complex.add_im,
    add_sub_cancel_left, add_sub_cancel_left]
  exact ⟨lt_of_le_of_lt hb.1 hsmall, lt_of_le_of_lt hb.2 hsmall⟩

/-- The round trip of `Encode` and `Decode` for an even ring dimension
`N = 2n ≥ 2`, the exact table of roots, Gaussian-integer entries and a scaling
factor above `N`. -/
theorem decode_encode_even (ins : Instance ℝ) (z : List (Complex128 ℝ)) (delta : Int) (n : ℕ)
    (hn : 0 < n) (hN : ins.N = 2 * (n : Int))
    (hroots : ins.crtRoots = (List.range (2 * (2 * n))).map fun (j : ℕ) =>
      (⟨Real.cos (Real.pi * (j : ℝ) / ((2 * n : ℕ) : ℝ)),
        Real.sin (Real.pi * (j : ℝ) / ((2 * n : ℕ) : ℝ))⟩ : Complex128 ℝ))
    (hz : z.length = n)
    (hint : ∀ c ∈ z, ∃ a b : Int, c = ⟨(a : ℝ), (b : ℝ)⟩)
    (hdelta : 2 * (n : Int) < delta) :
    ∃ plt : Plaintext, ins.Encode z delta = some (Except.ok plt) ∧
      ins.Decode plt delta = some z := by
  have hrl : ins.crtRoots.length = 2 * (2 * n) := by
    rw [hroots]
    simp
  refine ⟨_, encode_eq ins z delta n hN hz hrl, ?_⟩
  rw [decode_eq ins _ delta n hN (by simp) hrl (by omega)]
  congr 1
  apply List.ext_getElem
  · simp [hz]
  intro i h1 h2
  have hi : i < n := by simpa using h1
  rw [List.getElem_map, List.getElem_range]
  obtain ⟨a, b, hab⟩ := hint z[i] (List.getElem_mem h2)
  have hN0 : 0 < 2 * n := by omega
  have hml : (mirrored z).length = 2 * n := by rw [length_mirrored, hz]
  have hδN : ((2 * n : ℕ) : ℝ) < (delta : ℝ) := by exact_mod_cast hdelta
  have hP := toComplex_vandermondeInverseEntry ins.crtRoots (mirrored z) (2 * n) hN0 hml hroots
  have hQ := toComplex_vandermondeEntry ins.crtRoots
    ((List.range (2 * n)).map fun j =>
      (⟨((({ m := ⟨(List.range (2 * n)).map fun i =>
          nearestInteger ((vandermondeInverseEntry ins.crtRoots (mirrored z) i).re
            * (delta : ℝ))⟩ } : Plaintext).m.Coeffs.getD j 0 : Int) : ℝ) / (delta : ℝ), 0⟩ :
        Complex128 ℝ)) (2 * n) hN0 (by simp) hroots i
  have hterm : ∀ j ∈ Finset.range (2 * n),
      Complex128.toComplex (((List.range (2 * n)).map fun j =>
        (⟨((({ m := ⟨(List.range (2 * n)).map fun i =>
          nearestInteger ((vandermondeInverseEntry ins.crtRoots (mirrored z) i).re
            * (delta : ℝ))⟩ } : Plaintext).m.Coeffs.getD j 0 : Int) : ℝ) / (delta : ℝ), 0⟩ :
          Complex128 ℝ)).getD j 0)
        * Complex.exp (Real.pi / ((2 * n : ℕ) : ℂ) * Complex.I) ^ ((2 * i + 1) * j)
      = (((nearestInteger ((vandermondeInverseEntry ins.crtRoots (mirrored z) j).re
            * (delta : ℝ)) : ℝ) / (delta : ℝ) : ℝ) : ℂ)
        * Complex.exp (Real.pi / ((2 * n : ℕ) : ℂ) * Complex.I) ^ ((2 * i + 1) * j) := by
    intro j hj
    rw [Finset.mem_range] at hj
    rw [getD_map_range_complex128 _ _ _ hj]
    dsimp only
    rw [getD_map_range _ _ _ hj]
    rfl
  rw [Finset.sum_congr rfl hterm] at hQ
  have hcore := roundtrip_core (2 * n) hN0 (Complex.exp (Real.pi / ((2 * n : ℕ) : ℂ) * Complex.I))
    (exp_pow_two_mul _ hN0) (exp_sq_primitive _ hN0) (exp_conj_mul _) (exp_abs _)
    (fun l => Complex128.toComplex ((mirrored z).getD l 0))
    (fun l hl => by
      have := mirrored_conj z l (by rw [hz]; exact hl)
      rw [hz] at this
      exact this)
    (fun j => Complex128.toComplex (vandermondeInverseEntry ins.crtRoots (mirrored z) j)) hP
    (fun j => nearestInteger ((vandermondeInverseEntry ins.crtRoots (mirrored z) j).re
      * (delta : ℝ)))
    (delta : ℝ) hδN (fun j => nearestInteger_error _) i (by omega)
  dsimp only at hcore
  rw [← hQ, mirrored_getD_lt z i (by omega), List.getD_eq_getElem _ _ h2, hab] at hcore
  have e1 := nearestIntegerSmall_eq a _ hcore.1
  have e2 := nearestIntegerSmall_eq b _ hcore.2
  rw [hab]
  change (⟨nearestIntegerSmall (Complex128.toComplex _).re,
    nearestIntegerSmall (Complex128.toComplex _).im⟩ : Complex128 ℝ) = _
  rw [e1, e2]

/-- C1: the round trip of `Encode` and `Decode`.  For every instance with `N`
a power of two, `N ≥ 2`, and `crtRoots[j] = exp(iπj/N)` for `j < 2N`, every
vector `z` of length `N/2` whose entries have integer real and imaginary parts
and every scaling factor `delta > N` (so every `delta ≥ 2^20` when
`N < 2^20`), `Encode(z, delta)` returns a plaintext without error and `Decode`
of it with `delta` is `z`, entry for entry, in exact real and complex
arithmetic. -/
theorem decode_encode (ins : Instance ℝ) (z : List (Complex128 ℝ)) (delta : Int) (k : ℕ)
    (hk : 1 ≤ k) (hN : ins.N = 2 ^ k)
    (hroots : ins.crtRoots = (List.range (2 * 2 ^ k)).map fun (j : ℕ) =>
      (⟨Real.cos (Real.pi * (j : ℝ) / ((2 ^ k : ℕ) : ℝ)),
        Real.sin (Real.pi * (j : ℝ) / ((2 ^ k : ℕ) : ℝ))⟩ : Complex128 ℝ))
    (hz : (z.length : Int) = ins.N / 2)
    (hint : ∀ c ∈ z, ∃ a b : Int, c = ⟨(a : ℝ), (b : ℝ)⟩)
    (hdelta : ins.N < delta) :
    ∃ plt : Plaintext, ins.Encode z delta = some (Except.ok plt) ∧
      ins.Decode plt delta = some z := by
  have h2 : 2 ^ k = 2 * 2 ^ (k - 1) := by
    rw [← pow_succ']
    congr 1
    omega
  have hN2 : ins.N = 2 * ((2 ^ (k - 1) : ℕ) : Int) := by
    rw [hN]
    have : ((2 ^ k : ℕ) : Int) = ((2 * 2 ^ (k - 1) : ℕ) : Int) := by rw [← h2]
    push_cast at this
    push_cast
    exact this
  rw [h2] at hroots
  refine decode_encode_even ins z delta (2 ^ (k - 1)) (by positivity) hN2 hroots ?_ hint ?_
  · rw [hN2] at hz
    omega
  · rw [← hN2]
    exact hdelta

theorem toyInstance_crtRoots :
    (toyInstance ℝ).crtRoots = (List.range (2 * 2 ^ 1)).map fun (j : ℕ) =>
      (⟨Real.cos (Real.pi * (j : ℝ) / ((2 ^ 1 : ℕ) : ℝ)),
        Real.sin (Real.pi * (j : ℝ) / ((2 ^ 1 : ℕ) : ℝ))⟩ : Complex128 ℝ) := by
  have h3 : Real.pi * 3 / 2 = Real.pi / 2 + Real.pi := by ring
  have hc3 : Real.cos (Real.pi * 3 / 2) = 0 := by
    rw [h3, Real.cos_add_pi, Real.cos_pi_div_two, neg_zero]
  have hs3 : Real.sin (Real.pi * 3 / 2) = -1 := by
    rw [h3, Real.sin_add_pi, Real.sin_pi_div_two]
  have h2 : Real.pi * 2 / 2 = Real.pi := by ring
  simp [toyInstance, List.range_succ, hc3, hs3, h2]

theorem decode_encode_witness :
    ∃ plt : Plaintext, (toyInstance ℝ).Encode [⟨3, 4⟩] 64 = some (Except.ok plt) ∧
      (toyInstance ℝ).Decode plt 64 = some [⟨3, 4⟩] :=
  decode_encode (toyInstance ℝ) [⟨3, 4⟩] 64 1 (le_refl 1) rfl toyInstance_crtRoots
    (by norm_num [toyInstance])
    (fun c hc => ⟨3, 4, by
      rw [List.mem_singleton] at hc
      rw [hc]
      norm_num⟩)
    (by norm_num [toyInstance])

/-! ## Accessors, `Mul` and monotonicity of `RS` -/

/-- What `RS` returns when it lowers the level: for `0 ≤ k < c.level`, the
level a machine integer. -/
theorem rs_eq_of_lt {R : Type} (rep : Representative) (ins : Instance R) (c : Ciphertext)
    (k : Int) (hk0 : 0 ≤ k) (hlt : k < c.level) (hmax : c.level < 2 ^ 63) :
    ins.RS rep c k =
      { a := (c.a.ScaleNearest (ins.p ^ (c.level - k).toNat)).Mod rep
          (c.ql / ins.p ^ (c.level - k).toNat),
        b := (c.b.ScaleNearest (ins.p ^ (c.level - k).toNat)).Mod rep
          (c.ql / ins.p ^ (c.level - k).toNat),
        level := k,
        ql := c.ql / ins.p ^ (c.level - k).toNat } := by
  unfold Instance.RS
  rw [if_neg (by omega)]
  simp only [rs_denom ins.p k c.level hk0 hlt hmax]

/-- C11: the modulus accessors.  For every instance with `Depth ≥ 0`,
`FirstModulus() = q0 * p^Depth` and `LastModulus() = q0`. -/
theorem modulus_accessors {R : Type} (ins : Instance R) (hD : 0 ≤ ins.Depth) :
    ins.FirstModulus = ins.q0 * ins.p ^ ins.Depth.toNat ∧ ins.LastModulus = ins.q0 := by
  refine ⟨?_, rfl⟩
  unfold Instance.FirstModulus
  rw [bigExp_of_nonneg _ _ hD, mul_comm]

theorem modulus_accessors_witness :
    (toyInstance ℚ).FirstModulus = (toyInstance ℚ).q0 * (toyInstance ℚ).p ^ (toyInstance ℚ).Depth.toNat ∧
      (toyInstance ℚ).LastModulus = (toyInstance ℚ).q0 :=
  modulus_accessors (toyInstance ℚ) (by decide)

/-- C17: `Mul` never fails and never rescales.  For every evaluation key and
all ciphertexts `c1`, `c2` at the same level, `Mul` returns a nil error and a
ciphertext whose level is `c1.level` and whose modulus is `c1.ql`. -/
theorem mul_never_fails {R : Type} (rep : Representative) (ins : Instance R)
    (evk : EvaluationKey) (c1 c2 : Ciphertext) (_hlevel : c1.level = c2.level) :
    ∃ c : Ciphertext, ins.Mul rep evk c1 c2 = Except.ok c ∧ c.level = c1.level ∧
      c.ql = c1.ql := by
  unfold Instance.Mul
  rw [equalize_eq]
  exact ⟨_, rfl, rfl, rfl⟩

theorem mul_never_fails_witness :
    ∃ c : Ciphertext, (toyInstance ℚ).Mul Representative.canonical toyEvaluationKey toyCipherMid
        toyCipherUnreduced = Except.ok c ∧ c.level = toyCipherMid.level ∧
      c.ql = toyCipherMid.ql :=
  mul_never_fails Representative.canonical (toyInstance ℚ) toyEvaluationKey toyCipherMid
    toyCipherUnreduced (by decide)

/-- C18: rescale monotonicity.  For every ciphertext `c` with `level > 0` and
`ql = q0 * p^level`, `q0 ≥ 1`, `p ≥ 2`, after `RS(c, level - 1)` the level
that `Level()` returns and the modulus that `Modulus()` returns are strictly
smaller than before. -/
theorem rs_monotone {R : Type} (rep : Representative) (ins : Instance R) (c : Ciphertext)
    (hlevel : 0 < c.level) (hmax : c.level < 2 ^ 63)
    (hql : c.ql = ins.q0 * ins.p ^ c.level.toNat) (hq0 : 1 ≤ ins.q0) (hp : 2 ≤ ins.p) :
    (ins.RS rep c (c.level - 1)).Level < c.Level ∧
      (ins.RS rep c (c.level - 1)).Modulus < c.Modulus := by
  rw [rs_eq_of_lt rep ins c (c.level - 1) (by omega) (by omega) hmax]
  unfold Ciphertext.Level Ciphertext.Modulus
  refine ⟨by show c.level - 1 < c.level; omega, ?_⟩
  show c.ql / ins.p ^ (c.level - (c.level - 1)).toNat < c.ql
  have h1 : (c.level - (c.level - 1)).toNat = 1 := by omega
  have h2 : c.level.toNat = (c.level.toNat - 1) + 1 := by omega
  have hp0 : ins.p ≠ 0 := by omega
  have hpos : 0 < ins.q0 * ins.p ^ (c.level.toNat - 1) :=
    mul_pos (by omega) (pow_pos (by omega) _)
  rw [h1, pow_one, hql, h2, pow_succ, ← mul_assoc, Int.mul_ediv_cancel _ hp0]
  nlinarith

theorem rs_monotone_witness :
    ((toyInstance ℚ).RS Representative.canonical toyCipherTop (toyCipherTop.level - 1)).Level
        < toyCipherTop.Level ∧
      ((toyInstance ℚ).RS Representative.canonical toyCipherTop (toyCipherTop.level - 1)).Modulus
        < toyCipherTop.Modulus :=
  rs_monotone Representative.canonical (toyInstance ℚ) toyCipherTop (by decide) (by decide)
    (by decide) (by decide) (by decide)

/-! ## Validation of the parameters -/

/-- The test `n & (n - 1) == 0` on a positive natural number finds the powers
of two. -/
theorem nat_and_pred_eq_zero_iff (n : ℕ) : 0 < n → (n &&& (n - 1) = 0 ↔ ∃ k : ℕ, n = 2 ^ k) := by
  induction n using Nat.strong_induction_on with
  | _ n ih =>
    intro hn
    have hdiv : (n &&& (n - 1)) / 2 = n / 2 &&& (n - 1) / 2 := Nat.and_div_two
    have hmod : (n &&& (n - 1)) % 2 = 0 := by
      by_contra h
      have h1 : (n &&& (n - 1)) % 2 = 1 := by omega
      rw [Nat.and_mod_two_eq_one] at h1
      omega
    have hx : n &&& (n - 1) = 0 ↔ n / 2 &&& (n - 1) / 2 = 0 := by
      rw [← hdiv]
      omega
    rcases Nat.even_or_odd' n with ⟨m, rfl | rfl⟩
    · have hm : 0 < m := by omega
      have e1 : 2 * m / 2 = m := by omega
      have e2 : (2 * m - 1) / 2 = m - 1 := by omega
      rw [hx, e1, e2, ih m (by omega) hm]
      constructor
      · rintro ⟨k, rfl⟩
        exact ⟨k + 1, by ring⟩
      · rintro ⟨k, hk⟩
        rcases k with _ | k
        · omega
        · exact ⟨k, by rw [pow_succ] at hk; omega⟩
    · have e1 : (2 * m + 1) / 2 = m := by omega
      have e2 : (2 * m + 1 - 1) / 2 = m := by omega
      rw [hx, e1, e2, Nat.and_self]
      constructor
      · rintro rfl
        exact ⟨0, rfl⟩
      · rintro ⟨k, hk⟩
        rcases k with _ | k
        · simp at hk
          exact hk
        · rw [pow_succ] at hk
          omega

theorem isPowerOfTwo_pos (N : Int) (h : IsPowerOfTwo N) : 0 < N := by
  obtain ⟨k, rfl⟩ := h
  positivity

theorem isPowerOfTwo_iff_toNat (N : Int) (hN : 0 < N) :
    IsPowerOfTwo N ↔ ∃ k : ℕ, N.toNat = 2 ^ k := by
  constructor
  · rintro ⟨k, hk⟩
    refine ⟨k, ?_⟩
    have : (N.toNat : Int) = ((2 ^ k : ℕ) : Int) := by
      rw [Int.toNat_of_nonneg hN.le, hk]
      push_cast
      rfl
    exact_mod_cast this
  · rintro ⟨k, hk⟩
    refine ⟨k, ?_⟩
    have : (N.toNat : Int) = ((2 ^ k : ℕ) : Int) := by rw [hk]
    rw [Int.toNat_of_nonneg hN.le] at this
    rw [this]
    push_cast
    rfl

/-- The value of `N & (N - 1)` for a positive machine integer `N`. -/
theorem andInt_pred_of_pos (N : Int) (hN : 0 < N) (hhi : N < 2 ^ 63) :
    andInt N (wrapInt (N - 1)) = ((N.toNat &&& (N.toNat - 1) : ℕ) : Int) := by
  have hw : wrapInt (N - 1) = N - 1 := wrapInt_of_range _ (by omega) (by omega)
  unfold andInt
  rw [hw]
  have h1 : (N % 2 ^ 64).toNat = N.toNat := by
    rw [Int.emod_eq_of_lt (by omega) (by omega)]
  have h2 : ((N - 1) % 2 ^ 64).toNat = N.toNat - 1 := by
    rw [Int.emod_eq_of_lt (by omega) (by omega)]
    omega
  rw [h1, h2]
  apply wrapInt_of_range
  · have : (0 : Int) ≤ ((N.toNat &&& (N.toNat - 1) : ℕ) : Int) := Int.natCast_nonneg _
    omega
  · have h3 : N.toNat &&& (N.toNat - 1) ≤ N.toNat := Nat.and_le_left
    omega

/-- The value of `N & (N - 1)` is not zero for a negative machine integer `N`
other than the least one. -/
theorem andInt_pred_of_neg (N : Int) (hN : N < 0) (hlo : -(2 ^ 63) < N) :
    andInt N (wrapInt (N - 1)) ≠ 0 := by
  have hw : wrapInt (N - 1) = N - 1 := wrapInt_of_range _ (by omega) (by omega)
  unfold andInt
  rw [hw]
  have hu1 : 2 ^ 63 ≤ (N % 2 ^ 64).toNat := by omega
  have hu2 : (N % 2 ^ 64).toNat < 2 ^ 64 := by omega
  have hv1 : 2 ^ 63 ≤ ((N - 1) % 2 ^ 64).toNat := by omega
  have hv2 : ((N - 1) % 2 ^ 64).toNat < 2 ^ 64 := by omega
  generalize (N % 2 ^ 64).toNat = u at hu1 hu2
  generalize ((N - 1) % 2 ^ 64).toNat = v at hv1 hv2
  have hbit : ∀ x : ℕ, 2 ^ 63 ≤ x → x < 2 ^ 64 → x.testBit 63 = true := by
    intro x h1 h2
    rw [Nat.testBit_to_div_mod]
    have : x / 2 ^ 63 % 2 = 1 := by omega
    rw [this]
    rfl
  have hand : (u &&& v).testBit 63 = true := by
    rw [Nat.testBit_and, hbit u hu1 hu2, hbit v hv1 hv2]
    rfl
  have hge : 2 ^ 63 ≤ u &&& v := Nat.testBit_implies_ge hand
  have hlt : u &&& v < 2 ^ 64 := Nat.and_lt_two_pow u hv2
  unfold wrapInt
  omega

/-- The first test of `Sanitize` fails exactly on the machine integers that
are not powers of two, the least machine integer apart. -/
theorem pow2_check_iff (N : Int) (hlo : -(2 ^ 63) < N) (hhi : N < 2 ^ 63) :
    (N = 0 ∨ andInt N (wrapInt (N - 1)) ≠ 0) ↔ ¬ IsPowerOfTwo N := by
  rcases lt_trichotomy N 0 with hneg | hzero | hpos
  · constructor
    · intro _ h
      have := isPowerOfTwo_pos N h
      omega
    · intro _
      exact Or.inr (andInt_pred_of_neg N hneg hlo)
  · subst hzero
    constructor
    · intro _ h
      have := isPowerOfTwo_pos 0 h
      omega
    · intro _
      exact Or.inl rfl
  · rw [andInt_pred_of_pos N hpos hhi, isPowerOfTwo_iff_toNat N hpos,
      ← nat_and_pred_eq_zero_iff N.toNat (by omega)]
    constructor
    · rintro (h | h)
      · omega
      · intro h0
        apply h
        rw [h0]
        rfl
    · intro h
      right
      intro h0
      apply h
      exact_mod_cast h0

/-- The four outcomes of `Sanitize` on a machine integer `N` other than the
least one. -/
theorem sanitize_cases {R : Type} (ins : Instance R) (hlo : -(2 ^ 63) < ins.N)
    (hhi : ins.N < 2 ^ 63) :
    (¬ IsPowerOfTwo ins.N →
        ins.Sanitize = some (Error.ErrBadParameters "ring dimension should be a power of 2")) ∧
      (IsPowerOfTwo ins.N → ins.N < ins.Hamming →
        ins.Sanitize
          = some (Error.ErrBadParameters "hamming weight is incompatible with ring")) ∧
      (IsPowerOfTwo ins.N → ins.Hamming ≤ ins.N → (ins.N < 256 ∨ ins.Hamming < 64) →
        ins.Sanitize = some Error.ErrWarningInsecure) ∧
      (IsPowerOfTwo ins.N → ins.Hamming ≤ ins.N → 256 ≤ ins.N → 64 ≤ ins.Hamming →
        ins.Sanitize = none) := by
  have hc := pow2_check_iff ins.N hlo hhi
  unfold Instance.Sanitize
  refine ⟨fun h => ?_, fun h h1 => ?_, fun h h1 h2 => ?_, fun h h1 h2 h3 => ?_⟩
  · rw [if_pos (hc.mpr h)]
  · rw [if_neg (fun hh => (hc.mp hh) h), if_pos h1]
  · rw [if_neg (fun hh => (hc.mp hh) h), if_neg (by omega), if_pos h2]
  · rw [if_neg (fun hh => (hc.mp hh) h), if_neg (by omega), if_neg (by omega)]

/-- C12: `Sanitize` returns a `BadParameters` error exactly when `N` is zero,
`N` is not a power of two, or `N < Hamming`, for every `N ≥ 0` and every
`Hamming`; the error takes precedence over the warning of insecure
parameters: with `N = 32` and `Hamming = 64`, where `N < 256` also holds, the
result is the `BadParameters` error of the Hamming weight. -/
theorem sanitize_badParameters_iff {R : Type} (ins : Instance R) (hN : 0 ≤ ins.N)
    (hhi : ins.N < 2 ^ 63) :
    ((∃ e : Error, ins.Sanitize = some e ∧ e.IsBadParameters) ↔
        (ins.N = 0 ∨ ¬ IsPowerOfTwo ins.N ∨ ins.N < ins.Hamming)) ∧
      ({ toyInstance ℚ with N := 32, Hamming := 64 } : Instance ℚ).Sanitize
        = some (Error.ErrBadParameters "hamming weight is incompatible with ring") := by
  refine ⟨?_, by decide⟩
  obtain ⟨h1, h2, h3, h4⟩ := sanitize_cases ins (by omega) hhi
  by_cases hp : IsPowerOfTwo ins.N
  · have hpos := isPowerOfTwo_pos _ hp
    by_cases hH : ins.N < ins.Hamming
    · rw [h2 hp hH]
      exact ⟨fun _ => Or.inr (Or.inr hH), fun _ => ⟨_, rfl, _, rfl⟩⟩
    · constructor
      · rintro ⟨e, he, msg, rfl⟩
        exfalso
        by_cases hw : ins.N < 256 ∨ ins.Hamming < 64
        · rw [h3 hp (by omega) hw] at he
          cases he
        · rw [h4 hp (by omega) (by omega) (by omega)] at he
          cases he
      · rintro (h | h | h)
        · omega
        · exact absurd hp h
        · exact absurd h hH
  · rw [h1 hp]
    exact ⟨fun _ => Or.inr (Or.inl hp), fun _ => ⟨_, rfl, _, rfl⟩⟩

theorem sanitize_badParameters_iff_witness :
    ((∃ e : Error, (toyInstance ℚ).Sanitize = some e ∧ e.IsBadParameters) ↔
        ((toyInstance ℚ).N = 0 ∨ ¬ IsPowerOfTwo (toyInstance ℚ).N ∨
          (toyInstance ℚ).N < (toyInstance ℚ).Hamming)) ∧
      ({ toyInstance ℚ with N := 32, Hamming := 64 } : Instance ℚ).Sanitize
        = some (Error.ErrBadParameters "hamming weight is incompatible with ring") :=
  sanitize_badParameters_iff (toyInstance ℚ) (by decide) (by decide)

/-- C14, as stated, fails: `Sanitize` accepts, with the warning of insecure
parameters, the bundle `N = 1`, `Depth = 0`, `Hamming = 1`, where neither
`N ≥ 2` nor `Depth ≥ 1` holds; it also accepts `N = Hamming = -2^63`, the
least machine integer, which is not a power of two. -/
theorem sanitize_accepts_counterexample :
    ({ toyInstance ℚ with N := 1, Depth := 0, Hamming := 1 } : Instance ℚ).Sanitize
        = some Error.ErrWarningInsecure ∧
      ¬ (2 ≤ ({ toyInstance ℚ with N := 1, Depth := 0, Hamming := 1 } : Instance ℚ).N) ∧
      ¬ (1 ≤ ({ toyInstance ℚ with N := 1, Depth := 0, Hamming := 1 } : Instance ℚ).Depth) ∧
      ({ toyInstance ℚ with N := -9223372036854775808, Hamming := -9223372036854775808 } :
          Instance ℚ).Sanitize = some Error.ErrWarningInsecure := by
  decide

/-- C14, amended: every parameter bundle, `N` a machine integer other than
the least one, that `Sanitize` accepts (result nil or the warning of insecure
parameters) has `N` a power of two with `N ≥ 1` and `Hamming ≤ N`. -/
theorem sanitize_accepts {R : Type} (ins : Instance R) (hlo : -(2 ^ 63) < ins.N)
    (hhi : ins.N < 2 ^ 63)
    (hacc : ins.Sanitize = none ∨ ins.Sanitize = some Error.ErrWarningInsecure) :
    IsPowerOfTwo ins.N ∧ 1 ≤ ins.N ∧ ins.Hamming ≤ ins.N := by
  obtain ⟨h1, h2, _, _⟩ := sanitize_cases ins hlo hhi
  have hp : IsPowerOfTwo ins.N := by
    by_contra hp
    rw [h1 hp] at hacc
    rcases hacc with h | h <;> cases h
  have hpos := isPowerOfTwo_pos _ hp
  refine ⟨hp, by omega, ?_⟩
  by_contra hH
  rw [h2 hp (by omega)] at hacc
  rcases hacc with h | h <;> cases h

theorem sanitize_accepts_witness :
    IsPowerOfTwo (toyInstance ℚ).N ∧ 1 ≤ (toyInstance ℚ).N ∧
      (toyInstance ℚ).Hamming ≤ (toyInstance ℚ).N :=
  sanitize_accepts (toyInstance ℚ) (by decide) (by decide) (Or.inr (by decide))

/-- C13: insecure parameters are a warning, not a failure.  Whenever
`NewInstance` returns (the sampled `p` being, as `RLWEPrime` promises, at
least 2 and congruent to 1 modulo `2N`), it returns the error
`ErrWarningInsecure` exactly when `N` is a power of two, `Hamming ≤ N` and
(`N < 256` or `Hamming < 64`), and then the instance is not nil; it returns a
nil instance exactly when the error is a `BadParameters` error; and it returns
a nil error exactly when `N` is a power of two with `N ≥ 256` and
`64 ≤ Hamming ≤ N`. -/
theorem newInstance_result {R : Type} [LinearOrderedField R] [FloorRing R] (fm : FloatMath R)
    (params : Parameters R) (p q0 pEval : Int) (multiplier : CRTMultiplier)
    (zMultiplier : ZMultiplier) (hlo : -(2 ^ 63) ≤ params.N) (hhi : params.N < 2 ^ 63)
    (hp2 : 2 ≤ p) (hp : p ≡ 1 [ZMOD wrapInt (2 * params.N)])
    (inst : Option (Instance R)) (err : Option Error)
    (hret : NewInstance fm params p q0 pEval multiplier zMultiplier = some (inst, err)) :
    (err = some Error.ErrWarningInsecure ↔
        IsPowerOfTwo params.N ∧ params.Hamming ≤ params.N ∧
          (params.N < 256 ∨ params.Hamming < 64)) ∧
      (err = some Error.ErrWarningInsecure → inst.isSome = true) ∧
      (inst = none ↔ ∃ e : Error, err = some e ∧ e.IsBadParameters) ∧
      (err = none ↔
        IsPowerOfTwo params.N ∧ 256 ≤ params.N ∧ 64 ≤ params.Hamming ∧
          params.Hamming ≤ params.N) := by
  have hM0 : wrapInt (2 * params.N) ≠ 0 := by
    intro h0
    rw [h0] at hp
    have := Int.modEq_zero_iff.mp hp
    omega
  have hmin : -(2 ^ 63) < params.N := by
    rcases eq_or_lt_of_le hlo with h | h
    · exfalso
      apply hM0
      rw [← h]
      decide
    · exact h
  unfold NewInstance at hret
  dsimp only at hret
  split at hret
  · cases hret
  obtain ⟨h1, h2, h3, h4⟩ := sanitize_cases
    ({ toParameters := params, p := p, q0 := q0, pEv := pEval,
       crtRoots := (List.range (wrapInt (2 * params.N)).toNat).map fun i =>
         PrimitiveRootOfUnity fm (i : Int) (wrapInt (2 * params.N)),
       bClean := computeBclean fm params.Sigma params.N params.Hamming,
       bScale := computeBscale fm params.N params.Hamming,
       multiplier := multiplier, zMultiplier := zMultiplier } : Instance R) hmin hhi
  dsimp only at h1 h2 h3 h4
  by_cases hpow : IsPowerOfTwo params.N
  · have hpos := isPowerOfTwo_pos _ hpow
    by_cases hH : params.N < params.Hamming
    · rw [h2 hpow hH] at hret
      simp only [ne_eq, reduceCtorEq, not_false_eq_true, ↓reduceIte, Option.some.injEq,
        Prod.mk.injEq] at hret
      obtain ⟨rfl, rfl⟩ := hret
      refine ⟨?_, ?_, ?_, ?_⟩
      · constructor
        · intro h
          cases h
        · rintro ⟨_, h, _⟩
          omega
      · intro h
        cases h
      · exact ⟨fun _ => ⟨_, rfl, _, rfl⟩, fun _ => rfl⟩
      · constructor
        · intro h
          cases h
        · rintro ⟨_, _, _, h⟩
          omega
    · by_cases hw : params.N < 256 ∨ params.Hamming < 64
      · rw [h3 hpow (by omega) hw] at hret
        simp only [ne_eq, not_true_eq_false, ↓reduceIte, Option.some.injEq,
          Prod.mk.injEq] at hret
        obtain ⟨rfl, rfl⟩ := hret
        refine ⟨?_, ?_, ?_, ?_⟩
        · exact ⟨fun _ => ⟨hpow, by omega, hw⟩, fun _ => rfl⟩
        · intro _
          rfl
        · constructor
          · intro h
            cases h
          · rintro ⟨e, he, msg, rfl⟩
            cases he
        · constructor
          · intro h
            cases h
          · rintro ⟨_, h5, h6, _⟩
            omega
      · rw [h4 hpow (by omega) (by omega) (by omega)] at hret
        simp only [Option.some.injEq, Prod.mk.injEq] at hret
        obtain ⟨rfl, rfl⟩ := hret
        refine ⟨?_, ?_, ?_, ?_⟩
        · constructor
          · intro h
            cases h
          · rintro ⟨_, _, h⟩
            exact absurd h hw
        · intro h
          cases h
        · constructor
          · intro h
            cases h
          · rintro ⟨e, he, _⟩
            cases he
        · exact ⟨fun _ => ⟨hpow, by omega, by omega, by omega⟩, fun _ => rfl⟩
  · rw [h1 hpow] at hret
    simp only [ne_eq, reduceCtorEq, not_false_eq_true, ↓reduceIte, Option.some.injEq,
      Prod.mk.injEq] at hret
    obtain ⟨rfl, rfl⟩ := hret
    refine ⟨?_, ?_, ?_, ?_⟩
    · constructor
      · intro h
        cases h
      · rintro ⟨h, _⟩
        exact absurd h hpow
    · intro h
      cases h
    · exact ⟨fun _ => ⟨_, rfl, _, rfl⟩, fun _ => rfl⟩
    · constructor
      · intro h
        cases h
      · rintro ⟨h, _⟩
        exact absurd h hpow

theorem newInstance_result_witness :
    ∃ (inst : Option (Instance ℝ)) (err : Option Error),
      NewInstance ⟨Real.pi, Real.sqrt 2, Real.cos, Real.sin, Real.sqrt⟩ (toyParameters ℝ)
        1073741953 1427247692705959881058285969449495136382747009
        1532495540865888858358347027150309183618739122183602369
        ⟨32, 1532495724980841217427171683669199242603612128948568577⟩ ⟨32⟩
        = some (inst, err) ∧
      (err = some Error.ErrWarningInsecure ↔
        IsPowerOfTwo (toyParameters ℝ).N ∧ (toyParameters ℝ).Hamming ≤ (toyParameters ℝ).N ∧
          ((toyParameters ℝ).N < 256 ∨ (toyParameters ℝ).Hamming < 64)) ∧
      (err = some Error.ErrWarningInsecure → inst.isSome = true) ∧
      (inst = none ↔ ∃ e : Error, err = some e ∧ e.IsBadParameters) ∧
      (err = none ↔
        IsPowerOfTwo (toyParameters ℝ).N ∧ 256 ≤ (toyParameters ℝ).N ∧
          64 ≤ (toyParameters ℝ).Hamming ∧ (toyParameters ℝ).Hamming ≤ (toyParameters ℝ).N) :=
  ⟨_, _, rfl,
    newInstance_result ⟨Real.pi, Real.sqrt 2, Real.cos, Real.sin, Real.sqrt⟩ (toyParameters ℝ)
      1073741953 1427247692705959881058285969449495136382747009
      1532495540865888858358347027150309183618739122183602369
      ⟨32, 1532495724980841217427171683669199242603612128948568577⟩ ⟨32⟩
      (by norm_num [toyParameters]) (by norm_num [toyParameters]) (by norm_num)
      (by decide) _ _ rfl⟩

/-! ## Errors of `Encode`, and the two Vandermonde actions -/

/-- C15: `Encode` fails, with `ErrBadEncoding` and no plaintext, if and only
if `len(z) ≠ N/2`; for every `z` of length `N/2` with `N` even (the table of
roots having its `2N` entries) it returns a nil error and a plaintext with
exactly `N` coefficients. -/
theorem encode_badEncoding_iff {R : Type} [LinearOrderedField R] [FloorRing R]
    (ins : Instance R) (z : List (Complex128 R)) (delta : Int) :
    (∀ e : Error, ins.Encode z delta = some (Except.error e) ↔
        (e = Error.ErrBadEncoding ∧ (z.length : Int) ≠ Int.tdiv ins.N 2)) ∧
      (∀ n : ℕ, ins.N = 2 * (n : Int) → z.length = n → ins.crtRoots.length = 2 * (2 * n) →
        ∃ plt : Plaintext, ins.Encode z delta = some (Except.ok plt) ∧
          plt.m.Coeffs.length = 2 * n) := by
  constructor
  · intro e
    unfold Instance.Encode
    by_cases h : (z.length : Int) ≠ Int.tdiv ins.N 2
    · rw [if_pos h]
      constructor
      · intro he
        simp only [Option.some.injEq, Except.error.injEq] at he
        exact ⟨he.symm, h⟩
      · rintro ⟨rfl, _⟩
        rfl
    · rw [if_neg h]
      constructor
      · intro he
        exfalso
        dsimp only at he
        split at he
        · cases he
        · split at he
          · cases he
          · simp only [Option.some.injEq, reduceCtorEq] at he
      · rintro ⟨_, h2⟩
        exact absurd h2 h
  · intro n hN hz hroots
    exact ⟨_, encode_eq ins z delta n hN hz hroots, by simp⟩

theorem encode_badEncoding_iff_witness :
    ∃ plt : Plaintext, (toyInstance ℚ).Encode [⟨3, 4⟩] 64 = some (Except.ok plt) ∧
      plt.m.Coeffs.length = 2 * 1 :=
  (encode_badEncoding_iff (toyInstance ℚ) [⟨3, 4⟩] 64).2 1 (by decide) (by decide) (by decide)

theorem toComplex_injective (x y : Complex128 ℝ)
    (h : Complex128.toComplex x = Complex128.toComplex y) : x = y := by
  cases x
  cases y
  simp only [Complex128.toComplex, Complex.mk.injEq] at h
  rw [h.1, h.2]

/-- The odd powers of a `2N`-th root of unity at a step `0 < d < N` sum to
zero. -/
theorem sum_odd_pow_eq_zero (w : ℂ) (N : ℕ) (hp : IsPrimitiveRoot (w ^ 2) N) (d : ℕ)
    (hd0 : 0 < d) (hd : d < N) : ∑ l ∈ Finset.range N, w ^ ((2 * l + 1) * d) = 0 := by
  have h1 : ∀ l ∈ Finset.range N, w ^ ((2 * l + 1) * d) = w ^ d * w ^ (2 * d * l) := by
    intro l _
    rw [← pow_add]
    congr 1
    ring
  rw [Finset.sum_congr rfl h1, ← Finset.mul_sum, sum_pow_two_mul w N hp d,
    if_neg (fun h => by have := Nat.le_of_dvd hd0 h; omega), mul_zero]

/-- The inverse Vandermonde action undoes the forward one. -/
theorem vandermonde_inversion_left (w : ℂ) (N : ℕ) (hN : 0 < N) (hw : w ^ (2 * N) = 1)
    (hp : IsPrimitiveRoot (w ^ 2) N) (Z : ℕ → ℂ) (i : ℕ) (hi : i < N) :
    (∑ l ∈ Finset.range N,
        (∑ j ∈ Finset.range N, Z j * w ^ ((2 * (N - 1 - l) + 1) * j)) * w ^ ((2 * l + 1) * i)) / N
      = Z i := by
  have hN' : (N : ℂ) ≠ 0 := Nat.cast_ne_zero.mpr hN.ne'
  have hinner : ∀ j ∈ Finset.range N,
      ∑ l ∈ Finset.range N, w ^ ((2 * (N - 1 - l) + 1) * j) * w ^ ((2 * l + 1) * i)
        = if j = i then (N : ℂ) else 0 := by
    intro j hj
    rw [Finset.mem_range] at hj
    rcases lt_trichotomy j i with hlt | heq | hgt
    · rw [if_neg (by omega)]
      have h1 : ∀ l ∈ Finset.range N,
          w ^ ((2 * (N - 1 - l) + 1) * j) * w ^ ((2 * l + 1) * i)
            = w ^ ((2 * l + 1) * (i - j)) := by
        intro l hl
        rw [Finset.mem_range] at hl
        rw [← pow_add]
        have : (2 * (N - 1 - l) + 1) * j + (2 * l + 1) * i
            = 2 * N * j + (2 * l + 1) * (i - j) := by
          have e1 : 2 * (N - 1 - l) + 1 + (2 * l + 1) = 2 * N := by omega
          have e2 : i = j + (i - j) := by omega
          rw [← e1]
          conv_lhs => rw [e2]
          ring
        rw [this, pow_add, pow_mul, hw, one_pow, one_mul]
      rw [Finset.sum_congr rfl h1]
      exact sum_odd_pow_eq_zero w N hp (i - j) (by omega) (by omega)
    · subst heq
      rw [if_pos rfl]
      have h1 : ∀ l ∈ Finset.range N,
          w ^ ((2 * (N - 1 - l) + 1) * j) * w ^ ((2 * l + 1) * j) = 1 := by
        intro l hl
        rw [Finset.mem_range] at hl
        rw [← pow_add, ← add_mul]
        have e1 : 2 * (N - 1 - l) + 1 + (2 * l + 1) = 2 * N := by omega
        rw [e1, pow_mul, hw, one_pow]
      rw [Finset.sum_congr rfl h1]
      simp
    · rw [if_neg (by omega)]
      have h1 : ∀ l ∈ Finset.range N,
          w ^ ((2 * (N - 1 - l) + 1) * j) * w ^ ((2 * l + 1) * i)
            = w ^ ((2 * (N - 1 - l) + 1) * (j - i)) := by
        intro l hl
        rw [Finset.mem_range] at hl
        rw [← pow_add]
        have : (2 * (N - 1 - l) + 1) * j + (2 * l + 1) * i
            = 2 * N * i + (2 * (N - 1 - l) + 1) * (j - i) := by
          have e1 : 2 * (N - 1 - l) + 1 + (2 * l + 1) = 2 * N := by omega
          have e2 : j = i + (j - i) := by omega
          rw [← e1]
          conv_lhs => rw [e2]
          ring
        rw [this, pow_add, pow_mul, hw, one_pow, one_mul]
      rw [Finset.sum_congr rfl h1,
        Finset.sum_range_reflect (fun l => w ^ ((2 * l + 1) * (j - i))) N]
      exact sum_odd_pow_eq_zero w N hp (j - i) (by omega) (by omega)
  have hswap : ∑ l ∈ Finset.range N,
      (∑ j ∈ Finset.range N, Z j * w ^ ((2 * (N - 1 - l) + 1) * j)) * w ^ ((2 * l + 1) * i)
      = ∑ j ∈ Finset.range N, Z j *
          ∑ l ∈ Finset.range N, w ^ ((2 * (N - 1 - l) + 1) * j) * w ^ ((2 * l + 1) * i) := by
    simp_rw [Finset.sum_mul, Finset.mul_sum]
    rw [Finset.sum_comm]
    refine Finset.sum_congr rfl fun j _ => Finset.sum_congr rfl fun l _ => ?_
    ring
  rw [hswap, Finset.sum_congr rfl (fun j hj => by rw [hinner j hj]),
    Finset.sum_eq_single i]
  · rw [if_pos rfl]
    field_simp
  · intro j _ hne
    rw [if_neg hne, mul_zero]
  · intro h
    exfalso
    apply h
    rw [Finset.mem_range]
    exact hi

/-- C20: `VandermondeActionInverse` is the inverse of `VandermondeAction`.
For every `N ≥ 1`, the table `roots[k] = exp(2πik/(2N))`, `k < 2N`, and every
`z` of `N` complex numbers, both functions return, and
`VandermondeAction(roots, VandermondeActionInverse(roots, z)) = z` and
`VandermondeActionInverse(roots, VandermondeAction(roots, z)) = z`, in exact
arithmetic. -/
theorem vandermonde_inverse (roots z : List (Complex128 ℝ)) (N : ℕ) (hN : 1 ≤ N)
    (hz : z.length = N)
    (hroots : roots = (List.range (2 * N)).map fun (k : ℕ) =>
      (⟨Real.cos (Real.pi * (k : ℝ) / (N : ℝ)), Real.sin (Real.pi * (k : ℝ) / (N : ℝ))⟩ :
        Complex128 ℝ)) :
    (∃ y : List (Complex128 ℝ), VandermondeActionInverse roots z = some y ∧
        VandermondeAction roots y = some z) ∧
      (∃ y : List (Complex128 ℝ), VandermondeAction roots z = some y ∧
        VandermondeActionInverse roots y = some z) := by
  have hN0 : 0 < N := hN
  have hrl : roots.length = 2 * N := by
    rw [hroots]
    simp
  have hw := exp_pow_two_mul N hN0
  have hp := exp_sq_primitive N hN0
  constructor
  · refine ⟨_, vandermondeActionInverse_eq roots z (by rw [hrl, hz]), ?_⟩
    rw [hz]
    have hl : ((List.range N).map (vandermondeInverseEntry roots z)).length = N := by simp
    rw [vandermondeAction_eq roots _ (by rw [hl, hrl]), hl]
    congr 1
    apply List.ext_getElem
    · simp [hz]
    intro i h1 h2
    have hi : i < N := by simpa using h1
    rw [List.getElem_map, List.getElem_range]
    apply toComplex_injective
    rw [toComplex_vandermondeEntry roots _ N hN0 hl hroots i]
    have hterm : ∀ j ∈ Finset.range N,
        Complex128.toComplex (((List.range N).map (vandermondeInverseEntry roots z)).getD j 0)
          * Complex.exp (Real.pi / (N : ℂ) * Complex.I) ^ ((2 * i + 1) * j)
        = ((∑ l ∈ Finset.range N, Complex128.toComplex (z.getD (N - 1 - l) 0)
            * Complex.exp (Real.pi / (N : ℂ) * Complex.I) ^ ((2 * l + 1) * j)) / N)
          * Complex.exp (Real.pi / (N : ℂ) * Complex.I) ^ ((2 * i + 1) * j) := by
      intro j hj
      rw [Finset.mem_range] at hj
      rw [getD_map_range_complex128 _ _ _ hj,
        toComplex_vandermondeInverseEntry roots z N hN0 hz hroots j]
    rw [Finset.sum_congr rfl hterm,
      vandermonde_inversion _ N hN0 hp (fun l => Complex128.toComplex (z.getD l 0)) i hi,
      List.getD_eq_getElem _ _ h2]
  · refine ⟨_, vandermondeAction_eq roots z (by rw [hrl, hz]), ?_⟩
    rw [hz]
    have hl : ((List.range N).map (vandermondeEntry roots z)).length = N := by simp
    rw [vandermondeActionInverse_eq roots _ (by rw [hl, hrl]), hl]
    congr 1
    apply List.ext_getElem
    · simp [hz]
    intro i h1 h2
    have hi : i < N := by simpa using h1
    rw [List.getElem_map, List.getElem_range]
    apply toComplex_injective
    rw [toComplex_vandermondeInverseEntry roots _ N hN0 hl hroots i]
    have hterm : ∀ l ∈ Finset.range N,
        Complex128.toComplex (((List.range N).map (vandermondeEntry roots z)).getD (N - 1 - l) 0)
          * Complex.exp (Real.pi / (N : ℂ) * Complex.I) ^ ((2 * l + 1) * i)
        = (∑ j ∈ Finset.range N, Complex128.toComplex (z.getD j 0)
            * Complex.exp (Real.pi / (N : ℂ) * Complex.I) ^ ((2 * (N - 1 - l) + 1) * j))
          * Complex.exp (Real.pi / (N : ℂ) * Complex.I) ^ ((2 * l + 1) * i) := by
      intro l hl
      rw [Finset.mem_range] at hl
      rw [getD_map_range_complex128 _ _ _ (by omega),
        toComplex_vandermondeEntry roots z N hN0 hz hroots (N - 1 - l)]
    rw [Finset.sum_congr rfl hterm,
      vandermonde_inversion_left _ N hN0 hw hp (fun l => Complex128.toComplex (z.getD l 0)) i hi,
      List.getD_eq_getElem _ _ h2]

theorem vandermonde_inverse_witness :
    (∃ y : List (Complex128 ℝ),
        VandermondeActionInverse (toyInstance ℝ).crtRoots [⟨3, 4⟩, ⟨3, -4⟩] = some y ∧
        VandermondeAction (toyInstance ℝ).crtRoots y = some [⟨3, 4⟩, ⟨3, -4⟩]) ∧
      (∃ y : List (Complex128 ℝ),
        VandermondeAction (toyInstance ℝ).crtRoots [⟨3, 4⟩, ⟨3, -4⟩] = some y ∧
        VandermondeActionInverse (toyInstance ℝ).crtRoots y = some [⟨3, 4⟩, ⟨3, -4⟩]) :=
  vandermonde_inverse (toyInstance ℝ).crtRoots [⟨3, 4⟩, ⟨3, -4⟩] 2 (by norm_num) rfl
    (by
      have h := toyInstance_crtRoots
      norm_num at h ⊢
      exact h)

/-! ## The coefficients that `Encode` computes -/

/-- The function `nearestInteger` rounds to the nearest integer, ties away
from zero. -/
theorem nearestInteger_eq_roundHalfAway {R : Type} [LinearOrderedField R] [FloorRing R]
    (x : R) : nearestInteger x = roundHalfAway x := by
  unfold nearestInteger roundHalfAway
  dsimp only
  rw [truncToInt_of_nonneg _ (by positivity)]
  rcases lt_or_le x 0 with hx | hx
  · rw [if_pos hx, if_neg (not_le.mpr hx), abs_of_neg hx, ← Int.ceil_neg]
    congr 1
    ring
  · rw [if_neg (not_lt.mpr hx), if_pos hx, abs_of_nonneg hx]

/-- The function `nearestInteger` returns the integer `a` on every argument
closer than one half to `a`. -/
theorem nearestInteger_eq {R : Type} [LinearOrderedField R] [FloorRing R] (a : Int) (x : R)
    (h1 : (a : R) - 1 / 2 < x) (h2 : x < (a : R) + 1 / 2) : nearestInteger x = a := by
  unfold nearestInteger
  dsimp only
  rw [truncToInt_of_nonneg _ (by positivity)]
  rcases lt_or_le x 0 with hx | hx
  · rw [if_pos hx, abs_of_neg hx]
    have : ⌊-x + 1 / 2⌋ = -a := by
      rw [Int.floor_eq_iff]
      push_cast
      constructor <;> linarith
    rw [this, neg_neg]
  · rw [if_neg (not_lt.mpr hx), abs_of_nonneg hx]
    rw [Int.floor_eq_iff]
    constructor <;> linarith

/-- The inverse Vandermonde action in the form of the canonical embedding:
`(Σ_l Z[N-1-l] * w^((2l+1)i)) / N = (1/N) * Σ_k Z[k] * w^(-(2k+1)i)`. -/
theorem inverse_action_as_embedding (w : ℂ) (N : ℕ) (hw : w ^ (2 * N) = 1) (Z : ℕ → ℂ)
    (i : ℕ) :
    (∑ l ∈ Finset.range N, Z (N - 1 - l) * w ^ ((2 * l + 1) * i)) / N
      = 1 / (N : ℂ) * ∑ k ∈ Finset.range N, Z k * w ^ (-(((2 * k + 1) * i : ℕ) : Int)) := by
  have h1 : ∑ l ∈ Finset.range N, Z (N - 1 - l) * w ^ ((2 * l + 1) * i)
      = ∑ k ∈ Finset.range N, Z k * w ^ (-(((2 * k + 1) * i : ℕ) : Int)) := by
    rw [← Finset.sum_range_reflect (fun k => Z k * w ^ (-(((2 * k + 1) * i : ℕ) : Int))) N]
    refine Finset.sum_congr rfl fun l hl => ?_
    rw [Finset.mem_range] at hl
    dsimp only
    congr 1
    have h4 : w ^ ((2 * l + 1) * i) * w ^ ((2 * (N - 1 - l) + 1) * i) = 1 := by
      rw [← pow_add, ← add_mul]
      have : 2 * l + 1 + (2 * (N - 1 - l) + 1) = 2 * N := by omega
      rw [this, pow_mul, hw, one_pow]
    rw [zpow_neg, zpow_natCast]
    exact eq_inv_of_mul_eq_one_left h4
  rw [h1]
  ring

theorem complex128_add_def {R : Type} [Add R] (x y : Complex128 R) :
    x + y = ⟨x.re + y.re, x.im + y.im⟩ := rfl

theorem complex128_mul_def {R : Type} [Add R] [Sub R] [Mul R] (x y : Complex128 R) :
    x * y = ⟨x.re * y.re - x.im * y.im, x.re * y.im + x.im * y.re⟩ := rfl

theorem complex128_div_def {R : Type} [Add R] [Sub R] [Mul R] [Div R] (x y : Complex128 R) :
    x / y = ⟨(x.re * y.re + x.im * y.im) / (y.re * y.re + y.im * y.im),
      (x.im * y.re - x.re * y.im) / (y.re * y.re + y.im * y.im)⟩ := rfl

theorem complex128_zero_def {R : Type} [Zero R] : (0 : Complex128 R) = ⟨0, 0⟩ := rfl

/-- The four entries of the inverse Vandermonde action on the mirrored vector
of `z = [3+4i, 2-i]`, for the table of the eighth roots of unity written with
`s`. -/
theorem article_entries (s : ℝ) :
    (vandermondeInverseEntry (articleInstance ℝ s).crtRoots (mirrored [⟨3, 4⟩, ⟨2, -1⟩]) 0).re
        = 5 / 2 ∧
      (vandermondeInverseEntry (articleInstance ℝ s).crtRoots (mirrored [⟨3, 4⟩, ⟨2, -1⟩]) 1).re
        = 2 * s ∧
      (vandermondeInverseEntry (articleInstance ℝ s).crtRoots (mirrored [⟨3, 4⟩, ⟨2, -1⟩]) 2).re
        = 5 / 2 ∧
      (vandermondeInverseEntry (articleInstance ℝ s).crtRoots (mirrored [⟨3, 4⟩, ⟨2, -1⟩]) 3).re
        = s := by
  simp only [vandermondeInverseEntry, mirrored, articleInstance, List.map_cons, List.map_nil,
    List.reverse_cons, List.reverse_nil, List.nil_append, List.cons_append, List.length_cons,
    List.length_nil, List.range_succ, List.range_zero, List.foldl_cons, List.foldl_nil,
    List.foldl_append, complex128_add_def, complex128_mul_def, complex128_div_def,
    complex128_zero_def]
  norm_num [List.getD]
  refine ⟨?_, ?_⟩ <;> ring

/-- The table of the exact eighth roots of unity, `exp(iπj/4)` for `j < 8`. -/
theorem article_table :
    ((List.range (2 * (2 * 2))).map fun (j : ℕ) =>
      (⟨Real.cos (Real.pi * (j : ℝ) / ((2 * 2 : ℕ) : ℝ)),
        Real.sin (Real.pi * (j : ℝ) / ((2 * 2 : ℕ) : ℝ))⟩ : Complex128 ℝ))
      = (articleInstance ℝ (Real.sqrt 2 / 2)).crtRoots := by
  have e2 : Real.pi * 2 / 4 = Real.pi / 2 := by ring
  have e3 : Real.pi * 3 / 4 = Real.pi - Real.pi / 4 := by ring
  have e4 : Real.pi * 4 / 4 = Real.pi := by ring
  have e5 : Real.pi * 5 / 4 = Real.pi / 4 + Real.pi := by ring
  have e6 : Real.pi * 6 / 4 = Real.pi / 2 + Real.pi := by ring
  have e7 : Real.pi * 7 / 4 = 2 * Real.pi - Real.pi / 4 := by ring
  simp only [articleInstance, List.range_succ, List.range_zero, List.nil_append,
    List.cons_append, List.map_cons, List.map_nil, Nat.reduceMul, Nat.cast_ofNat,
    Nat.cast_zero, Nat.cast_one, mul_zero, zero_div, mul_one, Real.cos_zero, Real.sin_zero,
    e2, e3, e4, e5, e6, e7, Real.cos_pi_div_four, Real.sin_pi_div_four, Real.cos_pi_div_two,
    Real.sin_pi_div_two, Real.cos_pi_sub, Real.sin_pi_sub, Real.cos_pi, Real.sin_pi,
    Real.cos_add_pi, Real.sin_add_pi, Real.cos_two_pi_sub, Real.sin_two_pi_sub, neg_zero]

/-- The coefficients that `Encode` computes for `z = [3+4i, 2-i]` and
`delta = 64` from the table of the exact eighth roots of unity. -/
theorem article_coefficients :
    ((List.range (2 * 2)).map fun i =>
      nearestInteger ((vandermondeInverseEntry (articleInstance ℝ (Real.sqrt 2 / 2)).crtRoots
        (mirrored [⟨3, 4⟩, ⟨2, -1⟩]) i).re * ((64 : Int) : ℝ))) = [160, 91, 160, 45] := by
  obtain ⟨h0, h1, h2, h3⟩ := article_entries (Real.sqrt 2 / 2)
  have hs0 : (0 : ℝ) < Real.sqrt 2 / 2 := by positivity
  have hss : Real.sqrt 2 / 2 * (Real.sqrt 2 / 2) = 1 / 2 := by
    have := Real.mul_self_sqrt (show (0 : ℝ) ≤ 2 by norm_num)
    nlinarith
  simp only [List.range_succ, List.range_zero, List.nil_append, List.cons_append,
    List.map_cons, List.map_nil, Nat.reduceMul, h0, h1, h2, h3]
  generalize Real.sqrt 2 / 2 = s at hs0 hss
  have c0 : nearestInteger ((5 / 2 : ℝ) * ((64 : Int) : ℝ)) = 160 :=
    nearestInteger_eq 160 _ (by norm_num) (by norm_num)
  have c1 : nearestInteger (2 * s * ((64 : Int) : ℝ)) = 91 :=
    nearestInteger_eq 91 _ (by push_cast; nlinarith) (by push_cast; nlinarith)
  have c3 : nearestInteger (s * ((64 : Int) : ℝ)) = 45 :=
    nearestInteger_eq 45 _ (by push_cast; nlinarith) (by push_cast; nlinarith)
  rw [c0, c1, c3]

/-- The entries of the conjugate-mirrored vector, as complex numbers: `z[k]`
in the first half and the conjugate of `z[2n-1-k]` in the second half. -/
theorem toComplex_mirrored_getD (z : List (Complex128 ℝ)) (k : ℕ) (hk : k < 2 * z.length) :
    Complex128.toComplex ((mirrored z).getD k 0)
      = if k < z.length then Complex128.toComplex (z.getD k 0)
        else conj (Complex128.toComplex (z.getD (2 * z.length - 1 - k) 0)) := by
  unfold mirrored
  rw [getD_append_map_reverse z _ 0 k hk]
  split
  · rfl
  · apply Complex.ext <;> simp [Complex128.toComplex]

/-- C19, amended: in exact real and complex arithmetic and with the table of
the exact roots `exp(iπj/N)`, for every instance with `N = 2n ≥ 2`,
`Encode z delta` on a vector of `n` entries returns a plaintext of `N`
coefficients whose coefficient `i` is the nearest integer, ties away from
zero, of `delta * Re(phat[i])`, where
`phat[i] = (1/N) Σ_{k<N} z'[k] w^(-(2k+1)i)`, `w = exp(iπ/N)` and `z'` is `z`
followed by the conjugates of its entries in reverse order; for `N = 4`,
`delta = 64` and `z = [3+4i, 2-i]` the coefficients are `[160, 91, 160, 45]`. -/
theorem encode_formula (ins : Instance ℝ) (z : List (Complex128 ℝ)) (delta : Int) (n : ℕ)
    (hn : 0 < n) (hN : ins.N = 2 * (n : Int)) (hz : z.length = n)
    (hroots : ins.crtRoots = (List.range (2 * (2 * n))).map fun (j : ℕ) =>
      (⟨Real.cos (Real.pi * (j : ℝ) / ((2 * n : ℕ) : ℝ)),
        Real.sin (Real.pi * (j : ℝ) / ((2 * n : ℕ) : ℝ))⟩ : Complex128 ℝ)) :
    (∃ plt : Plaintext, ins.Encode z delta = some (Except.ok plt) ∧
      plt.m.Coeffs.length = 2 * n ∧
      ∀ i, i < 2 * n → plt.m.Coeffs.getD i 0
        = roundHalfAway ((delta : ℝ) * (1 / ((2 * n : ℕ) : ℂ)
            * ∑ k ∈ Finset.range (2 * n),
                (if k < n then Complex128.toComplex (z.getD k 0)
                  else conj (Complex128.toComplex (z.getD (2 * n - 1 - k) 0)))
                * Complex.exp (Real.pi / ((2 * n : ℕ) : ℂ) * Complex.I)
                    ^ (-(((2 * k + 1) * i : ℕ) : Int))).re)) ∧
      (n = 2 → z = [⟨3, 4⟩, ⟨2, -1⟩] → delta = 64 →
        ins.Encode z delta = some (Except.ok ⟨⟨[160, 91, 160, 45]⟩⟩)) := by
  have hlen : ins.crtRoots.length = 2 * (2 * n) := by
    rw [hroots]
    simp
  have henc := encode_eq ins z delta n hN hz hlen
  refine ⟨⟨_, henc, by simp, ?_⟩, ?_⟩
  · intro i hi
    dsimp only
    rw [getD_map_range _ _ _ hi, nearestInteger_eq_roundHalfAway, mul_comm]
    congr 2
    have hmir : (mirrored z).length = 2 * n := by
      rw [length_mirrored, hz]
    rw [← inverse_action_as_embedding _ (2 * n) (exp_pow_two_mul (2 * n) (by omega)) _ i]
    change (Complex128.toComplex (vandermondeInverseEntry ins.crtRoots (mirrored z) i)).re = _
    rw [toComplex_vandermondeInverseEntry ins.crtRoots (mirrored z) (2 * n) (by omega) hmir
        hroots i]
    congr 2
    refine Finset.sum_congr rfl fun l hl => ?_
    rw [Finset.mem_range] at hl
    rw [toComplex_mirrored_getD z _ (by omega), hz]
  · intro h2 hzv hd
    subst h2 hzv hd
    rw [henc, hroots, article_table, article_coefficients]

/-- The hypotheses of `encode_formula` hold of the instance with `N = 4` and
the exact eighth roots of unity, and `z = [3+4i, 2-i]`, `delta = 64`. -/
theorem encode_formula_witness :
    (articleInstance ℝ (Real.sqrt 2 / 2)).Encode [⟨3, 4⟩, ⟨2, -1⟩] 64
      = some (Except.ok ⟨⟨[160, 91, 160, 45]⟩⟩) :=
  (encode_formula (articleInstance ℝ (Real.sqrt 2 / 2)) [⟨3, 4⟩, ⟨2, -1⟩] 64 2 (by decide) rfl
    rfl article_table.symm).2 rfl rfl rfl

/-! ## The product of two encoded polynomials -/

/-- A sum of `N` unit complex numbers with real weights of size at most `b`
has absolute value at most `N * b`. -/
theorem weighted_sum_abs_bound (N : ℕ) (e : ℕ → ℝ) (u : ℕ → ℂ) (b : ℝ)
    (he : ∀ j, j < N → |e j| ≤ b) (hu : ∀ j, j < N → Complex.abs (u j) = 1) :
    Complex.abs (∑ j ∈ Finset.range N, (e j : ℂ) * u j) ≤ N * b := by
  calc Complex.abs (∑ j ∈ Finset.range N, (e j : ℂ) * u j)
      ≤ ∑ j ∈ Finset.range N, Complex.abs ((e j : ℂ) * u j) :=
        Complex.abs.sum_le _ _
    _ ≤ ∑ _j ∈ Finset.range N, b := by
        refine Finset.sum_le_sum fun j hj => ?_
        rw [Finset.mem_range] at hj
        rw [map_mul, hu j hj, mul_one, Complex.abs_ofReal]
        exact he j hj
    _ = N * b := by simp

/-- The odd powers of `exp(iπ/N)` are roots of `X^N + 1`. -/
theorem exp_odd_pow (N : ℕ) (hN : 0 < N) (k : ℕ) :
    (Complex.exp (Real.pi / N * Complex.I) ^ (2 * k + 1)) ^ N = -1 := by
  have h1 : Complex.exp (Real.pi / N * Complex.I) ^ N = -1 := by
    rw [← Complex.exp_nat_mul]
    have : (N : ℂ) * (Real.pi / N * Complex.I) = Real.pi * Complex.I := by
      have hN' : (N : ℂ) ≠ 0 := Nat.cast_ne_zero.mpr hN.ne'
      field_simp
    rw [this, Complex.exp_pi_mul_I]
  rw [← pow_mul, Nat.mul_comm (2 * k + 1) N, pow_mul, h1]
  exact Odd.neg_one_pow ⟨k, rfl⟩

/-- The value at the root `w^(2k+1)` of the polynomial whose coefficients are
the integers `m[j]` within one half of `δ` times the inverse Vandermonde
action of a conjugate-mirrored vector `Z`: it is `δ * Z[k]` up to an error of
absolute value at most `N/2`. -/
theorem encoded_value (N : ℕ) (hN : 0 < N) (w : ℂ) (hw : w ^ (2 * N) = 1)
    (hprim : IsPrimitiveRoot (w ^ 2) N) (hconj : conj w * w = 1)
    (habs : ∀ a : ℕ, Complex.abs (w ^ a) = 1) (Z : ℕ → ℂ)
    (hZ : ∀ l, l < N → Z (N - 1 - l) = conj (Z l)) (P : ℕ → ℂ)
    (hP : ∀ j, P j = (∑ l ∈ Finset.range N, Z (N - 1 - l) * w ^ ((2 * l + 1) * j)) / N)
    (m : ℕ → Int) (δ : ℝ)
    (hm : ∀ j, |((m j : Int) : ℝ) - (P j).re * δ| ≤ 1 / 2) (k : ℕ) (hk : k < N) :
    Complex.abs ((∑ j ∈ Finset.range N, ((m j : Int) : ℂ) * w ^ ((2 * k + 1) * j))
      - (δ : ℂ) * Z k) ≤ N / 2 := by
  have hPim : ∀ j, (P j).im = 0 := by
    intro j
    rw [← Complex.conj_eq_iff_im, hP j, map_div₀, Complex.conj_natCast,
      vandermonde_real w N hw hconj Z hZ]
  have hsplit : ∀ j ∈ Finset.range N,
      ((m j : Int) : ℂ) * w ^ ((2 * k + 1) * j)
        = (δ : ℂ) * (P j * w ^ ((2 * k + 1) * j))
          + ((((m j : Int) : ℝ) - (P j).re * δ : ℝ) : ℂ) * w ^ ((2 * k + 1) * j) := by
    intro j _
    rw [← mul_assoc, ← add_mul]
    congr 1
    apply Complex.ext
    · simp
      ring
    · simp [hPim j]
  have hinv : ∑ j ∈ Finset.range N, P j * w ^ ((2 * k + 1) * j) = Z k := by
    simp_rw [hP]
    exact vandermonde_inversion w N hN hprim Z k hk
  have hb := weighted_sum_abs_bound N (fun j => ((m j : Int) : ℝ) - (P j).re * δ)
    (fun j => w ^ ((2 * k + 1) * j)) (1 / 2) (fun j _ => hm j) (fun j _ => habs _)
  rw [Finset.sum_congr rfl hsplit, Finset.sum_add_distrib, ← Finset.mul_sum, hinv,
    add_sub_cancel_left]
  calc _ ≤ (N : ℝ) * (1 / 2) := hb
    _ = N / 2 := by ring

/-- The product of two values `δ a + E` and `δ b + F`, divided by `δ²`, is
`a b` up to an error below one half, when `|a|, |b| ≤ B`, `|E|, |F| ≤ N/2`
and `N B / δ + N² / (4 δ²) < 1/2` with `δ > 0`. -/
theorem product_error (a b U V : ℂ) (δ B N : ℝ) (hδ : 0 < δ) (hN : 0 ≤ N)
    (ha : Complex.abs a ≤ B) (hb : Complex.abs b ≤ B)
    (hU : Complex.abs (U - (δ : ℂ) * a) ≤ N / 2) (hV : Complex.abs (V - (δ : ℂ) * b) ≤ N / 2)
    (hbound : N * B / δ + N ^ 2 / (4 * δ ^ 2) < 1 / 2) :
    Complex.abs (U * V / ((δ * δ : ℝ) : ℂ) - a * b) < 1 / 2 := by
  have hδc : (δ : ℂ) ≠ 0 := Complex.ofReal_ne_zero.mpr hδ.ne'
  have hB : 0 ≤ B := le_trans (Complex.abs.nonneg a) ha
  have key : U * V / ((δ * δ : ℝ) : ℂ) - a * b
      = (a * (V - (δ : ℂ) * b) + b * (U - (δ : ℂ) * a)) / (δ : ℂ)
        + (U - (δ : ℂ) * a) * (V - (δ : ℂ) * b) / ((δ : ℂ) * (δ : ℂ)) := by
    push_cast
    field_simp
    ring
  rw [key]
  set E := U - (δ : ℂ) * a
  set F := V - (δ : ℂ) * b
  have hE0 := Complex.abs.nonneg E
  have hF0 := Complex.abs.nonneg F
  have ha0 := Complex.abs.nonneg a
  have hb0 := Complex.abs.nonneg b
  have h1 : Complex.abs ((a * F + b * E) / (δ : ℂ)) ≤ N * B / δ := by
    rw [map_div₀, Complex.abs_ofReal, abs_of_pos hδ]
    apply div_le_div_of_nonneg_right _ hδ.le
    calc Complex.abs (a * F + b * E) ≤ Complex.abs (a * F) + Complex.abs (b * E) :=
          Complex.abs.add_le _ _
      _ = Complex.abs a * Complex.abs F + Complex.abs b * Complex.abs E := by
          rw [map_mul, map_mul]
      _ ≤ B * (N / 2) + B * (N / 2) :=
          add_le_add (mul_le_mul ha hV hF0 hB) (mul_le_mul hb hU hE0 hB)
      _ = N * B := by ring
  have h2 : Complex.abs (E * F / ((δ : ℂ) * (δ : ℂ))) ≤ N ^ 2 / (4 * δ ^ 2) := by
    rw [map_div₀, map_mul, map_mul, Complex.abs_ofReal, abs_of_pos hδ]
    have : N ^ 2 / (4 * δ ^ 2) = (N / 2) * (N / 2) / (δ * δ) := by
      field_simp
      ring
    rw [this]
    apply div_le_div_of_nonneg_right _ (mul_pos hδ hδ).le
    exact mul_le_mul hU hV hF0 (by linarith)
  calc _ ≤ Complex.abs ((a * F + b * E) / (δ : ℂ))
        + Complex.abs (E * F / ((δ : ℂ) * (δ : ℂ))) := Complex.abs.add_le _ _
    _ ≤ N * B / δ + N ^ 2 / (4 * δ ^ 2) := add_le_add h1 h2
    _ < 1 / 2 := hbound

theorem toComplex_real (x : ℝ) : Complex128.toComplex ⟨x, 0⟩ = (x : ℂ) := by
  apply Complex.ext <;> simp [Complex128.toComplex]

/-- The value at `t` of the polynomial with the coefficients `m[0..N-1]`. -/
theorem evalAt_map_range (t : ℂ) (m : ℕ → Int) (N : ℕ) :
    evalAt t ((List.range N).map m) = ∑ j ∈ Finset.range N, ((m j : Int) : ℂ) * t ^ j := by
  unfold evalAt
  rw [List.length_map, List.length_range]
  refine Finset.sum_congr rfl fun j hj => ?_
  rw [getD_map_range _ _ _ (Finset.mem_range.mp hj)]

/-- The forward Vandermonde action on the coefficients of a negacyclic product,
divided by `d`, is the product of the values of the two factors at the odd
power `w^(2i+1)` of `w = exp(iπ/N)`, divided by `d`. -/
theorem decode_product_value (roots : List (Complex128 ℝ)) (N : ℕ) (hN : 0 < N)
    (hroots : roots = (List.range (2 * N)).map fun (j : ℕ) =>
      (⟨Real.cos (Real.pi * (j : ℝ) / (N : ℝ)), Real.sin (Real.pi * (j : ℝ) / (N : ℝ))⟩ :
        Complex128 ℝ))
    (mz mw : ℕ → Int) (d : ℝ) (i : ℕ) :
    Complex128.toComplex (vandermondeEntry roots
        ((List.range N).map fun j =>
          (⟨(((MulSimple ⟨(List.range N).map mz⟩ ⟨(List.range N).map mw⟩).Coeffs.getD j 0 : Int)
            : ℝ) / d, 0⟩ : Complex128 ℝ)) i)
      = (∑ j ∈ Finset.range N, ((mz j : Int) : ℂ)
            * Complex.exp (Real.pi / N * Complex.I) ^ ((2 * i + 1) * j))
          * (∑ j ∈ Finset.range N, ((mw j : Int) : ℂ)
            * Complex.exp (Real.pi / N * Complex.I) ^ ((2 * i + 1) * j)) / (d : ℂ) := by
  have hlen : (MulSimple ⟨(List.range N).map mz⟩ ⟨(List.range N).map mw⟩).Coeffs.length = N := by
    simp [MulSimple]
  rw [toComplex_vandermondeEntry roots _ N hN (by simp) hroots i]
  have hev := evalAt_MulSimple (Complex.exp (Real.pi / N * Complex.I) ^ (2 * i + 1))
    ⟨(List.range N).map mz⟩ ⟨(List.range N).map mw⟩ N (exp_odd_pow N hN i) (by simp) (by simp)
  rw [evalAt_map_range, evalAt_map_range] at hev
  simp only [← pow_mul] at hev
  rw [← hev]
  unfold evalAt
  rw [hlen, Finset.sum_div]
  refine Finset.sum_congr rfl fun j hj => ?_
  rw [getD_map_range_complex128 _ _ _ (Finset.mem_range.mp hj), toComplex_real, ← pow_mul]
  push_cast
  ring

/-- The homomorphism of `Encode` for an even ring dimension `N = 2n ≥ 2`, the
exact table of roots, Gaussian-integer entries of absolute value at most `B`
and a positive scaling factor with `N B / δ + N² / (4 δ²) < 1/2`. -/
theorem decode_product_even (ins : Instance ℝ) (z w : List (Complex128 ℝ)) (delta : Int)
    (n : ℕ) (B : ℝ) (hn : 0 < n) (hN : ins.N = 2 * (n : Int))
    (hroots : ins.crtRoots = (List.range (2 * (2 * n))).map fun (j : ℕ) =>
      (⟨Real.cos (Real.pi * (j : ℝ) / ((2 * n : ℕ) : ℝ)),
        Real.sin (Real.pi * (j : ℝ) / ((2 * n : ℕ) : ℝ))⟩ : Complex128 ℝ))
    (hz : z.length = n) (hw : w.length = n)
    (hzint : ∀ c ∈ z, ∃ a b : Int, c = ⟨(a : ℝ), (b : ℝ)⟩)
    (hwint : ∀ c ∈ w, ∃ a b : Int, c = ⟨(a : ℝ), (b : ℝ)⟩)
    (hzB : ∀ c ∈ z, Complex.abs (Complex128.toComplex c) ≤ B)
    (hwB : ∀ c ∈ w, Complex.abs (Complex128.toComplex c) ≤ B)
    (hdelta : 0 < delta)
    (hbound : ((2 * n : ℕ) : ℝ) * B / (delta : ℝ)
      + ((2 * n : ℕ) : ℝ) ^ 2 / (4 * (delta : ℝ) ^ 2) < 1 / 2) :
    ∃ pz pw : Plaintext, ins.Encode z delta = some (Except.ok pz) ∧
      ins.Encode w delta = some (Except.ok pw) ∧
      ins.Decode ⟨MulSimple pz.m pw.m⟩ (delta * delta)
        = some (List.zipWith (fun a b => a * b) z w) := by
  have hrl : ins.crtRoots.length = 2 * (2 * n) := by
    rw [hroots]
    simp
  refine ⟨_, _, encode_eq ins z delta n hN hz hrl, encode_eq ins w delta n hN hw hrl, ?_⟩
  rw [decode_eq ins _ (delta * delta) n hN (by simp [MulSimple]) hrl
    (mul_ne_zero hdelta.ne' hdelta.ne')]
  congr 1
  apply List.ext_getElem
  · simp [hz, hw]
  intro i h1 h2
  have hi : i < n := by simpa using h1
  have hiz : i < z.length := by omega
  have hiw : i < w.length := by omega
  rw [List.getElem_map, List.getElem_range, List.getElem_zipWith]
  obtain ⟨a, b, hab⟩ := hzint z[i] (List.getElem_mem hiz)
  obtain ⟨c, d, hcd⟩ := hwint w[i] (List.getElem_mem hiw)
  have hBz := hzB z[i] (List.getElem_mem hiz)
  have hBw := hwB w[i] (List.getElem_mem hiw)
  have hN0 : 0 < 2 * n := by omega
  have hδ : (0 : ℝ) < (delta : ℝ) := by exact_mod_cast hdelta
  have hval := decode_product_value ins.crtRoots (2 * n) hN0 hroots
    (fun i => nearestInteger ((vandermondeInverseEntry ins.crtRoots (mirrored z) i).re
      * (delta : ℝ)))
    (fun i => nearestInteger ((vandermondeInverseEntry ins.crtRoots (mirrored w) i).re
      * (delta : ℝ)))
    (((delta * delta : Int) : ℝ)) i
  have hU := encoded_value (2 * n) hN0 (Complex.exp (Real.pi / ((2 * n : ℕ) : ℂ) * Complex.I))
    (exp_pow_two_mul _ hN0) (exp_sq_primitive _ hN0) (exp_conj_mul _) (exp_abs _)
    (fun l => Complex128.toComplex ((mirrored z).getD l 0))
    (fun l hl => by
      have := mirrored_conj z l (by rw [hz]; exact hl)
      rw [hz] at this
      exact this)
    (fun j => Complex128.toComplex (vandermondeInverseEntry ins.crtRoots (mirrored z) j))
    (toComplex_vandermondeInverseEntry ins.crtRoots (mirrored z) (2 * n) hN0
      (by rw [length_mirrored, hz]) hroots)
    (fun j => nearestInteger ((vandermondeInverseEntry ins.crtRoots (mirrored z) j).re
      * (delta : ℝ)))
    (delta : ℝ) (fun j => nearestInteger_error _) i (by omega)
  have hV := encoded_value (2 * n) hN0 (Complex.exp (Real.pi / ((2 * n : ℕ) : ℂ) * Complex.I))
    (exp_pow_two_mul _ hN0) (exp_sq_primitive _ hN0) (exp_conj_mul _) (exp_abs _)
    (fun l => Complex128.toComplex ((mirrored w).getD l 0))
    (fun l hl => by
      have := mirrored_conj w l (by rw [hw]; exact hl)
      rw [hw] at this
      exact this)
    (fun j => Complex128.toComplex (vandermondeInverseEntry ins.crtRoots (mirrored w) j))
    (toComplex_vandermondeInverseEntry ins.crtRoots (mirrored w) (2 * n) hN0
      (by rw [length_mirrored, hw]) hroots)
    (fun j => nearestInteger ((vandermondeInverseEntry ins.crtRoots (mirrored w) j).re
      * (delta : ℝ)))
    (delta : ℝ) (fun j => nearestInteger_error _) i (by omega)
  dsimp only at hU hV
  rw [mirrored_getD_lt z i hiz, List.getD_eq_getElem _ _ hiz] at hU
  rw [mirrored_getD_lt w i hiw, List.getD_eq_getElem _ _ hiw] at hV
  have herr := product_error _ _ _ _ (delta : ℝ) B ((2 * n : ℕ) : ℝ) hδ (Nat.cast_nonneg _)
    hBz hBw hU hV hbound
  have hcast : (((delta * delta : Int) : ℝ)) = (delta : ℝ) * (delta : ℝ) := by push_cast; ring
  rw [hcast] at hval
  rw [← hval, hab, hcd] at herr
  have hprod : Complex128.toComplex ⟨(a : ℝ), (b : ℝ)⟩ * Complex128.toComplex ⟨(c : ℝ), (d : ℝ)⟩
      = ⟨((a * c - b * d : Int) : ℝ), ((a * d + b * c : Int) : ℝ)⟩ := by
    apply Complex.ext <;> simp [Complex128.toComplex]
  rw [hprod] at herr
  have hre := lt_of_le_of_lt (Complex.abs_re_le_abs _) herr
  have him := lt_of_le_of_lt (Complex.abs_im_le_abs _) herr
  rw [Complex.sub_re] at hre
  rw [Complex.sub_im] at him
  have e1 := nearestIntegerSmall_eq (a * c - b * d) _ hre
  have e2 := nearestIntegerSmall_eq (a * d + b * c) _ him
  rw [hab, hcd, hcast]
  change (⟨nearestIntegerSmall (Complex128.toComplex _).re,
    nearestIntegerSmall (Complex128.toComplex _).im⟩ : Complex128 ℝ) = _
  rw [e1, e2]
  rw [complex128_mul_def]
  push_cast
  rfl

/-- The forward Vandermonde action on `[-2, 0, 18, 12]` for the table of the
eighth roots of unity written with `s = cos(π/4) = sin(π/4)`. -/
theorem article_product_entries (s : ℝ) :
    vandermondeEntry (articleInstance ℝ s).crtRoots [⟨-2, 0⟩, ⟨0, 0⟩, ⟨18, 0⟩, ⟨12, 0⟩] 0
        = ⟨-2 - 12 * s, 18 + 12 * s⟩ ∧
      vandermondeEntry (articleInstance ℝ s).crtRoots [⟨-2, 0⟩, ⟨0, 0⟩, ⟨18, 0⟩, ⟨12, 0⟩] 1
        = ⟨-2 + 12 * s, -18 + 12 * s⟩ := by
  simp only [vandermondeEntry, articleInstance, List.length_cons, List.length_nil,
    List.range_succ, List.range_zero, List.foldl_cons, List.foldl_nil, List.nil_append,
    List.cons_append, List.foldl_append, complex128_add_def, complex128_mul_def,
    complex128_zero_def]
  norm_num [List.getD]
  ring

/-- The coefficients that `Encode` computes for `z = [3+4i, 2-i]` and
`delta = -1` from the table of the exact eighth roots of unity. -/
theorem article_coefficients_neg :
    ((List.range (2 * 2)).map fun i =>
      nearestInteger ((vandermondeInverseEntry (articleInstance ℝ (Real.sqrt 2 / 2)).crtRoots
        (mirrored [⟨3, 4⟩, ⟨2, -1⟩]) i).re * ((-1 : Int) : ℝ))) = [-3, -1, -3, -1] := by
  obtain ⟨h0, h1, h2, h3⟩ := article_entries (Real.sqrt 2 / 2)
  have hs0 : (0 : ℝ) < Real.sqrt 2 / 2 := by positivity
  have hss : Real.sqrt 2 / 2 * (Real.sqrt 2 / 2) = 1 / 2 := by
    have := Real.mul_self_sqrt (show (0 : ℝ) ≤ 2 by norm_num)
    nlinarith
  simp only [List.range_succ, List.range_zero, List.nil_append, List.cons_append,
    List.map_cons, List.map_nil, Nat.reduceMul, h0, h1, h2, h3]
  generalize Real.sqrt 2 / 2 = s at hs0 hss
  have c0 : nearestInteger ((5 / 2 : ℝ) * ((-1 : Int) : ℝ)) = -3 := by
    rw [nearestInteger_eq_roundHalfAway]
    unfold roundHalfAway
    rw [if_neg (by norm_num)]
    have : (5 / 2 : ℝ) * ((-1 : Int) : ℝ) - 1 / 2 = ((-3 : Int) : ℝ) := by norm_num
    rw [this, Int.ceil_intCast]
  have c1 : nearestInteger (2 * s * ((-1 : Int) : ℝ)) = -1 :=
    nearestInteger_eq (-1) _ (by push_cast; nlinarith) (by push_cast; nlinarith)
  have c3 : nearestInteger (s * ((-1 : Int) : ℝ)) = -1 :=
    nearestInteger_eq (-1) _ (by push_cast; nlinarith) (by push_cast; nlinarith)
  rw [c0, c1, c3]

/-- The vector that `Decode` returns on `[-2, 0, 18, 12]` with the scaling
factor `(-1) * (-1)`, for `N = 4` and the exact eighth roots of unity. -/
theorem article_decode_product :
    (articleInstance ℝ (Real.sqrt 2 / 2)).Decode ⟨⟨[-2, 0, 18, 12]⟩⟩ ((-1) * (-1))
      = some [⟨-10, 26⟩, ⟨6, -10⟩] := by
  rw [decode_eq (articleInstance ℝ (Real.sqrt 2 / 2)) ⟨⟨[-2, 0, 18, 12]⟩⟩ ((-1) * (-1)) 2 rfl
    rfl rfl (by decide)]
  have hs0 : (0 : ℝ) < Real.sqrt 2 / 2 := by positivity
  have hss : Real.sqrt 2 / 2 * (Real.sqrt 2 / 2) = 1 / 2 := by
    have := Real.mul_self_sqrt (show (0 : ℝ) ≤ 2 by norm_num)
    nlinarith
  have hL : ((List.range (2 * 2)).map fun j =>
      (⟨((({ m := ⟨[-2, 0, 18, 12]⟩ } : Plaintext).m.Coeffs.getD j 0 : Int) : ℝ)
        / ((((-1) * (-1) : Int)) : ℝ), 0⟩ : Complex128 ℝ))
      = [⟨-2, 0⟩, ⟨0, 0⟩, ⟨18, 0⟩, ⟨12, 0⟩] := by
    simp only [List.range_succ, List.range_zero, List.nil_append, List.cons_append,
      List.map_cons, List.map_nil, Nat.reduceMul]
    norm_num [List.getD]
  rw [hL]
  obtain ⟨e0, e1⟩ := article_product_entries (Real.sqrt 2 / 2)
  simp only [List.range_succ, List.range_zero, List.nil_append, List.cons_append,
    List.map_cons, List.map_nil, e0, e1]
  generalize Real.sqrt 2 / 2 = s at hs0 hss
  have r0 : nearestIntegerSmall (-2 - 12 * s) = ((-10 : Int) : ℝ) :=
    nearestIntegerSmall_eq (-10) _ (by rw [abs_lt]; push_cast; constructor <;> nlinarith)
  have i0 : nearestIntegerSmall (18 + 12 * s) = ((26 : Int) : ℝ) :=
    nearestIntegerSmall_eq 26 _ (by rw [abs_lt]; push_cast; constructor <;> nlinarith)
  have r1 : nearestIntegerSmall (-2 + 12 * s) = ((6 : Int) : ℝ) :=
    nearestIntegerSmall_eq 6 _ (by rw [abs_lt]; push_cast; constructor <;> nlinarith)
  have i1 : nearestIntegerSmall (-18 + 12 * s) = ((-10 : Int) : ℝ) :=
    nearestIntegerSmall_eq (-10) _ (by rw [abs_lt]; push_cast; constructor <;> nlinarith)
  rw [r0, i0, r1, i1]
  norm_num

/-- The homomorphism of `Encode` in ring dimension 1, where the vectors are
empty: both encodings are the zero polynomial, and so is their product, which
decodes to the empty vector. -/
theorem decode_product_one (ins : Instance ℝ) (delta : Int) (hN : ins.N = 1)
    (hroots : ins.crtRoots.length = 2) (hdelta : delta ≠ 0) :
    ins.Encode [] delta = some (Except.ok ⟨⟨[0]⟩⟩) ∧
      ins.Decode ⟨MulSimple ⟨[0]⟩ ⟨[0]⟩⟩ (delta * delta) = some [] := by
  constructor
  · unfold Instance.Encode
    rw [hN]
    rfl
  · unfold Instance.Decode
    rw [hN]
    have hm : (MulSimple ⟨[0]⟩ ⟨[0]⟩).Coeffs = [0] := by decide
    have hr1 : List.range (Int.toNat 1) = [0] := by decide
    have hr0 : List.range (Int.toNat 1 / 2) = [] := by decide
    have hv := fun c : Complex128 ℝ => vandermondeAction_eq ins.crtRoots [c] hroots
    simp only [hm, hr1, hr0, List.mapM_cons, List.mapM_nil]
    simp [hv, hdelta]

theorem article_abs_le :
    ∀ c ∈ ([⟨3, 4⟩, ⟨2, -1⟩] : List (Complex128 ℝ)),
      Complex.abs (Complex128.toComplex c) ≤ 5 := by
  intro c hc
  simp only [List.mem_cons, List.mem_nil_iff, or_false] at hc
  rcases hc with rfl | rfl <;>
  · rw [Complex.abs_apply, Real.sqrt_le_iff]
    norm_num [Complex.normSq_apply, Complex128.toComplex]

/-- C16 fails as stated, for a negative scaling factor.  With `N = 4`, the
exact eighth roots of unity, `z = w = [3+4i, 2-i]`, `B = 5` and `delta = -1`
the bound `N*B/delta + N^2/(4*delta^2) = -16` is below `1/2`, `Encode` gives
`[-3, -1, -3, -1]`, the negacyclic square of it is `[-2, 0, 18, 12]`, and
`Decode` of that with `delta^2 = 1` is `[-10+26i, 6-10i]`, which is not the
entry-wise product `[-7+24i, 3-4i]`. -/
theorem encode_homomorphism_counterexample :
    IsPowerOfTwo (articleInstance ℝ (Real.sqrt 2 / 2)).N ∧
      (articleInstance ℝ (Real.sqrt 2 / 2)).crtRoots
        = ((List.range (2 * (2 * 2))).map fun (j : ℕ) =>
          (⟨Real.cos (Real.pi * (j : ℝ) / ((2 * 2 : ℕ) : ℝ)),
            Real.sin (Real.pi * (j : ℝ) / ((2 * 2 : ℕ) : ℝ))⟩ : Complex128 ℝ)) ∧
      (∀ c ∈ ([⟨3, 4⟩, ⟨2, -1⟩] : List (Complex128 ℝ)),
        Complex.abs (Complex128.toComplex c) ≤ 5) ∧
      (((articleInstance ℝ (Real.sqrt 2 / 2)).N : ℝ) * 5 / ((-1 : Int) : ℝ)
        + ((articleInstance ℝ (Real.sqrt 2 / 2)).N : ℝ) ^ 2 / (4 * ((-1 : Int) : ℝ) ^ 2)
          < 1 / 2) ∧
      (articleInstance ℝ (Real.sqrt 2 / 2)).Encode [⟨3, 4⟩, ⟨2, -1⟩] (-1)
        = some (Except.ok ⟨⟨[-3, -1, -3, -1]⟩⟩) ∧
      MulSimple ⟨[-3, -1, -3, -1]⟩ ⟨[-3, -1, -3, -1]⟩ = ⟨[-2, 0, 18, 12]⟩ ∧
      (articleInstance ℝ (Real.sqrt 2 / 2)).Decode ⟨⟨[-2, 0, 18, 12]⟩⟩ ((-1) * (-1))
        = some [⟨-10, 26⟩, ⟨6, -10⟩] ∧
      List.zipWith (fun a b => a * b) ([⟨3, 4⟩, ⟨2, -1⟩] : List (Complex128 ℝ))
        [⟨3, 4⟩, ⟨2, -1⟩] = [⟨-7, 24⟩, ⟨3, -4⟩] ∧
      ([⟨-10, 26⟩, ⟨6, -10⟩] : List (Complex128 ℝ)) ≠ [⟨-7, 24⟩, ⟨3, -4⟩] := by
  refine ⟨⟨2, rfl⟩, article_table.symm, article_abs_le, ?_, ?_, by decide,
    article_decode_product, ?_, ?_⟩
  · norm_num [articleInstance]
  · rw [encode_eq (articleInstance ℝ (Real.sqrt 2 / 2)) [⟨3, 4⟩, ⟨2, -1⟩] (-1) 2 rfl rfl rfl,
      article_coefficients_neg]
  · simp only [List.zipWith_cons_cons, List.zipWith_nil_right, complex128_mul_def]
    norm_num
  · intro h
    have h1 := congrArg (fun l : List (Complex128 ℝ) => (l.getD 0 0).re) h
    norm_num at h1

/-- C16, for a positive scaling factor: the homomorphism of `Encode`.  For
every instance over the reals with `N` a power of two and the table of the
exact roots `exp(iπj/N)`, all vectors `z`, `w` of length `N/2` whose entries
have integer real and imaginary parts and absolute value at most `B`, and
every `delta > 0` with `N*B/delta + N^2/(4*delta^2) < 1/2`, both encodings
succeed and `Decode` of their exact negacyclic product with the scaling
factor `delta^2` is the entry-wise product of `z` and `w`. -/
theorem encode_homomorphism (ins : Instance ℝ) (z w : List (Complex128 ℝ)) (delta : Int)
    (k : ℕ) (B : ℝ) (hN : ins.N = 2 ^ k)
    (hroots : ins.crtRoots = (List.range (2 * 2 ^ k)).map fun (j : ℕ) =>
      (⟨Real.cos (Real.pi * (j : ℝ) / ((2 ^ k : ℕ) : ℝ)),
        Real.sin (Real.pi * (j : ℝ) / ((2 ^ k : ℕ) : ℝ))⟩ : Complex128 ℝ))
    (hz : (z.length : Int) = ins.N / 2) (hw : (w.length : Int) = ins.N / 2)
    (hzint : ∀ c ∈ z, ∃ a b : Int, c = ⟨(a : ℝ), (b : ℝ)⟩)
    (hwint : ∀ c ∈ w, ∃ a b : Int, c = ⟨(a : ℝ), (b : ℝ)⟩)
    (hzB : ∀ c ∈ z, Complex.abs (Complex128.toComplex c) ≤ B)
    (hwB : ∀ c ∈ w, Complex.abs (Complex128.toComplex c) ≤ B)
    (hdelta : 0 < delta)
    (hbound : (ins.N : ℝ) * B / (delta : ℝ) + (ins.N : ℝ) ^ 2 / (4 * (delta : ℝ) ^ 2)
      < 1 / 2) :
    ∃ pz pw : Plaintext, ins.Encode z delta = some (Except.ok pz) ∧
      ins.Encode w delta = some (Except.ok pw) ∧
      ins.Decode ⟨MulSimple pz.m pw.m⟩ (delta * delta)
        = some (List.zipWith (fun a b => a * b) z w) := by
  cases k with
  | zero =>
    rw [pow_zero] at hN
    rw [hN] at hz hw
    have hz0 : z = [] := List.length_eq_zero.mp (by omega)
    have hw0 : w = [] := List.length_eq_zero.mp (by omega)
    subst hz0 hw0
    have h := decode_product_one ins delta hN (by rw [hroots]; simp) hdelta.ne'
    exact ⟨_, _, h.1, h.1, h.2⟩
  | succ k =>
    have h2 : 2 ^ (k + 1) = 2 * 2 ^ k := pow_succ' 2 k
    have hN2 : ins.N = 2 * ((2 ^ k : ℕ) : Int) := by
      rw [hN]
      push_cast
      exact pow_succ' 2 k
    rw [h2] at hroots
    refine decode_product_even ins z w delta (2 ^ k) B (by positivity) hN2 hroots ?_ ?_
      hzint hwint hzB hwB hdelta ?_
    · rw [hN2] at hz
      omega
    · rw [hN2] at hw
      omega
    · rw [hN2] at hbound
      push_cast at hbound ⊢
      exact hbound

theorem encode_homomorphism_witness :
    ∃ pz pw : Plaintext,
      (articleInstance ℝ (Real.sqrt 2 / 2)).Encode [⟨3, 4⟩, ⟨2, -1⟩] 64 = some (Except.ok pz) ∧
      (articleInstance ℝ (Real.sqrt 2 / 2)).Encode [⟨3, 4⟩, ⟨2, -1⟩] 64 = some (Except.ok pw) ∧
      (articleInstance ℝ (Real.sqrt 2 / 2)).Decode ⟨MulSimple pz.m pw.m⟩ (64 * 64)
        = some (List.zipWith (fun a b => a * b) [⟨3, 4⟩, ⟨2, -1⟩] [⟨3, 4⟩, ⟨2, -1⟩]) :=
  encode_homomorphism (articleInstance ℝ (Real.sqrt 2 / 2)) [⟨3, 4⟩, ⟨2, -1⟩]
    [⟨3, 4⟩, ⟨2, -1⟩] 64 2 5 rfl article_table.symm rfl rfl
    (fun c hc => by
      simp only [List.mem_cons, List.mem_nil_iff, or_false] at hc
      rcases hc with rfl | rfl
      · exact ⟨3, 4, by norm_num⟩
      · exact ⟨2, -1, by norm_num⟩)
    (fun c hc => by
      simp only [List.mem_cons, List.mem_nil_iff, or_false] at hc
      rcases hc with rfl | rfl
      · exact ⟨3, 4, by norm_num⟩
      · exact ⟨2, -1, by norm_num⟩)
    article_abs_le article_abs_le (by decide) (by norm_num [articleInstance])

/-! ## Frame of `Equalize`, index safety and the real pre-image -/

/-- C27: `Equalize` changes nothing.  For all ciphertexts `c1` and `c2`, at any
levels, `Equalize(c1, c2)` leaves the fields `a`, `b`, `level` and `ql` of
both as they were: when the levels differ, `RS` is called on the ciphertext of
the lower level with the higher level as target, and returns it as it is. -/
theorem equalize_frame {R : Type} (rep : Representative) (ins : Instance R)
    (c1 c2 : Ciphertext) :
    ins.Equalize rep c1 c2 = (c1, c2) ∧
      ((ins.Equalize rep c1 c2).1.a = c1.a ∧ (ins.Equalize rep c1 c2).1.b = c1.b ∧
        (ins.Equalize rep c1 c2).1.level = c1.level ∧ (ins.Equalize rep c1 c2).1.ql = c1.ql) ∧
      ((ins.Equalize rep c1 c2).2.a = c2.a ∧ (ins.Equalize rep c1 c2).2.b = c2.b ∧
        (ins.Equalize rep c1 c2).2.level = c2.level ∧ (ins.Equalize rep c1 c2).2.ql = c2.ql) ∧
      (c1.level < c2.level → ins.RS rep c1 c2.level = c1) ∧
      (c2.level < c1.level → ins.RS rep c2 c1.level = c2) := by
  rw [equalize_eq]
  refine ⟨rfl, ⟨rfl, rfl, rfl, rfl⟩, ⟨rfl, rfl, rfl, rfl⟩, ?_, ?_⟩
  · intro h
    unfold Instance.RS
    rw [if_pos h.le]
  · intro h
    unfold Instance.RS
    rw [if_pos h.le]

theorem equalize_frame_witness :
    (toyInstance ℚ).Equalize Representative.symmetric toyCipherTop toyCipherMid
        = (toyCipherTop, toyCipherMid) ∧
      (toyInstance ℚ).RS Representative.symmetric toyCipherMid toyCipherTop.level
        = toyCipherMid :=
  ⟨(equalize_frame Representative.symmetric (toyInstance ℚ) toyCipherTop toyCipherMid).1,
    (equalize_frame Representative.symmetric (toyInstance ℚ) toyCipherTop
      toyCipherMid).2.2.2.2 (by decide)⟩

/-- The index expression of the Vandermonde actions on 64-bit integers is the
exact `(2a+1)*b mod 2N` for every dimension `N ≤ 2^31`: no intermediate
result wraps. -/
theorem rootIndex_exact (N a b : ℕ) (hN : N ≤ 2 ^ 31) (ha : a < N) (hb : b < N) :
    rootIndex (wrapInt (2 * (N : Int))) a b = (((2 * a + 1) * b % (2 * N) : ℕ) : Int) := by
  have hN' : (N : Int) ≤ 2 ^ 31 := by exact_mod_cast hN
  have ha' : (a : Int) < N := by exact_mod_cast ha
  have hb' : (b : Int) < N := by exact_mod_cast hb
  have ha0 : (0 : Int) ≤ a := Int.natCast_nonneg a
  have hb0 : (0 : Int) ≤ b := Int.natCast_nonneg b
  unfold rootIndex
  rw [wrapInt_of_range (2 * (N : Int)) (by omega) (by omega),
    wrapInt_of_range (2 * (a : Int)) (by omega) (by omega),
    wrapInt_of_range (2 * (a : Int) + 1) (by omega) (by omega),
    wrapInt_of_range ((2 * (a : Int) + 1) * b) (by nlinarith) (by nlinarith)]
  rw [Int.tmod_eq_emod (by positivity) (by positivity)]
  push_cast
  rfl

/-- C28: index safety of the Vandermonde actions.  For every `z` of length `N`
and every table of roots of length exactly `2N`, the indices
`(2j+1)*i mod 2N`, `(2i+1)*j mod 2N` and `N-1-j`, `0 ≤ i, j < N`, lie within
bounds, and `VandermondeActionInverse` and `VandermondeAction` both return a
vector of length `N` instead of indexing out of range. -/
theorem vandermonde_index_safety {R : Type} [Field R] (roots z : List (Complex128 R))
    (hroots : roots.length = 2 * z.length) :
    (∀ i j : ℕ, i < z.length → j < z.length →
        (2 * j + 1) * i % (2 * z.length) < roots.length ∧
          (2 * i + 1) * j % (2 * z.length) < roots.length ∧
          z.length - 1 - j < z.length) ∧
      (∃ y : List (Complex128 R), VandermondeActionInverse roots z = some y ∧
        y.length = z.length) ∧
      (∃ y : List (Complex128 R), VandermondeAction roots z = some y ∧
        y.length = z.length) := by
  refine ⟨?_, ⟨_, vandermondeActionInverse_eq roots z hroots, by simp⟩,
    ⟨_, vandermondeAction_eq roots z hroots, by simp⟩⟩
  intro i j hi _
  have hpos : 0 < 2 * z.length := by omega
  rw [hroots]
  exact ⟨Nat.mod_lt _ hpos, Nat.mod_lt _ hpos, by omega⟩

theorem vandermonde_index_safety_witness :
    (∃ y : List (Complex128 ℚ),
        VandermondeActionInverse (toyInstance ℚ).crtRoots [⟨3, 4⟩, ⟨3, -4⟩] = some y ∧
          y.length = 2) ∧
      (∃ y : List (Complex128 ℚ),
        VandermondeAction (toyInstance ℚ).crtRoots [⟨3, 4⟩, ⟨3, -4⟩] = some y ∧ y.length = 2) :=
  (vandermonde_index_safety (toyInstance ℚ).crtRoots [⟨3, 4⟩, ⟨3, -4⟩] rfl).2

/-- C23: conjugate mirroring makes the pre-image real.  For every even
`N = 2n ≥ 2`, the table of the exact roots `exp(iπj/N)` and every `z` of
length `n`, `VandermondeActionInverse` returns, on `z` followed by the
conjugates of its entries in reverse order, a vector of `N` entries that all
have imaginary part zero. -/
theorem mirrored_preimage_real (roots z : List (Complex128 ℝ)) (n : ℕ) (hn : 0 < n)
    (hz : z.length = n)
    (hroots : roots = (List.range (2 * (2 * n))).map fun (j : ℕ) =>
      (⟨Real.cos (Real.pi * (j : ℝ) / ((2 * n : ℕ) : ℝ)),
        Real.sin (Real.pi * (j : ℝ) / ((2 * n : ℕ) : ℝ))⟩ : Complex128 ℝ)) :
    ∃ y : List (Complex128 ℝ), VandermondeActionInverse roots (mirrored z) = some y ∧
      y.length = 2 * n ∧ ∀ c ∈ y, c.im = 0 := by
  have hN0 : 0 < 2 * n := by omega
  have hml : (mirrored z).length = 2 * n := by rw [length_mirrored, hz]
  have hrl : roots.length = 2 * (mirrored z).length := by
    rw [hml, hroots]
    simp
  refine ⟨_, vandermondeActionInverse_eq roots (mirrored z) hrl, by simp [hml], ?_⟩
  intro c hc
  rw [List.mem_map] at hc
  obtain ⟨i, _, rfl⟩ := hc
  change (Complex128.toComplex (vandermondeInverseEntry roots (mirrored z) i)).im = 0
  rw [← Complex.conj_eq_iff_im,
    toComplex_vandermondeInverseEntry roots (mirrored z) (2 * n) hN0 hml hroots i, map_div₀,
    Complex.conj_natCast,
    vandermonde_real (Complex.exp (Real.pi / ((2 * n : ℕ) : ℂ) * Complex.I)) (2 * n)
      (exp_pow_two_mul _ hN0) (exp_conj_mul _)
      (fun l => Complex128.toComplex ((mirrored z).getD l 0))
      (fun l hl => by
        have := mirrored_conj z l (by rw [hz]; exact hl)
        rw [hz] at this
        exact this)]

theorem mirrored_preimage_real_witness :
    ∃ y : List (Complex128 ℝ),
      VandermondeActionInverse (articleInstance ℝ (Real.sqrt 2 / 2)).crtRoots
        (mirrored [⟨3, 4⟩, ⟨2, -1⟩]) = some y ∧
      y.length = 2 * 2 ∧ ∀ c ∈ y, c.im = 0 :=
  mirrored_preimage_real (articleInstance ℝ (Real.sqrt 2 / 2)).crtRoots [⟨3, 4⟩, ⟨2, -1⟩] 2
    (by decide) rfl article_table.symm

/-! ## The rounding helpers -/

/-- The function `nearestIntegerSmall` returns the value of `nearestInteger`,
as a number of the field. -/
theorem nearestIntegerSmall_eq_nearestInteger {R : Type} [LinearOrderedField R] [FloorRing R]
    (x : R) : nearestIntegerSmall x = ((nearestInteger x : Int) : R) := by
  unfold nearestIntegerSmall nearestInteger
  dsimp only
  rw [truncToInt_of_nonneg _ (by positivity)]
  split
  · push_cast
    rfl
  · rfl

/-- C24, on the code: at the negative half-integer `-5/2`, where every sum is
exact in float64 too, `nearestInteger` and `nearestIntegerSmall` return `-3`,
while the floor of `-5/2 + 1/2`, which the claim and the doc comments of both
helpers promise, is `-2`. -/
theorem rounding_breaks_floor :
    nearestInteger (-5 / 2 : ℚ) = -3 ∧ nearestIntegerSmall (-5 / 2 : ℚ) = -3 ∧
      ⌊(-5 / 2 : ℚ) + 1 / 2⌋ = -2 := by
  have h1 : nearestInteger (-5 / 2 : ℚ) = -3 := by
    rw [nearestInteger_eq_roundHalfAway]
    unfold roundHalfAway
    rw [if_neg (by norm_num)]
    have : (-5 / 2 : ℚ) - 1 / 2 = ((-3 : Int) : ℚ) := by norm_num
    rw [this, Int.ceil_intCast]
  refine ⟨h1, ?_, ?_⟩
  · rw [nearestIntegerSmall_eq_nearestInteger, h1]
    norm_num
  · have : (-5 / 2 : ℚ) + 1 / 2 = ((-2 : Int) : ℚ) := by norm_num
    rw [this, Int.floor_intCast]

/-! ## Construction: the order of `NewInstance`, and `BMul` -/

/-- C25, on the code: `NewInstance` builds the table of roots before it
validates.  With `N = -1`, whatever the other inputs, the allocation of the
table of `2N = -2` roots is a run-time panic (the result `none`), although
`Sanitize` rejects these parameters with a `BadParameters` error. -/
theorem newInstance_precomputes_first (fm : FloatMath ℚ) (p q0 pEval : Int)
    (multiplier : CRTMultiplier) (zMultiplier : ZMultiplier) :
    NewInstance fm { toyParameters ℚ with N := -1 } p q0 pEval multiplier zMultiplier = none ∧
      ({ toyInstance ℚ with N := -1 } : Instance ℚ).Sanitize
        = some (Error.ErrBadParameters "ring dimension should be a power of 2") := by
  constructor
  · unfold NewInstance
    have h : wrapInt (2 * ({ toyParameters ℚ with N := -1 } : Parameters ℚ).N) < 0 := by decide
    exact if_pos h
  · decide

/-- The quotient of a non-negative integer by a positive one, as the floor of
the quotient in an ordered field. -/
theorem floor_intCast_div {R : Type} [LinearOrderedField R] [FloorRing R] (a b : Int)
    (hb : 0 < b) : ⌊(a : R) / (b : R)⌋ = a / b := by
  have hbR : (0 : R) < (b : R) := by exact_mod_cast hb
  rw [Int.floor_eq_iff]
  constructor
  · rw [le_div_iff₀ hbR]
    exact_mod_cast Int.ediv_mul_le a hb.ne'
  · rw [div_lt_iff₀ hbR]
    exact_mod_cast Int.lt_ediv_add_one_mul_self a hb

/-- The conversion `int64(x)` of a float `x` with `0 ≤ x < 2^63` is the floor
of `x`. -/
theorem float64ToInt64_eq_floor {R : Type} [LinearOrderedField R] [FloorRing R] (x : R)
    (h0 : 0 ≤ x) (h1 : x < 2 ^ 63) : float64ToInt64 x = ⌊x⌋ := by
  unfold float64ToInt64
  dsimp only
  rw [truncToInt_of_nonneg x h0]
  have hf0 : 0 ≤ ⌊x⌋ := Int.floor_nonneg.mpr h0
  have hf1 : ⌊x⌋ < 2 ^ 63 := by
    rw [Int.floor_lt]
    push_cast
    linarith
  rw [if_pos ⟨by omega, hf1⟩]

/-- The value `bKs` of the small instance lies strictly between 4 and 5 for
every rounding of relative error at most `2^-52` and every value of
`math.Sqrt(3)` between `1.7` and `1.75`. -/
theorem toy_bKs_bounds (fm : FloatMath ℝ) (round : ℝ → ℝ) (hs1 : 17 / 10 ≤ fm.Sqrt 3)
    (hs2 : fm.Sqrt 3 ≤ 7 / 4) (hr : ∀ x : ℝ, |round x - x| ≤ |x| / 2 ^ 52) :
    4 ≤ (toyInstance ℝ).bKs fm round ∧ (toyInstance ℝ).bKs fm round < 5 := by
  have hr' : ∀ x : ℝ, 0 ≤ x → 999 / 1000 * x ≤ round x ∧ round x ≤ 1001 / 1000 * x := by
    intro x hx
    have h := hr x
    rw [abs_of_nonneg hx, abs_le] at h
    have h52 : x / 2 ^ 52 ≤ x / 1000 :=
      div_le_div_of_nonneg_left hx (by norm_num) (by norm_num)
    constructor <;> linarith [h.1, h.2]
  have hs0 : (0 : ℝ) < fm.Sqrt 3 := by linarith
  unfold Instance.bKs
  simp only [toyInstance]
  obtain ⟨a1, a2⟩ := hr' (8 * (1 / 2)) (by norm_num)
  obtain ⟨b1, b2⟩ := hr' (((2 : Int) : ℝ)) (by norm_num)
  generalize round (8 * (1 / 2)) = a at a1 a2 ⊢
  generalize round (((2 : Int) : ℝ)) = b at b1 b2 ⊢
  push_cast at b1 b2
  have hab1 : (798 / 100 : ℝ) ≤ a * b := by nlinarith
  have hab2 : a * b ≤ 802 / 100 := by nlinarith
  obtain ⟨c1, c2⟩ := hr' (a * b) (by linarith)
  generalize round (a * b) = c at c1 c2 ⊢
  have hc1 : (797 / 100 : ℝ) ≤ c := by linarith
  have hc2 : c ≤ 803 / 100 := by linarith
  have hq1 : (455 / 100 : ℝ) ≤ c / fm.Sqrt 3 := by
    rw [le_div_iff₀ hs0]
    nlinarith
  have hq2 : c / fm.Sqrt 3 ≤ 473 / 100 := by
    rw [div_le_iff₀ hs0]
    nlinarith
  obtain ⟨d1, d2⟩ := hr' (c / fm.Sqrt 3) (by linarith)
  constructor <;> linarith

/-- The value of `BMul` at the modulus 325 for the small instance, for every
rounding of relative error at most `2^-52` and every value of `math.Sqrt(3)`
between `1.7` and `1.75`. -/
theorem toy_bmul (fm : FloatMath ℝ) (round : ℝ → ℝ) (hs1 : 17 / 10 ≤ fm.Sqrt 3)
    (hs2 : fm.Sqrt 3 ≤ 7 / 4) (hr : ∀ x : ℝ, |round x - x| ≤ |x| / 2 ^ 52) :
    (toyInstance ℝ).BMul fm round 325 = 7 := by
  obtain ⟨h4, h5⟩ := toy_bKs_bounds fm round hs1 hs2 hr
  have hfl : ⌊(toyInstance ℝ).bKs fm round⌋ = 4 := by
    rw [Int.floor_eq_iff]
    constructor
    · exact_mod_cast h4
    · push_cast
      linarith
  unfold Instance.BMul
  dsimp only
  rw [float64ToInt64_eq_floor _ (by linarith) (by linarith), hfl]
  decide

/-- C26 fails as stated: for the small instance (`N = 2`, `Sigma = 1/2`,
`pEv = 337`, `bScale = 4`) and the modulus `q0 * p^2 = 325`, `BMul` returns
`⌊⌊8/√3⌋ * 325 / 337⌋ + 4 = 3 + 4 = 7`, in exact arithmetic and also with
every rounding of relative error at most `2^-52` (float64 has `2^-53`) and
every value of `math.Sqrt(3)` between `1.7` and `1.75`, while the nearest
integer to `(8/√3) * 325 / 337 = 4.45…` plus `bScale` is `8`. -/
theorem bmul_counterexample :
    (toyInstance ℝ).BMul ⟨Real.pi, Real.sqrt 2, Real.cos, Real.sin, Real.sqrt⟩ id 325 = 7 ∧
      (∀ (fm : FloatMath ℝ) (round : ℝ → ℝ), 17 / 10 ≤ fm.Sqrt 3 → fm.Sqrt 3 ≤ 7 / 4 →
        (∀ x : ℝ, |round x - x| ≤ |x| / 2 ^ 52) → (toyInstance ℝ).BMul fm round 325 = 7) ∧
      roundHalfAway (8 * (toyInstance ℝ).Sigma * (((toyInstance ℝ).N : Int) : ℝ) / Real.sqrt 3
          * ((325 : Int) : ℝ) / (((toyInstance ℝ).pEv : Int) : ℝ))
        + (toyInstance ℝ).bScale = 8 := by
  have h3 : Real.sqrt 3 * Real.sqrt 3 = 3 := Real.mul_self_sqrt (by norm_num)
  have h0 : (0 : ℝ) < Real.sqrt 3 := Real.sqrt_pos.mpr (by norm_num)
  refine ⟨?_, fun fm round hs1 hs2 hr => toy_bmul fm round hs1 hs2 hr, ?_⟩
  · refine toy_bmul _ id ?_ ?_ ?_
    · show (17 / 10 : ℝ) ≤ Real.sqrt 3
      nlinarith
    · show Real.sqrt 3 ≤ 7 / 4
      nlinarith
    · intro x
      simp only [id, sub_self, abs_zero]
      positivity
  · have hR : roundHalfAway (8 * (toyInstance ℝ).Sigma * (((toyInstance ℝ).N : Int) : ℝ)
        / Real.sqrt 3 * ((325 : Int) : ℝ) / (((toyInstance ℝ).pEv : Int) : ℝ)) = 4 := by
      have hpos : (0 : ℝ) ≤ 8 * (toyInstance ℝ).Sigma * (((toyInstance ℝ).N : Int) : ℝ)
          / Real.sqrt 3 * ((325 : Int) : ℝ) / (((toyInstance ℝ).pEv : Int) : ℝ) := by
        simp only [toyInstance]
        positivity
      unfold roundHalfAway
      rw [if_pos hpos, Int.floor_eq_iff]
      simp only [toyInstance]
      push_cast
      have e : (8 * (1 / 2) * 2 / Real.sqrt 3 * 325 / 337 : ℝ) = 2600 / (337 * Real.sqrt 3) := by
        field_simp
        ring
      rw [e]
      have hx1 : (7 / 2 : ℝ) ≤ 2600 / (337 * Real.sqrt 3) := by
        rw [le_div_iff₀ (by positivity)]
        nlinarith
      have hx2 : (2600 : ℝ) / (337 * Real.sqrt 3) < 9 / 2 := by
        rw [div_lt_iff₀ (by positivity)]
        nlinarith
      constructor <;> linarith
    rw [hR]
    decide

/-- C26, amended: `BMul` rounds down twice.  Let `bKs` be the float64 value
that the code computes for `8·Sigma·N/√3`, each operation rounded (whatever
the rounding).  For every instance with `0 ≤ bKs < 2^63` and `pEv > 0` and
every modulus `q_l ≥ 0`, `BMul(q_l) = ⌊⌊bKs⌋ · q_l / pEv⌋ + bScale`; this is
at most `bKs · q_l / pEv + bScale` and less than `q_l / pEv + 1` below it. -/
theorem bmul_formula {R : Type} [LinearOrderedField R] [FloorRing R] (fm : FloatMath R)
    (round : R → R) (ins : Instance R) (ql : Int) (hK0 : 0 ≤ ins.bKs fm round)
    (hK1 : ins.bKs fm round < 2 ^ 63) (hq : 0 ≤ ql) (hP : 0 < ins.pEv) :
    ins.BMul fm round ql
        = ⌊((⌊ins.bKs fm round⌋ : Int) : R) * (ql : R) / (ins.pEv : R)⌋ + ins.bScale ∧
      ((ins.BMul fm round ql - ins.bScale : Int) : R)
        ≤ ins.bKs fm round * (ql : R) / (ins.pEv : R) ∧
      ins.bKs fm round * (ql : R) / (ins.pEv : R) - (ql : R) / (ins.pEv : R) - 1
        < ((ins.BMul fm round ql - ins.bScale : Int) : R) := by
  have hqR : (0 : R) ≤ (ql : R) := by exact_mod_cast hq
  have hPR : (0 : R) < (ins.pEv : R) := by exact_mod_cast hP
  have hf0 : 0 ≤ ⌊ins.bKs fm round⌋ := Int.floor_nonneg.mpr hK0
  have hval : ins.BMul fm round ql
      = ⌊((⌊ins.bKs fm round⌋ : Int) : R) * (ql : R) / (ins.pEv : R)⌋ + ins.bScale := by
    unfold Instance.BMul
    dsimp only
    have hfd := @floor_intCast_div R _ _ (⌊ins.bKs fm round⌋ * ql) ins.pEv hP
    rw [float64ToInt64_eq_floor _ hK0 hK1, Int.tdiv_eq_ediv (mul_nonneg hf0 hq) hP.le, ← hfd]
    push_cast
    rfl
  refine ⟨hval, ?_, ?_⟩
  · rw [hval, add_sub_cancel_right]
    have h1 := Int.floor_le (((⌊ins.bKs fm round⌋ : Int) : R) * (ql : R) / (ins.pEv : R))
    have h2 := Int.floor_le (ins.bKs fm round)
    refine h1.trans ?_
    exact div_le_div_of_nonneg_right (mul_le_mul_of_nonneg_right h2 hqR) hPR.le
  · rw [hval, add_sub_cancel_right]
    have h1 := Int.lt_floor_add_one (((⌊ins.bKs fm round⌋ : Int) : R) * (ql : R)
      / (ins.pEv : R))
    have h2 := Int.lt_floor_add_one (ins.bKs fm round)
    have h3 : (ins.bKs fm round - 1) * (ql : R) / (ins.pEv : R)
        ≤ ((⌊ins.bKs fm round⌋ : Int) : R) * (ql : R) / (ins.pEv : R) :=
      div_le_div_of_nonneg_right (mul_le_mul_of_nonneg_right (by linarith) hqR) hPR.le
    have h4 : (ins.bKs fm round - 1) * (ql : R) / (ins.pEv : R)
        = ins.bKs fm round * (ql : R) / (ins.pEv : R) - (ql : R) / (ins.pEv : R) := by
      ring
    linarith

theorem bmul_formula_witness :
    (toyInstance ℝ).BMul ⟨Real.pi, Real.sqrt 2, Real.cos, Real.sin, Real.sqrt⟩ id 325
        = ⌊((⌊(toyInstance ℝ).bKs ⟨Real.pi, Real.sqrt 2, Real.cos, Real.sin, Real.sqrt⟩ id⌋ : Int) : ℝ)
            * ((325 : Int) : ℝ) / (((toyInstance ℝ).pEv : Int) : ℝ)⌋ + (toyInstance ℝ).bScale :=
  (bmul_formula ⟨Real.pi, Real.sqrt 2, Real.cos, Real.sin, Real.sqrt⟩ id (toyInstance ℝ) 325
    (by
      simp only [Instance.bKs, toyInstance, id]
      positivity)
    (by
      have h0 : (1 : ℝ) ≤ Real.sqrt 3 := Real.one_le_sqrt.mpr (by norm_num)
      simp only [Instance.bKs, toyInstance, id]
      rw [div_lt_iff₀ (by linarith)]
      push_cast
      nlinarith)
    (by decide) (by decide)).1

/-! ## The invariant of the reachable ciphertexts -/

/-- `RS` with a non-negative target keeps the invariant `ql = q0 * p^level`,
`0 ≤ level ≤ Depth`. -/
theorem rs_invariant {R : Type} (rep : Representative) (ins : Instance R) (c : Ciphertext)
    (k : Int) (hmax : ins.Depth < 2 ^ 63) (hp : ins.p ≠ 0) (hk : 0 ≤ k)
    (hc : c.ql = ins.q0 * ins.p ^ c.level.toNat ∧ 0 ≤ c.level ∧ c.level ≤ ins.Depth) :
    (ins.RS rep c k).ql = ins.q0 * ins.p ^ (ins.RS rep c k).level.toNat ∧
      0 ≤ (ins.RS rep c k).level ∧ (ins.RS rep c k).level ≤ ins.Depth := by
  obtain ⟨hql, h0, h1⟩ := hc
  by_cases hle : c.level ≤ k
  · have hno : ins.RS rep c k = c := by
      unfold Instance.RS
      rw [if_pos hle]
    rw [hno]
    exact ⟨hql, h0, h1⟩
  · have hlt : k < c.level := not_le.mp hle
    rw [rs_eq_of_lt rep ins c k hk hlt (by omega)]
    refine ⟨?_, hk, by show k ≤ ins.Depth; omega⟩
    show c.ql / ins.p ^ (c.level - k).toNat = ins.q0 * ins.p ^ k.toNat
    have hsplit : c.level.toNat = k.toNat + (c.level - k).toNat := by omega
    rw [hql, hsplit, pow_add, ← mul_assoc]
    exact Int.mul_ediv_cancel _ (pow_ne_zero _ hp)

/-- C22: the modulus/level invariant.  For every instance with `Depth ≥ 0` (a
machine integer) and `p ≠ 0`, every ciphertext reachable from `Encrypt`
through any sequence of `Add`, `Mul`, `Equalize`, `Clone` and `RS` with
non-negative target levels satisfies `ql = q0 * p^level` and
`0 ≤ level ≤ Depth`. -/
theorem reachable_invariant {R : Type} (rep : Representative) (ins : Instance R)
    (c : Ciphertext) (hD : 0 ≤ ins.Depth) (hmax : ins.Depth < 2 ^ 63) (hp : ins.p ≠ 0)
    (hc : Reachable rep ins c) :
    c.ql = ins.q0 * ins.p ^ c.level.toNat ∧ 0 ≤ c.level ∧ c.level ≤ ins.Depth := by
  induction hc with
  | encrypt pk pt v e0 e1 =>
    refine ⟨?_, hD, le_refl _⟩
    show ins.FirstModulus = ins.q0 * ins.p ^ ins.Depth.toNat
    unfold Instance.FirstModulus
    rw [bigExp_of_nonneg _ _ hD, mul_comm]
  | add c1 c2 _ _ ih1 _ =>
    unfold Instance.Add
    rw [equalize_eq]
    exact ih1
  | mul evk c1 c2 c _ _ hmul ih1 _ =>
    unfold Instance.Mul at hmul
    rw [equalize_eq] at hmul
    simp only [Except.ok.injEq] at hmul
    rw [← hmul]
    exact ih1
  | equalizeFirst c1 c2 _ _ ih1 _ =>
    rw [equalize_eq]
    exact ih1
  | equalizeSecond c1 c2 _ _ _ ih2 =>
    rw [equalize_eq]
    exact ih2
  | clone c _ ih => exact ih
  | rs c k hk _ ih => exact rs_invariant rep ins c k hmax hp hk ih

theorem reachable_invariant_witness :
    ((toyInstance ℚ).RS Representative.canonical
        ((toyInstance ℚ).Add Representative.canonical
          ((toyInstance ℚ).Encrypt Representative.canonical ⟨⟨[223, 97]⟩, ⟨[100, 3]⟩⟩
            ⟨⟨[64, -64]⟩⟩ ⟨[1, -1]⟩ ⟨[0, 1]⟩ ⟨[-1, 0]⟩)
          ((toyInstance ℚ).Encrypt Representative.canonical ⟨⟨[223, 97]⟩, ⟨[100, 3]⟩⟩
            ⟨⟨[7, 3]⟩⟩ ⟨[0, 1]⟩ ⟨[1, 0]⟩ ⟨[0, -1]⟩)).Clone 1).ql
      = (toyInstance ℚ).q0 * (toyInstance ℚ).p ^ (1 : Int).toNat :=
  (reachable_invariant Representative.canonical (toyInstance ℚ) _ (by decide) (by decide)
    (by decide)
    (Reachable.rs _ 1 (by decide)
      (Reachable.clone _
        (Reachable.add _ _ (Reachable.encrypt _ _ _ _ _) (Reachable.encrypt _ _ _ _ _))))).1

/-! ## The noise of rescaling -/

/-- The absolute values of the coefficients of a ternary polynomial add up to
its Hamming weight. -/
theorem sum_abs_ternary (l : List Int) (h : ∀ c ∈ l, c = -1 ∨ c = 0 ∨ c = 1) :
    (l.map fun c => |c|).sum = ((l.filter fun c => decide (c ≠ 0)).length : Int) := by
  induction l with
  | nil => rfl
  | cons a l ih =>
    have ih' := ih (fun c hc => h c (List.mem_cons_of_mem a hc))
    rw [List.map_cons, List.sum_cons, ih']
    rcases h a (List.mem_cons_self a l) with rfl | rfl | rfl
    · rw [List.filter_cons_of_pos (by decide), List.length_cons]
      push_cast
      norm_num
      ring
    · rw [List.filter_cons_of_neg (by decide)]
      simp
    · rw [List.filter_cons_of_pos (by decide), List.length_cons]
      push_cast
      norm_num
      ring

theorem sum_range_abs_getD (l : List Int) :
    ∑ j ∈ Finset.range l.length, |l.getD j 0| = (l.map fun c => |c|).sum := by
  induction l with
  | nil => rfl
  | cons a l ih =>
    rw [List.length_cons, Finset.sum_range_succ', List.map_cons, List.sum_cons, ← ih]
    simp [add_comm]

/-- Coefficient `k` of the negacyclic product of `x`, whose coefficients have
absolute value at most `D/2`, and a polynomial `y` whose coefficients have
absolute values adding up to `h`, has absolute value at most `D*h/2`. -/
theorem mulCoeff_bound (n : ℕ) (D h : Int) (x y : List Int) (k : ℕ) (hk : k < n)
    (hx : ∀ i, 2 * |x.getD i 0| ≤ D) (hy : ∑ j ∈ Finset.range n, |y.getD j 0| = h) :
    2 * |mulCoeff n x y k| ≤ D * h := by
  have hcast := mulCoeff_cast (A := Int) n x y k
  simp only [Int.cast_id] at hcast
  rw [hcast]
  have hterm : ∀ i ∈ Finset.range n,
      |if i ≤ k then x.getD i 0 * y.getD (k - i) 0 else -(x.getD i 0 * y.getD (k + n - i) 0)|
        = |x.getD i 0| * |y.getD (if i ≤ k then k - i else k + n - i) 0| := by
    intro i _
    split
    · rw [abs_mul]
    · rw [abs_neg, abs_mul]
  have hperm : ∑ i ∈ Finset.range n, |y.getD (if i ≤ k then k - i else k + n - i) 0|
      = ∑ j ∈ Finset.range n, |y.getD j 0| := by
    refine Finset.sum_nbij' (fun i => if i ≤ k then k - i else k + n - i)
      (fun j => if j ≤ k then k - j else k + n - j) ?_ ?_ ?_ ?_ ?_
    · intro i hi
      rw [Finset.mem_range] at hi ⊢
      dsimp only
      split <;> omega
    · intro j hj
      rw [Finset.mem_range] at hj ⊢
      dsimp only
      split <;> omega
    · intro i hi
      rw [Finset.mem_range] at hi
      dsimp only
      split_ifs <;> omega
    · intro j hj
      rw [Finset.mem_range] at hj
      dsimp only
      split_ifs <;> omega
    · intro i _
      rfl
  calc 2 * |∑ i ∈ Finset.range n,
        (if i ≤ k then x.getD i 0 * y.getD (k - i) 0
          else -(x.getD i 0 * y.getD (k + n - i) 0))|
      ≤ 2 * ∑ i ∈ Finset.range n,
        |if i ≤ k then x.getD i 0 * y.getD (k - i) 0
          else -(x.getD i 0 * y.getD (k + n - i) 0)| :=
        mul_le_mul_of_nonneg_left (Finset.abs_sum_le_sum_abs _ _) (by norm_num)
    _ = ∑ i ∈ Finset.range n,
        2 * |x.getD i 0| * |y.getD (if i ≤ k then k - i else k + n - i) 0| := by
        rw [Finset.sum_congr rfl hterm, Finset.mul_sum]
        refine Finset.sum_congr rfl fun i _ => ?_
        ring
    _ ≤ ∑ i ∈ Finset.range n, D * |y.getD (if i ≤ k then k - i else k + n - i) 0| :=
        Finset.sum_le_sum fun i _ => mul_le_mul_of_nonneg_right (hx i) (abs_nonneg _)
    _ = D * h := by rw [← Finset.mul_sum, hperm, hy]

theorem halfBounded_getD (D : Int) (hD : 0 ≤ D) (x : Polynomial) (hx : HalfBounded D x)
    (i : ℕ) : 2 * |x.Coeffs.getD i 0| ≤ D := by
  by_cases hi : i < x.Coeffs.length
  · rw [List.getD_eq_getElem _ _ hi]
    exact hx _ (List.getElem_mem hi)
  · rw [List.getD_eq_default _ _ (not_lt.mp hi)]
    simpa using hD

/-- Multiplying by `d` undoes, in a ring where `d * q` vanishes, the
reduction modulo `q`. -/
theorem evalAt_scale_Mod {A : Type} [CommRing A] (t : A) (rep : Representative) (d q : Int)
    (hm : ((d * q : Int) : A) = 0) (x : Polynomial) :
    (d : A) * evalAt t (x.Mod rep q).Coeffs = (d : A) * evalAt t x.Coeffs := by
  rw [← evalAt_scalePoly, ← evalAt_scalePoly]
  apply evalAt_congr t (d * q) hm
  refine ⟨by simp [scalePoly, Polynomial.Mod], ?_⟩
  intro i hi
  have hi' : i < x.Coeffs.length := by simpa [scalePoly, Polynomial.Mod] using hi
  have e1 : (scalePoly d (x.Mod rep q)).Coeffs.getD i 0
      = d * reduceCoeff rep q (x.Coeffs.getD i 0) := by
    rw [List.getD_eq_getElem _ _ hi, List.getD_eq_getElem _ _ hi']
    simp [scalePoly, Polynomial.Mod]
  have e2 : (scalePoly d x).Coeffs.getD i 0 = d * x.Coeffs.getD i 0 := by
    rw [List.getD_eq_getElem _ _ (by simpa [scalePoly] using hi'),
      List.getD_eq_getElem _ _ hi']
    simp [scalePoly]
  rw [e1, e2]
  exact Int.ModEq.mul_left' (reduceCoeff_modEq rep q _)

theorem getD_Add (x y : Polynomial) (N i : ℕ) (hx : x.Coeffs.length = N)
    (hy : y.Coeffs.length = N) (hi : i < N) :
    (negacyclic.Add x y).Coeffs.getD i 0 = x.Coeffs.getD i 0 + y.Coeffs.getD i 0 := by
  unfold negacyclic.Add
  rw [List.getD_eq_getElem _ _ (by simp [hx, hy, hi]), List.getD_eq_getElem _ _ (by omega),
    List.getD_eq_getElem _ _ (by omega), List.getElem_zipWith]

/-- C21: rescaling yields an encryption of `m / p^d`.  For every ciphertext `c`
with `ql = q0 * p^level` (`p > 0`, the level a machine integer, `a` and `b`
with `N` coefficients), every ternary secret `s` with `N` coefficients,
exactly `h` of them non-zero, and every target `k` with `0 ≤ k < level`,
writing `d = p^(level-k)`: the polynomial
`d * Decrypt(sk, RS(c, k)) - Decrypt(sk, c)` is congruent, coefficient by
coefficient modulo the old `ql`, to a polynomial `E` whose coefficients have
absolute value at most `d * (1 + h) / 2`. -/
theorem rs_noise {R : Type} (rep : Representative) (ins : Instance R) (sk : SecretKey)
    (c : Ciphertext) (k : Int) (N h : ℕ)
    (hql : c.ql = ins.q0 * ins.p ^ c.level.toNat) (hp : 0 < ins.p)
    (hk0 : 0 ≤ k) (hk : k < c.level) (hmax : c.level < 2 ^ 63)
    (ha : c.a.Coeffs.length = N) (hb : c.b.Coeffs.length = N)
    (hs : sk.s.Coeffs.length = N) (hter : IsTernary sk.s) (hh : hammingWeight sk.s = h) :
    ∃ E : Polynomial, E.Coeffs.length = N ∧
      HalfBounded (ins.p ^ (c.level - k).toNat * (1 + (h : Int))) E ∧
      CongruentMod c.ql
        (negacyclic.Add
          (scalePoly (ins.p ^ (c.level - k).toNat) (ins.Decrypt rep sk (ins.RS rep c k)).m)
          (scalePoly (-1) (ins.Decrypt rep sk c).m)) E := by
  rw [rs_eq_of_lt rep ins c k hk0 hk hmax]
  have hd : 0 < ins.p ^ (c.level - k).toNat := pow_pos hp _
  have hsplit : c.level.toNat = k.toNat + (c.level - k).toNat := by omega
  have hq : c.ql = ins.p ^ (c.level - k).toNat * (c.ql / ins.p ^ (c.level - k).toNat) := by
    rw [Int.mul_ediv_cancel']
    rw [hql, hsplit, pow_add, ← mul_assoc]
    exact Dvd.intro_left _ rfl
  generalize ins.p ^ (c.level - k).toNat = d at hd hq ⊢
  generalize c.ql / d = q' at hq ⊢
  unfold Instance.Decrypt
  dsimp only
  have lSa := length_ScaleNearest c.a d N ha
  have lSb := length_ScaleNearest c.b d N hb
  have lrA := length_residue d (c.a.ScaleNearest d) c.a N lSa ha
  have lrB := length_residue d (c.b.ScaleNearest d) c.b N lSb hb
  have bA := halfBounded_residue d hd c.a
  have bB := halfBounded_residue d hd c.b
  have lM := length_MulSimple
    (negacyclic.Add (scalePoly d (c.a.ScaleNearest d)) (scalePoly (-1) c.a)) sk.s N lrA
  refine ⟨negacyclic.Add
    (MulSimple (negacyclic.Add (scalePoly d (c.a.ScaleNearest d)) (scalePoly (-1) c.a)) sk.s)
    (negacyclic.Add (scalePoly d (c.b.ScaleNearest d)) (scalePoly (-1) c.b)),
    length_Add _ _ N lM lrB, ?_, ?_⟩
  · intro e he
    obtain ⟨i, hi, rfl⟩ := List.mem_iff_getElem.mp he
    have hiN : i < N := by
      rw [length_Add _ _ N lM lrB] at hi
      exact hi
    rw [← List.getD_eq_getElem _ 0 hi, getD_Add _ _ N i lM lrB hiN]
    have e1 : (MulSimple (negacyclic.Add (scalePoly d (c.a.ScaleNearest d))
        (scalePoly (-1) c.a)) sk.s).Coeffs.getD i 0
        = mulCoeff N (negacyclic.Add (scalePoly d (c.a.ScaleNearest d))
          (scalePoly (-1) c.a)).Coeffs sk.s.Coeffs i := by
      unfold MulSimple
      rw [lrA, getD_map_range _ _ _ hiN]
    have hsum : ∑ j ∈ Finset.range N, |sk.s.Coeffs.getD j 0| = (h : Int) := by
      rw [← hs, sum_range_abs_getD, sum_abs_ternary _ hter, ← hh]
      rfl
    have m1 := mulCoeff_bound N d h _ sk.s.Coeffs i hiN
      (halfBounded_getD d hd.le _ bA) hsum
    have m2 := halfBounded_getD d hd.le _ bB i
    rw [e1]
    have tri := abs_add (mulCoeff N (negacyclic.Add (scalePoly d (c.a.ScaleNearest d))
      (scalePoly (-1) c.a)).Coeffs sk.s.Coeffs i)
      ((negacyclic.Add (scalePoly d (c.b.ScaleNearest d)) (scalePoly (-1) c.b)).Coeffs.getD i 0)
    linarith
  · have lX : (negacyclic.Add (MulSimple ((c.a.ScaleNearest d).Mod rep q') sk.s)
        ((c.b.ScaleNearest d).Mod rep q')).Coeffs.length = N :=
      length_Add _ _ N (length_MulSimple _ _ N (length_Mod rep _ q' N lSa))
        (length_Mod rep _ q' N lSb)
    have lY : (negacyclic.Add (MulSimple c.a sk.s) c.b).Coeffs.length = N :=
      length_Add _ _ N (length_MulSimple _ _ N ha) hb
    refine congruentMod_of_evalAt N c.ql _ _
      (length_residue d _ _ N (length_Mod rep _ q' N lX) (length_Mod rep _ c.ql N lY))
      (length_Add _ _ N lM lrB) ?_
    intro A _ t ht hm
    have hm' : ((d * q' : Int) : A) = 0 := by rw [← hq]; exact hm
    rw [evalAt_residue t d _ _ N (length_Mod rep _ q' N lX) (length_Mod rep _ c.ql N lY),
      evalAt_scale_Mod t rep d q' hm', evalAt_Mod t rep c.ql hm,
      evalAt_Add t _ _ N (length_MulSimple _ _ N (length_Mod rep _ q' N lSa))
        (length_Mod rep _ q' N lSb),
      evalAt_MulSimple t _ _ N ht (length_Mod rep _ q' N lSa) hs,
      evalAt_Add t _ _ N (length_MulSimple _ _ N ha) hb,
      evalAt_MulSimple t _ _ N ht ha hs,
      evalAt_Add t _ _ N lM lrB, evalAt_MulSimple t _ _ N ht lrA hs,
      evalAt_residue t d _ _ N lSa ha, evalAt_residue t d _ _ N lSb hb]
    have h1 := evalAt_scale_Mod t rep d q' hm' (c.a.ScaleNearest d)
    have h2 := evalAt_scale_Mod t rep d q' hm' (c.b.ScaleNearest d)
    linear_combination evalAt t sk.s.Coeffs * h1 + h2

theorem rs_noise_witness :
    ∃ E : Polynomial, E.Coeffs.length = 2 ∧
      HalfBounded ((toyInstance ℚ).p ^ (toyCipherTop.level - 1).toNat * (1 + ((2 : ℕ) : Int))) E ∧
      CongruentMod toyCipherTop.ql
        (negacyclic.Add
          (scalePoly ((toyInstance ℚ).p ^ (toyCipherTop.level - 1).toNat)
            ((toyInstance ℚ).Decrypt Representative.symmetric ⟨⟨[1, -1]⟩⟩
              ((toyInstance ℚ).RS Representative.symmetric toyCipherTop 1)).m)
          (scalePoly (-1)
            ((toyInstance ℚ).Decrypt Representative.symmetric ⟨⟨[1, -1]⟩⟩ toyCipherTop).m)) E :=
  rs_noise Representative.symmetric (toyInstance ℚ) ⟨⟨[1, -1]⟩⟩ toyCipherTop 1 2 2 (by decide)
    (by decide) (by decide) (by decide) (by decide) rfl rfl rfl (by decide) rfl

/-! ## `Encode` on a table of roots computed in float64 -/

/-- The real parts of the inverse Vandermonde action on the mirrored vector of
`z = [1000 + i/2]` for a float64 table of roots of `N = 2`. -/
theorem float_table_entries (e1 e2 e3 : ℝ) :
    (vandermondeInverseEntry (floatTableInstance ℝ e1 e2 e3).crtRoots
        (mirrored [⟨1000, 1 / 2⟩]) 0).re = 1000 ∧
      (vandermondeInverseEntry (floatTableInstance ℝ e1 e2 e3).crtRoots
        (mirrored [⟨1000, 1 / 2⟩]) 1).re = 1 / 2 + 500 * (e1 - e3) := by
  simp only [vandermondeInverseEntry, mirrored, floatTableInstance, List.map_cons, List.map_nil,
    List.reverse_cons, List.reverse_nil, List.nil_append, List.cons_append, List.length_cons,
    List.length_nil, List.range_succ, List.range_zero, List.foldl_cons, List.foldl_nil,
    List.foldl_append, complex128_add_def, complex128_mul_def, complex128_div_def,
    complex128_zero_def]
  norm_num [List.getD]
  ring

/-- What `Encode` returns on `z = [1000 + i/2]` with `delta = 1` from a
float64 table of roots of `N = 2`: the real part of the second entry is
`1/2 + 500 (e1 - e3)`, below `1/2` whenever `e1 < e3`, and the coefficient
`m[1]` is 0. -/
theorem encode_float_table (e1 e2 e3 : ℝ) (h1 : e1 < e3) (h2 : e3 < e1 + 1 / 1000) :
    (floatTableInstance ℝ e1 e2 e3).Encode [⟨1000, 1 / 2⟩] 1
      = some (Except.ok ⟨⟨[1000, 0]⟩⟩) := by
  rw [encode_eq (floatTableInstance ℝ e1 e2 e3) [⟨1000, 1 / 2⟩] 1 1 rfl rfl rfl]
  obtain ⟨h0, h1'⟩ := float_table_entries e1 e2 e3
  simp only [List.range_succ, List.range_zero, List.nil_append, List.cons_append,
    List.map_cons, List.map_nil, Nat.reduceMul, h0, h1']
  have c0 : nearestInteger ((1000 : ℝ) * ((1 : Int) : ℝ)) = 1000 :=
    nearestInteger_eq 1000 _ (by norm_num) (by norm_num)
  have c1 : nearestInteger ((1 / 2 + 500 * (e1 - e3)) * ((1 : Int) : ℝ)) = 0 :=
    nearestInteger_eq 0 _ (by push_cast; linarith) (by push_cast; linarith)
  rw [c0, c1]

/-- The value of the inverse canonical embedding at `i = 1` for `N = 2` and
`z = [1000 + i/2]`, with the exact root `w = exp(iπ/2) = i`: its real part is
`1/2`. -/
theorem exact_embedding_value :
    (1 / ((2 * 1 : ℕ) : ℂ)
      * ∑ k ∈ Finset.range (2 * 1),
          (if k < 1 then Complex128.toComplex (([⟨1000, 1 / 2⟩] : List (Complex128 ℝ)).getD k 0)
            else conj (Complex128.toComplex
              (([⟨1000, 1 / 2⟩] : List (Complex128 ℝ)).getD (2 * 1 - 1 - k) 0)))
          * Complex.exp (Real.pi / ((2 * 1 : ℕ) : ℂ) * Complex.I)
              ^ (-(((2 * k + 1) * 1 : ℕ) : Int))).re = 1 / 2 := by
  have hw : Complex.exp (Real.pi / ((2 * 1 : ℕ) : ℂ) * Complex.I) = Complex.I := by
    have : (Real.pi / ((2 * 1 : ℕ) : ℂ) * Complex.I : ℂ) = ((Real.pi / 2 : ℝ) : ℂ) * Complex.I := by
      push_cast
      ring
    rw [this, Complex.exp_mul_I, ← Complex.ofReal_cos, ← Complex.ofReal_sin,
      Real.cos_pi_div_two, Real.sin_pi_div_two]
    simp
  have h1 : Complex.I ^ (-(((2 * 0 + 1) * 1 : ℕ) : Int)) = -Complex.I := by
    norm_num
  have h3 : Complex.I ^ (-(((2 * 1 + 1) * 1 : ℕ) : Int)) = Complex.I := by
    have : (-(((2 * 1 + 1) * 1 : ℕ) : Int)) = -3 := by norm_num
    rw [this, zpow_neg, show (3 : Int) = ((3 : ℕ) : Int) by norm_num, zpow_natCast]
    have h : Complex.I ^ 3 = -Complex.I := by
      rw [pow_succ, Complex.I_sq]
      ring
    rw [h, inv_neg, Complex.inv_I, neg_neg]
  rw [hw, Finset.sum_range_succ, Finset.sum_range_succ, Finset.sum_range_zero, h1, h3]
  simp [Complex128.toComplex]
  norm_num

/-- C19 fails as stated, on a table of roots computed in float64.  For `N = 2`,
`delta = 1` and `z = [1000 + i/2]` the claim gives `m[1] = 1`, the nearest
integer, ties away from zero, of `Re(phat[1]) = 1/2`.  With the float64 values
of `cos(π/2)`, `sin(π)`, `cos(3π/2)` in the table (first those of Go's
`math.Cos` and `math.Sin`, `6.123233995736757e-17`, `1.2246467991473515e-16`,
`-1.8369701987210272e-16`, then the correctly rounded ones), the real part
that `Encode` rounds is `1/2 - 6.1e-14`, and `Encode` returns `[1000, 0]`. -/
theorem encode_formula_counterexample :
    (floatTableInstance ℝ (4851325781271 / 2 ^ 96) (4851325781271 / 2 ^ 95)
        (14553977343813 / 2 ^ 96)).Encode [⟨1000, 1 / 2⟩] 1
        = some (Except.ok ⟨⟨[1000, 0]⟩⟩) ∧
      (floatTableInstance ℝ (4967757600021511 / 2 ^ 106) (4967757600021511 / 2 ^ 105)
        (3725818200016133 / 2 ^ 104)).Encode [⟨1000, 1 / 2⟩] 1
        = some (Except.ok ⟨⟨[1000, 0]⟩⟩) ∧
      roundHalfAway (((1 : Int) : ℝ) * (1 / ((2 * 1 : ℕ) : ℂ)
        * ∑ k ∈ Finset.range (2 * 1),
            (if k < 1 then
                Complex128.toComplex (([⟨1000, 1 / 2⟩] : List (Complex128 ℝ)).getD k 0)
              else conj (Complex128.toComplex
                (([⟨1000, 1 / 2⟩] : List (Complex128 ℝ)).getD (2 * 1 - 1 - k) 0)))
            * Complex.exp (Real.pi / ((2 * 1 : ℕ) : ℂ) * Complex.I)
                ^ (-(((2 * k + 1) * 1 : ℕ) : Int))).re) = 1 := by
  refine ⟨encode_float_table _ _ _ (by norm_num) (by norm_num),
    encode_float_table _ _ _ (by norm_num) (by norm_num), ?_⟩
  rw [exact_embedding_value]
  unfold roundHalfAway
  rw [if_pos (by norm_num)]
  have : (((1 : Int) : ℝ) * (1 / 2) + 1 / 2 : ℝ) = ((1 : Int) : ℝ) := by norm_num
  rw [this, Int.floor_intCast]

end Ckks
